import Mathlib

/-!
# go-player: rules engine and room membership

A shallow embedding of `internal/state/game.go` (the rules engine) and of the
colour assignment and command dispatch of `internal/server/room.go`.

Conventions of the embedding

* Go `int` coordinates and sizes are `Int`; the board `[][]Color` is a list of
  rows, read with `Game.cell` and written with `Game.setCell`.  An index outside
  the slices panics in Go; `Game.WF` states that the board is `Size × Size`, and
  every access the code makes on a well-formed game is guarded by `inBounds`.
* `map[Color]int` is a total function `Color → Int` (a missing key reads as 0).
* `map[Point]bool` is an association list read with default `false`.
* A method with a pointer receiver that returns `error` becomes a function
  returning the error (if any) together with the receiver after the call.
* The slice used as a stack in `countLiberties` is a list whose head is the
  slice's last element; the `for len(queue)>0` loop is iterated on an explicit
  fuel of `4 * Size * Size + 1` steps, shown in `fill_queue` to be enough; so is
  the region fill of `Score` (`regionLoop_spec`).
* Go's `int` is taken 64 bits wide.  A sum in `Int` is the sum of the code
  while it is a value of `int` (`IsInt64`); the theorem on the growth of the
  capture count assumes a count with room for a board of stones.
* The `float64` score of `Score` is an integer minus 6.5; it is carried as twice
  its value, an odd integer, which is exact while the totals stay in the range
  `ExactTotal`; the theorem on the result of `FinalizeScore` assumes it.
-/

namespace GoPlayer

/-! ## The game record -/

/-- Stone colour, `None` being the zero value (empty cell, spectator). -/
inductive Color where
  | None
  | Black
  | White
  deriving DecidableEq, Repr

/-- The opposing colour; `None` has no opponent. -/
def Color.Opp : Color → Color
  | Color.Black => Color.White
  | Color.White => Color.Black
  | Color.None => Color.None

/-- Rendering of a colour as one letter. -/
def Color.String : Color → String
  | Color.Black => "B"
  | Color.White => "W"
  | Color.None => "N"

/-- A board coordinate. -/
structure Point where
  X : Int
  Y : Int
  deriving DecidableEq, Repr

/-- The game record of `game.go`. -/
structure Game where
  Size : Int
  Turn : Color
  Board : List (List Color)
  Captured : Color → Int
  lastMove : Point
  koPoint : Option Point
  passes : Int
  over : Bool
  result : String
  scoring : Bool
  dead : List (Point × Bool)

/-- The errors returned by `Play`, one per `errors.New` message. -/
inductive PlayError where
  | gameOver
  | spectator
  | notYourTurn
  | outOfBounds
  | occupied
  | ko
  | suicide
  deriving DecidableEq, Repr

/-- The fresh game of `NewGame(size)`: Black to move on an empty board. -/
def NewGame (size : Int) : Game :=
  { Size := size
    Turn := Color.Black
    Board := List.replicate size.toNat (List.replicate size.toNat Color.None)
    Captured := fun _ => 0
    lastMove := ⟨0, 0⟩
    koPoint := none
    passes := 0
    over := false
    result := ""
    scoring := false
    dead := [] }

/-- The read `g.Board[x][y]`. -/
def Game.cell (g : Game) (x y : Int) : Color :=
  (g.Board.getD x.toNat []).getD y.toNat Color.None

/-- The write `g.Board[x][y] = v`. -/
def Game.setCell (g : Game) (x y : Int) (v : Color) : Game :=
  { g with Board := g.Board.set x.toNat ((g.Board.getD x.toNat []).set y.toNat v) }

/-- The board is a `Size × Size` grid. -/
def Game.WF (g : Game) : Prop :=
  0 ≤ g.Size ∧ g.Board.length = g.Size.toNat ∧ ∀ row ∈ g.Board, row.length = g.Size.toNat

instance (g : Game) : Decidable g.WF := by
  unfold Game.WF; infer_instance

/-- Equality of games is decidable: the capture counts are compared at each colour. -/
instance : DecidableEq Game := fun a b =>
  decidable_of_iff
    (a.Size = b.Size ∧ a.Turn = b.Turn ∧ a.Board = b.Board ∧
      (a.Captured Color.None = b.Captured Color.None ∧
        a.Captured Color.Black = b.Captured Color.Black ∧
        a.Captured Color.White = b.Captured Color.White) ∧
      a.lastMove = b.lastMove ∧ a.koPoint = b.koPoint ∧ a.passes = b.passes ∧
      a.over = b.over ∧ a.result = b.result ∧ a.scoring = b.scoring ∧ a.dead = b.dead)
    (by
      constructor
      · rintro ⟨h1, h2, h3, ⟨h4, h5, h6⟩, h7, h8, h9, h10, h11, h12, h13⟩
        cases a
        cases b
        simp only at h1 h2 h3 h4 h5 h6 h7 h8 h9 h10 h11 h12 h13
        subst h1 h2 h3 h7 h8 h9 h10 h11 h12 h13
        congr
        funext c
        cases c <;> assumption
      · rintro rfl
        simp)

/-! ## Neighbours and liberties -/

/-- The bounds test `inBounds`. -/
def Game.inBounds (g : Game) (x y : Int) : Bool :=
  decide (x ≥ 0) && decide (y ≥ 0) && decide (x < g.Size) && decide (y < g.Size)

/-- The four direction vectors of `neighbors`, in source order. -/
def dirs : List (Int × Int) := [(1, 0), (-1, 0), (0, 1), (0, -1)]

/-- The in-bounds orthogonal neighbours of `(x, y)`, in source order. -/
def Game.neighbors (g : Game) (x y : Int) : List Point :=
  dirs.filterMap fun d =>
    if g.inBounds (x + d.1) (y + d.2) then some ⟨x + d.1, y + d.2⟩ else none

/-- The local variables of the flood fill in `countLiberties`. -/
structure Fill where
  visited : List Point
  queue : List Point
  stones : List Point
  libs : List Point

/-- One pass of the inner loop of `countLiberties`: neighbour `nb` of a stone. -/
def Game.visit (g : Game) (c : Color) (s : Fill) (nb : Point) : Fill :=
  if g.cell nb.X nb.Y = Color.None then
    { s with libs := if nb ∈ s.libs then s.libs else nb :: s.libs }
  else if g.cell nb.X nb.Y = c then
    if nb ∈ s.visited then s else { s with queue := nb :: s.queue }
  else s

/-- The `for len(queue)>0` loop of `countLiberties`, run for at most `fuel` steps. -/
def Game.fillLoop (g : Game) (c : Color) : Nat → Fill → Fill
  | 0, s => s
  | fuel + 1, s =>
    match s.queue with
    | [] => s
    | p :: rest =>
      if p ∈ s.visited then
        g.fillLoop c fuel { s with queue := rest }
      else
        g.fillLoop c fuel
          ((g.neighbors p.X p.Y).foldl (g.visit c)
            { s with queue := rest, visited := p :: s.visited, stones := s.stones ++ [p] })

/-- The number of loop steps allowed to a flood fill on the board of `g`. -/
def Game.fillFuel (g : Game) : Nat := 4 * g.Size.toNat * g.Size.toNat + 1

/-- The flood fill of `countLiberties` from `(x, y)` over cells of colour `c`. -/
def Game.fill (g : Game) (x y : Int) (c : Color) : Fill :=
  g.fillLoop c g.fillFuel { visited := [], queue := [⟨x, y⟩], stones := [], libs := [] }

/-- The method `countLiberties`: number of liberties and stones of the group at `(x, y)`. -/
def Game.countLiberties (g : Game) (x y : Int) (c : Color) : Int × List Point :=
  if g.cell x y ≠ c then (0, [])
  else ((g.fill x y c).libs.length, (g.fill x y c).stones)

/-! ## `Play` -/

/-- The body `for _,s := range stones { g.Board[s.X][s.Y]=None }`. -/
def Game.removeStones (g : Game) (stones : List Point) : Game :=
  stones.foldl (fun h s => h.setCell s.X s.Y Color.None) g

/-- One pass of the capture loop of `Play` at neighbour `nb`; the state is the
game together with the running `captured` count. -/
def captureStep (c : Color) (st : Game × Int) (nb : Point) : Game × Int :=
  if st.1.cell nb.X nb.Y = c.Opp then
    if (st.1.countLiberties nb.X nb.Y c.Opp).1 = 0 then
      (st.1.removeStones (st.1.countLiberties nb.X nb.Y c.Opp).2,
        st.2 + ((st.1.countLiberties nb.X nb.Y c.Opp).2.length : Int))
    else st
  else st

/-- The capture loop of `Play`, run on the game with the stone already placed. -/
def Game.captureLoop (g : Game) (c : Color) (x y : Int) : Game × Int :=
  (g.neighbors x y).foldl (captureStep c) (g, 0)

/-- The search for the single liberty in the ko branch of `Play`: the first
empty neighbour of `(x, y)`, if any. -/
def Game.findKo (g : Game) (x y : Int) : Option Point :=
  (g.neighbors x y).find? fun nb => decide (g.cell nb.X nb.Y = Color.None)

/-- The tentative placement at the start of `Play`: `g.Board[x][y]=c` and `g.koPoint = nil`. -/
def Game.place (g : Game) (c : Color) (x y : Int) : Game :=
  { g.setCell x y c with koPoint := none }

/-- The game once the stone is placed and the capture loop of `Play` has run. -/
def Game.afterCaptures (g : Game) (c : Color) (x y : Int) : Game :=
  ((g.place c x y).captureLoop c x y).1

/-- The ko branch of `Play` (lines 117 to 128): the value of `g.koPoint` after it,
on the game `g` left by the capture loop with `captured` stones taken. -/
def Game.koBranch (g : Game) (captured : Int) (c : Color) (x y : Int) : Option Point :=
  if captured = 1 then
    if (g.countLiberties x y c).1 = 1 then
      match g.findKo x y with
      | some p => some p
      | none => g.koPoint
    else g.koPoint
  else g.koPoint

/-- The end of a successful `Play` (lines 115 to 134) on the game `g` left by the
capture loop: the ko branch, then the capture count, the last move, the pass
counter and the turn.  The sum `g.Captured[c] += captured` is taken in `Int`: it
is the sum of the code while it is a value of `int` (`IsInt64`), beyond which
the code wraps; the theorem on the growth of the count assumes as much. -/
def Game.commit (g : Game) (captured : Int) (c : Color) (x y : Int) : Game :=
  { g with
    koPoint := g.koBranch captured c x y
    Captured := Function.update g.Captured c (g.Captured c + captured)
    lastMove := ⟨x, y⟩
    passes := 0
    Turn := g.Turn.Opp }

/-- The method `Play`. -/
def Game.Play (g : Game) (c : Color) (x y : Int) : Option PlayError × Game :=
  if g.over then (some PlayError.gameOver, g)
  else if c = Color.None then (some PlayError.spectator, g)
  else if c ≠ g.Turn then (some PlayError.notYourTurn, g)
  else if !g.inBounds x y then (some PlayError.outOfBounds, g)
  else if g.cell x y ≠ Color.None then (some PlayError.occupied, g)
  else if g.koPoint = some ⟨x, y⟩ then (some PlayError.ko, g)
  else
    let g2 := g.afterCaptures c x y
    let captured := ((g.place c x y).captureLoop c x y).2
    if (g2.countLiberties x y c).1 = 0 then
      (some PlayError.suicide, g2.setCell x y Color.None)
    else
      (none, g2.commit captured c x y)

/-! ## `Pass`, `Resign` and the scoring phase -/

/-- The method `Pass`. -/
def Game.Pass (g : Game) (c : Color) : Game :=
  if g.over || decide (c = Color.None) || decide (c ≠ g.Turn) then g
  else
    let g1 := { g with passes := g.passes + 1, Turn := g.Turn.Opp }
    if g1.passes ≥ 2 then { g1 with scoring := true } else g1

/-- The method `Resign`. -/
def Game.Resign (g : Game) (c : Color) : Game :=
  if g.over || decide (c = Color.None) then g
  else { g with over := true, result := if c = Color.Black then "W+R" else "B+R" }

/-- The method `StartScoring`. -/
def Game.StartScoring (g : Game) : Game :=
  if g.over then g else { g with scoring := true }

/-- The read `g.dead[p]` of the dead-mark map, `false` for a missing key. -/
def deadGet (dead : List (Point × Bool)) (p : Point) : Bool :=
  match dead.find? fun e => decide (e.1 = p) with
  | some e => e.2
  | none => false

/-- The write `g.dead[p] = v` of the dead-mark map. -/
def deadSet (dead : List (Point × Bool)) (p : Point) (v : Bool) : List (Point × Bool) :=
  match dead with
  | [] => [(p, v)]
  | e :: rest => if e.1 = p then (p, v) :: rest else e :: deadSet rest p v

/-- The method `ToggleDeadAt`. -/
def Game.ToggleDeadAt (g : Game) (x y : Int) : Game :=
  if !g.scoring || !g.inBounds x y then g
  else { g with dead := deadSet g.dead ⟨x, y⟩ (!deadGet g.dead ⟨x, y⟩) }

/-- All cells of the board, row by row. -/
def Game.allPoints (g : Game) : List Point :=
  (List.range g.Size.toNat).flatMap fun (i : Nat) =>
    (List.range g.Size.toNat).map fun (j : Nat) => Point.mk (Nat.cast i) (Nat.cast j)

/-- The keys of the dead-mark map, each once. -/
def deadKeys (dead : List (Point × Bool)) : List Point :=
  (dead.map Prod.fst).dedup

/-- The local variables of one empty-region flood fill in `Score`; `visited` is
shared by all regions. -/
structure Region where
  visited : List Point
  q : List Point
  empties : List Point
  colors : List Color

/-- One pass of the inner loop of the region fill of `Score`: direction `d` at cell `p`. -/
def regionVisit (b : Game) (p : Point) (s : Region) (d : Int × Int) : Region :=
  if p.X + d.1 < 0 || p.Y + d.2 < 0 || p.X + d.1 ≥ b.Size || p.Y + d.2 ≥ b.Size then s
  else if b.cell (p.X + d.1) (p.Y + d.2) = Color.None then
    { s with q := ⟨p.X + d.1, p.Y + d.2⟩ :: s.q }
  else
    { s with colors :=
        if b.cell (p.X + d.1) (p.Y + d.2) ∈ s.colors then s.colors
        else b.cell (p.X + d.1) (p.Y + d.2) :: s.colors }

/-- The `for len(q)>0` loop of `Score`, run for at most `fuel` steps. -/
def regionLoop (b : Game) : Nat → Region → Region
  | 0, s => s
  | fuel + 1, s =>
    match s.q with
    | [] => s
    | p :: rest =>
      if p ∈ s.visited then regionLoop b fuel { s with q := rest }
      else
        regionLoop b fuel
          (dirs.foldl (regionVisit b p)
            { s with q := rest, visited := p :: s.visited, empties := s.empties ++ [p] })

/-- The running totals of `Score`: the board copy and both counts. -/
structure Tally where
  board : Game
  visited : List Point
  black : Int
  white : Int

/-- The body of the loop over dead marks in `Score`, at a point marked dead. -/
def removeDead (t : Tally) (p : Point) : Tally :=
  { t with
    white := if t.board.cell p.X p.Y = Color.Black then t.white + 1 else t.white
    black :=
      if t.board.cell p.X p.Y = Color.Black then t.black
      else if t.board.cell p.X p.Y = Color.White then t.black + 1 else t.black
    board := t.board.setCell p.X p.Y Color.None }

/-- The body of the stone-counting loop of `Score` at cell `p`. -/
def countStone (t : Tally) (p : Point) : Tally :=
  { t with
    black := if t.board.cell p.X p.Y = Color.Black then t.black + 1 else t.black
    white := if t.board.cell p.X p.Y = Color.White then t.white + 1 else t.white }

/-- The body of the territory loop of `Score` at cell `p`. -/
def countRegion (t : Tally) (p : Point) : Tally :=
  if t.board.cell p.X p.Y ≠ Color.None || decide (p ∈ t.visited) then t
  else
    let r := regionLoop t.board t.board.fillFuel
      { visited := t.visited, q := [p], empties := [], colors := [] }
    if r.colors.length = 1 then
      { t with
        visited := r.visited
        black := if Color.Black ∈ r.colors then t.black + r.empties.length else t.black
        white := if Color.White ∈ r.colors then t.white + r.empties.length else t.white }
    else { t with visited := r.visited }

/-- The function `itoa` on a half-integer given as twice its value: `%.1f` with a
trailing `.0` trimmed.  Every `float64` reaching `itoa` is an integer plus or
minus 6.5; it is exact in `float64` while the totals of `Score` are in the
range `ExactTotal`. -/
def itoa (twice : Int) : String :=
  let sign := if twice < 0 then "-" else ""
  if twice.natAbs % 2 = 0 then sign ++ toString (twice.natAbs / 2)
  else sign ++ toString (twice.natAbs / 2) ++ ".5"

/-- The method `Score`.  The totals are of type `int`; `score` is carried as
twice its value.  This is the `float64` the code computes while the totals stay
in the range `ExactTotal`, beyond which `float64` rounds: the theorem on the
result of `FinalizeScore` assumes `ScoreExact`. -/
def Game.Score (g : Game) : String :=
  let t0 : Tally :=
    { board := g, visited := [], black := g.Captured Color.Black,
      white := g.Captured Color.White }
  let t1 := ((deadKeys g.dead).filter fun p => deadGet g.dead p).foldl removeDead t0
  let t2 := g.allPoints.foldl countStone t1
  let t3 := g.allPoints.foldl countRegion t2
  let twice : Int := 2 * t3.black - (2 * t3.white + 13)
  if twice > 0 then "B+" ++ itoa twice else "W+" ++ itoa (-twice)

/-- The method `FinalizeScore`. -/
def Game.FinalizeScore (g : Game) : Game :=
  if g.over || !g.scoring then g
  else { g with over := true, result := g.Score }

/-! ## Rooms and sessions -/

/-- A connected session: `id` stands for the identity of the `*Client`. -/
structure Client where
  id : Nat
  color : Color
  deriving DecidableEq, Repr

/-- A room: its game and its connected sessions. -/
structure Room where
  game : Game
  conns : List Client

/-- The set `colorsInUse` built in `ServeWS`. -/
def colorsInUse (conns : List Client) (c : Color) : Bool :=
  conns.any fun cli => decide (cli.color ≠ Color.None) && decide (cli.color = c)

/-- The locked section of `ServeWS`: the new session `id` joins the room and is
given a colour; the colour is returned with the room. -/
def Room.ServeWS (r : Room) (id : Nat) : Room × Color :=
  let conns := r.conns ++ [⟨id, Color.None⟩]
  let color :=
    if !colorsInUse conns Color.Black then Color.Black
    else if !colorsInUse conns Color.White then Color.White
    else Color.None
  ({ r with conns := r.conns ++ [⟨id, color⟩] }, color)

/-- The deferred exit of `Client.reader`: the session `id` leaves the room. -/
def Room.leave (r : Room) (id : Nat) : Room :=
  { r with conns := r.conns.filter fun cli => decide (cli.id ≠ id) }

/-- A decoded inbound message: its `type` and, where used, `x` and `y` after `toInt`. -/
inductive Msg where
  | place (x y : Int)
  | pass
  | resign
  | requestScore
  | finalizeScore
  | toggleDead (x y : Int)
  | sync
  | unknown
  deriving DecidableEq, Repr

/-- The effect of `Client.handle` on the room's game, for a session of colour `color`. -/
def Room.handle (r : Room) (color : Color) (msg : Msg) : Room :=
  match msg with
  | Msg.place x y => { r with game := (r.game.Play color x y).2 }
  | Msg.pass => { r with game := r.game.Pass color }
  | Msg.resign => { r with game := r.game.Resign color }
  | Msg.requestScore => { r with game := r.game.StartScoring }
  | Msg.finalizeScore => { r with game := r.game.FinalizeScore }
  | Msg.toggleDead x y => { r with game := r.game.ToggleDeadAt x y }
  | Msg.sync => r
  | Msg.unknown => r

/-- A fresh room, as made by `CreateRoom`. -/
def newRoom : Room := { game := NewGame 19, conns := [] }

/-! ## Vocabulary of the statements -/

/-- Orthogonal adjacency of two points. -/
def Adj (p q : Point) : Prop :=
  (q.X = p.X + 1 ∧ q.Y = p.Y) ∨ (q.X = p.X + -1 ∧ q.Y = p.Y) ∨
    (q.X = p.X ∧ q.Y = p.Y + 1) ∨ (q.X = p.X ∧ q.Y = p.Y + -1)

/-- Cells joined to `s` by a path of orthogonally adjacent in-bounds cells of colour `c`. -/
inductive Game.Conn (g : Game) (c : Color) (s : Point) : Point → Prop
  | seed : Game.Conn g c s s
  | step {p q : Point} : Game.Conn g c s p → q ∈ g.neighbors p.X p.Y →
      g.cell q.X q.Y = c → Game.Conn g c s q

/-- The group of colour `c` containing `s` has no liberty: no cell of it has an
empty neighbour. -/
def Game.NoLiberty (g : Game) (c : Color) (s : Point) : Prop :=
  ∀ p, g.Conn c s p → ∀ q ∈ g.neighbors p.X p.Y, g.cell q.X q.Y ≠ Color.None

/-- The cell `q` is a liberty of the group of colour `c` containing `s`: it is
empty and next to a cell of the group. -/
def Game.IsLiberty (g : Game) (c : Color) (s q : Point) : Prop :=
  ∃ p, g.Conn c s p ∧ q ∈ g.neighbors p.X p.Y ∧ g.cell q.X q.Y = Color.None

/-- On the board `g` (the stone of colour `c` already placed at `(x, y)`), the
cell `p` belongs to a group of the opponent that is orthogonally adjacent to
`(x, y)` and has no liberty. -/
def Game.Captures (g : Game) (c : Color) (x y : Int) (p : Point) : Prop :=
  ∃ nb ∈ g.neighbors x y, g.cell nb.X nb.Y = c.Opp ∧ g.Conn c.Opp nb p ∧ g.NoLiberty c.Opp nb

/-- The guards of `Play` all pass. -/
structure Game.Admits (g : Game) (c : Color) (x y : Int) : Prop where
  notOver : g.over = false
  colour : c ≠ Color.None
  turn : c = g.Turn
  inb : g.inBounds x y = true
  empty : g.cell x y = Color.None
  notKo : g.koPoint ≠ some ⟨x, y⟩

/-- The board is well formed and the ko point, if any, is an empty cell of the board. -/
def Game.Sound (g : Game) : Prop :=
  g.WF ∧ ∀ p, g.koPoint = some p → g.inBounds p.X p.Y = true ∧ g.cell p.X p.Y = Color.None

/-- The games reached from a fresh game by the six commands. -/
inductive Reachable : Game → Prop
  | new (n : Nat) : Reachable (NewGame n)
  | play {g : Game} (c : Color) (x y : Int) : Reachable g → Reachable (g.Play c x y).2
  | pass {g : Game} (c : Color) : Reachable g → Reachable (g.Pass c)
  | resign {g : Game} (c : Color) : Reachable g → Reachable (g.Resign c)
  | startScoring {g : Game} : Reachable g → Reachable g.StartScoring
  | toggleDead {g : Game} (x y : Int) : Reachable g → Reachable (g.ToggleDeadAt x y)
  | finalize {g : Game} : Reachable g → Reachable g.FinalizeScore

/-- Play a list of moves in turn; `none` as soon as one of them is rejected. -/
def playAll : List (Color × Int × Int) → Game → Option Game
  | [], g => some g
  | m :: ms, g =>
    match (g.Play m.1 m.2.1 m.2.2).1 with
    | none => playAll ms (g.Play m.1 m.2.1 m.2.2).2
    | some _ => none

/-! ## Loop invariants -/

/-- Number of board cells not yet in `v`. -/
def Game.unvisited (g : Game) (v : List Point) : Nat :=
  (g.allPoints.filter fun p => decide (p ∉ v)).length

/-- The invariant of the flood-fill loop started at `seed`. -/
structure FillInv (g : Game) (c : Color) (seed : Point) (s : Fill) : Prop where
  visited_ok : ∀ p ∈ s.visited, g.inBounds p.X p.Y = true ∧ g.cell p.X p.Y = c ∧ g.Conn c seed p
  queue_ok : ∀ p ∈ s.queue, g.inBounds p.X p.Y = true ∧ g.cell p.X p.Y = c ∧ g.Conn c seed p
  stones_nodup : s.stones.Nodup
  stones_eq : ∀ p, p ∈ s.stones ↔ p ∈ s.visited
  closed : ∀ p ∈ s.visited, ∀ q ∈ g.neighbors p.X p.Y, g.cell q.X q.Y = c →
    q ∈ s.visited ∨ q ∈ s.queue
  libs_nodup : s.libs.Nodup
  libs_eq : ∀ q, q ∈ s.libs ↔
    ∃ p ∈ s.visited, q ∈ g.neighbors p.X p.Y ∧ g.cell q.X q.Y = Color.None
  seed_in : seed ∈ s.visited ∨ seed ∈ s.queue

/-- The invariant of the capture loop of `Play` on the board `g1` (stone placed):
after the neighbours `done`, the cells `R` have been emptied. -/
structure CapInv (g1 : Game) (o : Color) (done : List Point) (st : Game × Int)
    (R : List Point) : Prop where
  fields : st.1 = { g1 with Board := st.1.Board }
  wf : st.1.WF
  nodup : R.Nodup
  count : st.2 = (R.length : Int)
  mem : ∀ p, p ∈ R ↔
    ∃ nb ∈ done, g1.cell nb.X nb.Y = o ∧ g1.Conn o nb p ∧ g1.NoLiberty o nb
  cell : ∀ a b, g1.inBounds a b = true →
    st.1.cell a b = if (⟨a, b⟩ : Point) ∈ R then Color.None else g1.cell a b

/-! ## Positions used as examples -/

/-- The 3×3 position of the capture scenario: White at (1,1), Black at (0,1),
(2,1), (1,0), Black to move. -/
def captureGame : Game :=
  { NewGame 3 with
    Board :=
      [[Color.None, Color.Black, Color.None],
       [Color.Black, Color.White, Color.None],
       [Color.None, Color.Black, Color.None]] }

/-- The position one move before `koGame`: Black to move. -/
def preKoGame : Game :=
  { Size := 5
    Turn := Color.Black
    Board :=
      [[Color.None, Color.Black, Color.White, Color.None, Color.None],
       [Color.Black, Color.White, Color.None, Color.White, Color.None],
       [Color.None, Color.Black, Color.White, Color.None, Color.None],
       [Color.None, Color.None, Color.None, Color.None, Color.Black],
       [Color.White, Color.None, Color.None, Color.Black, Color.None]]
    Captured := fun _ => 0
    lastMove := ⟨4, 0⟩
    koPoint := none
    passes := 0
    over := false
    result := ""
    scoring := false
    dead := [] }

/-- The moves of a game on a 5×5 board leading to a ko: Black has just taken
the White stone at (1,1) by playing (1,2). -/
def koMoves : List (Color × Int × Int) :=
  [(Color.Black, 0, 1), (Color.White, 0, 2), (Color.Black, 1, 0), (Color.White, 1, 3),
   (Color.Black, 2, 1), (Color.White, 2, 2), (Color.Black, 3, 4), (Color.White, 1, 1),
   (Color.Black, 4, 3), (Color.White, 4, 0), (Color.Black, 1, 2)]

/-- The position after `koMoves`: White to move, ko point (1,1). -/
def koGame : Game :=
  { Size := 5
    Turn := Color.White
    Board :=
      [[Color.None, Color.Black, Color.White, Color.None, Color.None],
       [Color.Black, Color.None, Color.Black, Color.White, Color.None],
       [Color.None, Color.Black, Color.White, Color.None, Color.None],
       [Color.None, Color.None, Color.None, Color.None, Color.Black],
       [Color.White, Color.None, Color.None, Color.Black, Color.None]]
    Captured := Function.update (fun _ => 0) Color.Black 1
    lastMove := ⟨1, 2⟩
    koPoint := some ⟨1, 1⟩
    passes := 0
    over := false
    result := ""
    scoring := false
    dead := [] }

/-- A finished game still in its scoring phase: `NewGame 19`, then
`StartScoring`, then `Resign` by Black. -/
def overGame : Game := ((NewGame 19).StartScoring).Resign Color.Black

/-- The record `Snapshot` sent to the clients. -/
structure Snapshot where
  Size : Int
  Turn : String
  Board : List (List String)
  Captured : List (String × Int)
  LastMove : Option Point
  Over : Bool
  Result : String
  Scoring : Bool
  Dead : List Point
  deriving DecidableEq, Repr

/-- The method `Snapshot`.  The map `Captured` is the list of its two entries; the
order of `Dead`, that of a map iteration in Go, is here that of the keys. -/
def Game.Snapshot (g : Game) : Snapshot :=
  { Size := g.Size
    Turn := g.Turn.String
    Board := (List.range g.Size.toNat).map fun (i : Nat) =>
      (List.range g.Size.toNat).map fun (j : Nat) =>
        match g.cell (Nat.cast i) (Nat.cast j) with
        | Color.Black => "B"
        | Color.White => "W"
        | Color.None => "N"
    Captured := [("B", g.Captured Color.Black), ("W", g.Captured Color.White)]
    LastMove :=
      if g.lastMove.X ≠ 0 ∨ g.lastMove.Y ≠ 0 then some ⟨g.lastMove.X, g.lastMove.Y⟩ else none
    Over := g.over
    Result := g.result
    Scoring := g.scoring
    Dead :=
      if g.scoring && decide ((deadKeys g.dead).length > 0) then
        (deadKeys g.dead).filter fun p => deadGet g.dead p
      else [] }

/-- The colour of the `i`-th session to join a fresh room. -/
def seat (i : Nat) : Color :=
  if i = 0 then Color.Black else if i = 1 then Color.White else Color.None

/-- The sessions `ids` join the room one after the other (no session leaves); the
colours they are given are returned in join order. -/
def Room.joinAll (r : Room) : List Nat → Room × List Color
  | [] => (r, [])
  | id :: ids =>
    ((Room.joinAll (r.ServeWS id).1 ids).1,
      (r.ServeWS id).2 :: (Room.joinAll (r.ServeWS id).1 ids).2)

/-- Every dead mark lies on the board. -/
def Game.DeadOK (g : Game) : Prop :=
  ∀ e ∈ g.dead, g.inBounds e.1.X e.1.Y = true

instance (g : Game) : Decidable g.DeadOK := by
  unfold Game.DeadOK; infer_instance

/-- A connected session with the state snapshots accepted by `send` on its
`sendCh`, oldest first.  The writer that takes them out is not part of the
model, so the channel holds everything accepted so far. -/
structure Session where
  client : Client
  sendCh : List Snapshot
  deriving DecidableEq, Repr

/-- The method `send`: enqueue unless the buffer of 16 is full. -/
def Session.send (s : Session) (v : Snapshot) : Session :=
  if s.sendCh.length < 16 then { s with sendCh := s.sendCh ++ [v] } else s

/-- A call of `Client.handle` in progress.  `pc` is 0 before the first critical
section, 1 between its `Unlock` and the call of `broadcast`, 2 once the call
has returned; `snap` is the snapshot taken under the lock. -/
structure Handler where
  client : Client
  msg : Msg
  pc : Nat
  snap : Option Snapshot
  deriving DecidableEq, Repr

/-- A room with the outbound channels of its sessions and the handlers running
on behalf of them. -/
structure Hub where
  game : Game
  sessions : List Session
  handlers : List Handler

/-- The function `broadcast`: one critical section sending `v` to every session. -/
def Hub.broadcast (h : Hub) (v : Snapshot) : Hub :=
  { h with sessions := h.sessions.map fun s => s.send v }

/-- The first critical section of `Client.handle` for the handler `t`: the command
is applied and the snapshot taken; a rejected `place` returns at once (its error
goes to the sender alone), `sync` sends the snapshot to the sender alone, an
unknown message only reports an error. -/
def Hub.enter (h : Hub) (i : Nat) (t : Handler) : Hub :=
  match t.msg with
  | Msg.place x y =>
    { h with
      game := (h.game.Play t.client.color x y).2
      handlers := h.handlers.set i
        (if (h.game.Play t.client.color x y).1.isSome then { t with pc := 2 }
         else { t with pc := 1, snap := some (h.game.Play t.client.color x y).2.Snapshot }) }
  | Msg.sync =>
    { h with
      sessions := h.sessions.map fun s =>
        if s.client = t.client then s.send h.game.Snapshot else s
      handlers := h.handlers.set i { t with pc := 2 } }
  | Msg.unknown => { h with handlers := h.handlers.set i { t with pc := 2 } }
  | m =>
    { h with
      game := (Room.handle ⟨h.game, []⟩ t.client.color m).game
      handlers := h.handlers.set i
        { t with pc := 1, snap := some (Room.handle ⟨h.game, []⟩ t.client.color m).game.Snapshot } }

/-- One atomic section of the handler number `i`: the room lock serialises the
sections, and the sections of different handlers interleave freely. -/
def Hub.step (h : Hub) (i : Nat) : Hub :=
  match h.handlers.get? i with
  | none => h
  | some t =>
    if t.pc = 0 then h.enter i t
    else if t.pc = 1 then
      match t.snap with
      | some v => { h.broadcast v with handlers := h.handlers.set i { t with pc := 2 } }
      | none => { h with handlers := h.handlers.set i { t with pc := 2 } }
    else h

/-- The run of a schedule: at each step the handler named takes its next section. -/
def Hub.run (h : Hub) (schedule : List Nat) : Hub :=
  schedule.foldl Hub.step h

/-- A fresh room with the sessions of Black and White, each about to handle a
`place`: Black at (3,3), White at (15,15). -/
def raceHub : Hub :=
  { game := NewGame 19
    sessions := [⟨⟨1, Color.Black⟩, []⟩, ⟨⟨2, Color.White⟩, []⟩]
    handlers := [⟨⟨1, Color.Black⟩, Msg.place 3 3, 0, none⟩,
      ⟨⟨2, Color.White⟩, Msg.place 15 15, 0, none⟩] }

/-- The game after Black's move at (3,3). -/
def raceGame1 : Game := ((NewGame 19).Play Color.Black 3 3).2

/-- The game after White's answer at (15,15). -/
def raceGame2 : Game := (raceGame1.Play Color.White 15 15).2

/-- The game `h` comes from `g` by commands that place no stone: `Pass`, `Resign`,
`StartScoring`, `ToggleDeadAt` and `FinalizeScore`. -/
inductive Quiet (g : Game) : Game → Prop
  | refl : Quiet g g
  | pass {h : Game} (c : Color) : Quiet g h → Quiet g (h.Pass c)
  | resign {h : Game} (c : Color) : Quiet g h → Quiet g (h.Resign c)
  | startScoring {h : Game} : Quiet g h → Quiet g h.StartScoring
  | toggleDead {h : Game} (x y : Int) : Quiet g h → Quiet g (h.ToggleDeadAt x y)
  | finalize {h : Game} : Quiet g h → Quiet g h.FinalizeScore

/-- The ko point of `g`, if any, comes from the last stone placed: a successful
`Play` that took exactly one stone, standing on the ko point, and left its group
with the ko point as single liberty; no stone was placed since. -/
def Game.KoOrigin (g : Game) : Prop :=
  ∀ p, g.koPoint = some p →
    ∃ g0 c0 x0 y0, Reachable g0 ∧ (g0.Play c0 x0 y0).1 = none ∧
      (g0.Play c0 x0 y0).2.Captured c0 = g0.Captured c0 + 1 ∧
      g0.cell p.X p.Y = c0.Opp ∧ Quiet (g0.Play c0 x0 y0).2 g ∧
      g.cell p.X p.Y = Color.None ∧
      g.IsLiberty c0 ⟨x0, y0⟩ p ∧ ∀ q, g.IsLiberty c0 ⟨x0, y0⟩ q → q = p

/-- The moves of a game on a 5×5 board in which Black, by playing (1,2), joins
the stone at (1,3), takes the White stone at (1,1) and is left with (1,1) as the
single liberty of the two stones. -/
def bigKoMoves : List (Color × Int × Int) :=
  [(Color.Black, 0, 1), (Color.White, 1, 1), (Color.Black, 1, 0), (Color.White, 0, 2),
   (Color.Black, 2, 1), (Color.White, 2, 2), (Color.Black, 1, 3), (Color.White, 0, 3),
   (Color.Black, 4, 0), (Color.White, 2, 3), (Color.Black, 4, 4), (Color.White, 1, 4),
   (Color.Black, 1, 2)]

/-- The position before the last move of `bigKoMoves`: Black to move. -/
def preBigKoGame : Game :=
  { Size := 5
    Turn := Color.Black
    Board :=
      [[Color.None, Color.Black, Color.White, Color.White, Color.None],
       [Color.Black, Color.White, Color.None, Color.Black, Color.White],
       [Color.None, Color.Black, Color.White, Color.White, Color.None],
       [Color.None, Color.None, Color.None, Color.None, Color.None],
       [Color.Black, Color.None, Color.None, Color.None, Color.Black]]
    Captured := fun _ => 0
    lastMove := ⟨1, 4⟩
    koPoint := none
    passes := 0
    over := false
    result := ""
    scoring := false
    dead := [] }

/-- The position after `bigKoMoves`: White to move, ko point (1,1). -/
def bigKoGame : Game :=
  { Size := 5
    Turn := Color.White
    Board :=
      [[Color.None, Color.Black, Color.White, Color.White, Color.None],
       [Color.Black, Color.None, Color.Black, Color.Black, Color.White],
       [Color.None, Color.Black, Color.White, Color.White, Color.None],
       [Color.None, Color.None, Color.None, Color.None, Color.None],
       [Color.Black, Color.None, Color.None, Color.None, Color.Black]]
    Captured := Function.update (fun _ => 0) Color.Black 1
    lastMove := ⟨1, 2⟩
    koPoint := some ⟨1, 1⟩
    passes := 0
    over := false
    result := ""
    scoring := false
    dead := [] }

/-- Every stone on the board belongs to a group with a liberty. -/
def Game.Alive (g : Game) : Prop :=
  ∀ p : Point, g.inBounds p.X p.Y = true → g.cell p.X p.Y ≠ Color.None →
    ∃ q, g.IsLiberty (g.cell p.X p.Y) p q

/-- The points marked dead, each once. -/
def Game.deadPoints (g : Game) : List Point :=
  (deadKeys g.dead).filter fun p => deadGet g.dead p

/-- The copy of the board made by `Score`, every point marked dead emptied. -/
def Game.cleared (g : Game) : Game :=
  g.removeStones g.deadPoints

/-- The empty region of `p` on the board `b` has a bordering stone of colour `k`. -/
def Game.Borders (b : Game) (p : Point) (k : Color) : Prop :=
  ∃ q r, b.Conn Color.None p q ∧ r ∈ b.neighbors q.X q.Y ∧ b.cell r.X r.Y = k

/-- The empty cell `p` of the board `b` lies in a maximal empty region whose
bordering stones, at least one, are all of colour `k`. -/
def Game.Territory (b : Game) (k : Color) (p : Point) : Prop :=
  b.inBounds p.X p.Y = true ∧ b.cell p.X p.Y = Color.None ∧ b.Borders p k ∧ ¬ b.Borders p k.Opp

/-- The inner loop of the region fill of `Score` at an in-bounds neighbour `n`. -/
def regionNb (b : Game) (s : Region) (n : Point) : Region :=
  if b.cell n.X n.Y = Color.None then { s with q := n :: s.q }
  else
    { s with colors :=
        if b.cell n.X n.Y ∈ s.colors then s.colors else b.cell n.X n.Y :: s.colors }

/-- The invariant of the region fill of `Score` started at `seed` with the cells
`V` visited before. -/
structure RegInv (b : Game) (V : List Point) (seed : Point) (s : Region) : Prop where
  visited_eq : ∀ v, v ∈ s.visited ↔ v ∈ V ∨ v ∈ s.empties
  empties_nodup : s.empties.Nodup
  empties_ok : ∀ e ∈ s.empties, e ∉ V ∧ b.inBounds e.X e.Y = true ∧
    b.cell e.X e.Y = Color.None ∧ b.Conn Color.None seed e
  q_ok : ∀ v ∈ s.q, b.inBounds v.X v.Y = true ∧ b.cell v.X v.Y = Color.None ∧
    b.Conn Color.None seed v
  closed : ∀ e ∈ s.empties, ∀ n ∈ b.neighbors e.X e.Y, b.cell n.X n.Y = Color.None →
    n ∈ s.visited ∨ n ∈ s.q
  colors_nodup : s.colors.Nodup
  colors_eq : ∀ k, k ∈ s.colors ↔
    k ≠ Color.None ∧ ∃ e ∈ s.empties, ∃ n ∈ b.neighbors e.X e.Y, b.cell n.X n.Y = k
  seed_in : seed ∈ s.empties ∨ seed ∈ s.q
  seed_new : seed ∉ V

/-- The cells `V` are whole empty regions of the board `b`. -/
def Game.Regions (b : Game) (V : List Point) : Prop :=
  ∀ v ∈ V, b.inBounds v.X v.Y = true ∧ b.cell v.X v.Y = Color.None ∧
    ∀ n ∈ b.neighbors v.X v.Y, b.cell n.X n.Y = Color.None → n ∈ V

/-- The running total of the colour `k` in a tally of `Score`. -/
def Tally.total (t : Tally) (k : Color) : Int :=
  if k = Color.Black then t.black else t.white

/-- The invariant of the territory loop of `Score` on the board `b` after the
cells `done`: the cells visited are whole empty regions, among them every empty
cell of `done`, and each total has grown from `n0` by the territory visited. -/
def ScoreInv (b : Game) (done : List Point) (n0 : Color → Int) (t : Tally) : Prop :=
  t.board = b ∧ b.Regions t.visited ∧
  (∀ p ∈ done, b.cell p.X p.Y = Color.None → p ∈ t.visited) ∧
  ∀ k, k ≠ Color.None → ∃ T : List Point, T.Nodup ∧
    (∀ p, p ∈ T ↔ p ∈ t.visited ∧ b.Territory k p) ∧ t.total k = n0 k + (T.length : Int)

/-- The margin of the specification, a half-integer given as twice its value:
one decimal, a trailing ".0" stripped. -/
def marginText (twice : Nat) : String :=
  if twice % 2 = 0 then toString (twice / 2) else toString (twice / 2) ++ ".5"

/-- The result of the specification for Black's total `black` and White's count
`white`, to which 6.5 is added: "B+m" when Black's total is higher and "W+m"
otherwise, `m` the absolute margin. -/
def resultText (black white : Int) : String :=
  if 2 * black > 2 * white + 13 then "B+" ++ marginText (2 * black - (2 * white + 13)).natAbs
  else "W+" ++ marginText (2 * black - (2 * white + 13)).natAbs

/-- Black's total of the specification but for the territory: the stones
captured by Black, the White stones marked dead and the Black stones left. -/
def Game.blackCount (g : Game) : Int :=
  g.Captured Color.Black +
  ((g.deadPoints.filter fun p => decide (g.cell p.X p.Y = Color.White)).length : Int) +
  ((g.allPoints.filter fun p => decide (g.cleared.cell p.X p.Y = Color.Black)).length : Int)

/-- White's count of the specification but for the territory and the 6.5 points. -/
def Game.whiteCount (g : Game) : Int :=
  g.Captured Color.White +
  ((g.deadPoints.filter fun p => decide (g.cell p.X p.Y = Color.Black)).length : Int) +
  ((g.allPoints.filter fun p => decide (g.cleared.cell p.X p.Y = Color.White)).length : Int)

/-- The moves of a game on a 5×5 board: a Black wall on row 1, a White wall on
row 3 and a lone Black stone at (4,2) behind the White wall. -/
def scoreMoves : List (Color × Int × Int) :=
  [(Color.Black, 1, 0), (Color.White, 3, 0), (Color.Black, 1, 1), (Color.White, 3, 1),
   (Color.Black, 1, 2), (Color.White, 3, 2), (Color.Black, 1, 3), (Color.White, 3, 3),
   (Color.Black, 1, 4), (Color.White, 3, 4), (Color.Black, 4, 2)]

/-- The position after `scoreMoves`, `StartScoring` and `ToggleDeadAt 4 2`. -/
def scoreGame : Game :=
  { Size := 5
    Turn := Color.White
    Board :=
      [[Color.None, Color.None, Color.None, Color.None, Color.None],
       [Color.Black, Color.Black, Color.Black, Color.Black, Color.Black],
       [Color.None, Color.None, Color.None, Color.None, Color.None],
       [Color.White, Color.White, Color.White, Color.White, Color.White],
       [Color.None, Color.None, Color.Black, Color.None, Color.None]]
    Captured := fun _ => 0
    lastMove := ⟨4, 2⟩
    koPoint := none
    passes := 0
    over := false
    result := ""
    scoring := true
    dead := [(⟨4, 2⟩, true)] }

/-- The values of Go's `int`, taken 64 bits wide: a sum that lies in this range
is computed by the code without wrapping. -/
def IsInt64 (n : Int) : Prop :=
  -2 ^ 63 ≤ n ∧ n < 2 ^ 63

instance (n : Int) : Decidable (IsInt64 n) := by
  unfold IsInt64
  infer_instance

/-- The board `h` is the board of `g` once a stone of colour `c` is placed at
(x,y) and the opponent groups next to it that are left without liberty are
removed: the cells of these groups are empty, (x,y) holds `c` and every other
cell is as in `g`. -/
def Game.AfterStone (g : Game) (c : Color) (x y : Int) (h : Game) : Prop :=
  h.WF ∧ h.Size = g.Size ∧ ∀ a b, g.inBounds a b = true →
    ((g.place c x y).Captures c x y ⟨a, b⟩ → h.cell a b = Color.None) ∧
    (¬ (g.place c x y).Captures c x y ⟨a, b⟩ →
      h.cell a b = if a = x ∧ b = y then c else g.cell a b)

/-- A total of `Score` in the range where its `float64` arithmetic is exact:
`float64` holds every integer and every half-integer below 2^52, so with both
totals within 2^50 the two conversions, the sum with 6.5 and the difference are
exact, and `%.1f` prints the margin itself. -/
def ExactTotal (n : Int) : Prop :=
  -2 ^ 50 ≤ n ∧ n ≤ 2 ^ 50

instance (n : Int) : Decidable (ExactTotal n) := by
  unfold ExactTotal
  infer_instance

/-- The capture counts leave the totals of `Score` in the exact range: a total
is the capture count and at most three times the number of cells. -/
def Game.ScoreExact (g : Game) : Prop :=
  (ExactTotal (g.Captured Color.Black) ∧
    ExactTotal (g.Captured Color.Black + 3 * (g.Size * g.Size))) ∧
  (ExactTotal (g.Captured Color.White) ∧
    ExactTotal (g.Captured Color.White + 3 * (g.Size * g.Size)))

instance (g : Game) : Decidable g.ScoreExact := by
  unfold Game.ScoreExact
  infer_instance

/-! ## Board access -/

theorem inBounds_iff (g : Game) (x y : Int) :
    g.inBounds x y = true ↔ 0 ≤ x ∧ 0 ≤ y ∧ x < g.Size ∧ y < g.Size := by
  simp [Game.inBounds, and_assoc]

theorem setCell_Size (g : Game) (x y : Int) (v : Color) :
    (g.setCell x y v).Size = g.Size := rfl

theorem setCell_inBounds (g : Game) (x y : Int) (v : Color) (a b : Int) :
    (g.setCell x y v).inBounds a b = g.inBounds a b := rfl

theorem setCell_neighbors (g : Game) (x y : Int) (v : Color) (a b : Int) :
    (g.setCell x y v).neighbors a b = g.neighbors a b := rfl

theorem setCell_WF {g : Game} (h : g.WF) (x y : Int) (v : Color) : (g.setCell x y v).WF := by
  obtain ⟨h0, h1, h2⟩ := h
  refine ⟨h0, ?_, ?_⟩
  · simp [Game.setCell, h1]
  · intro row hrow
    simp only [Game.setCell] at hrow
    by_cases hx : x.toNat < g.Board.length
    · rcases List.mem_or_eq_of_mem_set hrow with hm | he
      · exact h2 row hm
      · subst he
        rw [List.length_set, List.getD_eq_getElem _ _ hx]
        exact h2 _ (List.getElem_mem _)
    · rw [List.set_eq_of_length_le (by omega)] at hrow
      exact h2 row hrow

theorem cell_setCell {g : Game} (h : g.WF) {x y : Int} (hin : g.inBounds x y = true)
    (v : Color) {a b : Int} (hab : g.inBounds a b = true) :
    (g.setCell x y v).cell a b = if a = x ∧ b = y then v else g.cell a b := by
  obtain ⟨h0, h1, h2⟩ := h
  rw [inBounds_iff] at hin hab
  have hx : x.toNat < g.Board.length := by omega
  have hrx : (g.Board[x.toNat]).length = g.Size.toNat := h2 _ (List.getElem_mem _)
  simp only [Game.cell, Game.setCell, List.getD_eq_getElem?_getD, List.getElem?_set]
  by_cases hxa : a = x
  · subst hxa
    simp only [hx, if_true, true_and, Option.getD_some, List.getElem?_eq_getElem]
    by_cases hyb : b = y
    · subst hyb
      have hb : b.toNat < (g.Board[a.toNat]).length := by omega
      simp [List.getElem?_set, hb]
    · have : ¬ y.toNat = b.toNat := by omega
      simp [this, hyb]
  · have : ¬ x.toNat = a.toNat := by omega
    simp [this, hxa]

theorem inBounds_congr {g h : Game} (hs : h.Size = g.Size) (x y : Int) :
    h.inBounds x y = g.inBounds x y := by
  simp [Game.inBounds, hs]

theorem neighbors_congr {g h : Game} (hs : h.Size = g.Size) (x y : Int) :
    h.neighbors x y = g.neighbors x y := by
  simp [Game.neighbors, inBounds_congr hs]

theorem cell_congr {g h : Game} (hb : h.Board = g.Board) (a b : Int) : h.cell a b = g.cell a b := by
  simp [Game.cell, hb]

theorem board_ext {g h : Game} (hg : g.WF) (hh : h.WF) (hs : h.Size = g.Size)
    (hc : ∀ a b, g.inBounds a b = true → h.cell a b = g.cell a b) : h.Board = g.Board := by
  obtain ⟨g0, g1, g2⟩ := hg
  obtain ⟨-, h1, h2⟩ := hh
  rw [hs] at h1 h2
  apply List.ext_getElem (by rw [h1, g1])
  intro i hi hi'
  have hri : (h.Board[i]).length = g.Size.toNat := h2 _ (List.getElem_mem _)
  have hri' : (g.Board[i]).length = g.Size.toNat := g2 _ (List.getElem_mem _)
  apply List.ext_getElem (by rw [hri, hri'])
  intro j hj hj'
  have := hc (i : Int) (j : Int) (by rw [inBounds_iff]; omega)
  simp only [Game.cell, Int.toNat_ofNat, List.getD_eq_getElem?_getD] at this
  rw [List.getElem?_eq_getElem hi, List.getElem?_eq_getElem hi'] at this
  simp only [Option.getD_some] at this
  rw [List.getElem?_eq_getElem hj, List.getElem?_eq_getElem hj'] at this
  simpa using this

theorem newGame_WF (n : Nat) : (NewGame n).WF := by
  refine ⟨by simp [NewGame], by simp [NewGame], ?_⟩
  intro row hrow
  simp only [NewGame] at hrow
  rw [List.eq_of_mem_replicate hrow]
  simp [NewGame]

/-! ## Neighbours and the cells of the board -/

theorem mem_neighbors (g : Game) (x y : Int) (q : Point) :
    q ∈ g.neighbors x y ↔ g.inBounds q.X q.Y = true ∧ Adj ⟨x, y⟩ q := by
  obtain ⟨qx, qy⟩ := q
  simp only [Game.neighbors, dirs, List.mem_filterMap, List.mem_cons, List.mem_singleton,
    List.not_mem_nil, or_false, Adj]
  constructor
  · rintro ⟨d, hd, h⟩
    split at h
    · rename_i hb
      simp only [Option.some.injEq, Point.mk.injEq] at h
      obtain ⟨h1, h2⟩ := h
      subst h1 h2
      refine ⟨hb, ?_⟩
      rcases hd with rfl | rfl | rfl | rfl <;> simp
    · simp at h
  · rintro ⟨hb, h⟩
    rcases h with ⟨h1, h2⟩ | ⟨h1, h2⟩ | ⟨h1, h2⟩ | ⟨h1, h2⟩
    · exact ⟨(1, 0), by simp, by subst h1 h2; simpa using hb⟩
    · exact ⟨(-1, 0), by simp, by subst h1 h2; simpa using hb⟩
    · exact ⟨(0, 1), by simp, by subst h1 h2; simpa using hb⟩
    · exact ⟨(0, -1), by simp, by subst h1 h2; simpa using hb⟩

theorem neighbors_inBounds {g : Game} {x y : Int} {q : Point} (h : q ∈ g.neighbors x y) :
    g.inBounds q.X q.Y = true := ((mem_neighbors g x y q).1 h).1

theorem adj_symm {p q : Point} (h : Adj p q) : Adj q p := by
  unfold Adj at *
  omega

theorem adj_ne {p q : Point} (h : Adj p q) : p ≠ q := by
  rintro rfl
  unfold Adj at h
  omega

theorem neighbors_symm {g : Game} {p q : Point} (hp : g.inBounds p.X p.Y = true)
    (h : q ∈ g.neighbors p.X p.Y) : p ∈ g.neighbors q.X q.Y := by
  rw [mem_neighbors] at h ⊢
  exact ⟨hp, adj_symm h.2⟩

theorem neighbors_length (g : Game) (x y : Int) : (g.neighbors x y).length ≤ 4 := by
  unfold Game.neighbors
  exact (List.length_filterMap_le _ _).trans (by simp [dirs])

theorem mem_allPoints (g : Game) (p : Point) :
    p ∈ g.allPoints ↔ g.inBounds p.X p.Y = true := by
  obtain ⟨x, y⟩ := p
  simp only [Game.allPoints, List.mem_flatMap, List.mem_range, List.mem_map, Point.mk.injEq,
    inBounds_iff]
  constructor
  · rintro ⟨i, hi, j, hj, rfl, rfl⟩
    omega
  · rintro ⟨h1, h2, h3, h4⟩
    exact ⟨x.toNat, by omega, y.toNat, by omega, by omega, by omega⟩

theorem allPoints_length (g : Game) : g.allPoints.length = g.Size.toNat * g.Size.toNat := by
  simp [Game.allPoints, List.length_flatMap, Function.comp_def]

theorem allPoints_nodup (g : Game) : g.allPoints.Nodup := by
  unfold Game.allPoints
  rw [List.nodup_flatMap]
  refine ⟨?_, ?_⟩
  · intro i _
    refine List.Nodup.map ?_ (List.nodup_range _)
    intro a b hab
    simpa using hab
  · refine List.Pairwise.imp_of_mem ?_ (List.nodup_range _)
    intro i j _ _ hij
    simp only [Function.onFun, List.Disjoint, List.mem_map, List.mem_range]
    rintro p ⟨a, _, rfl⟩ ⟨b, _, hb⟩
    simp only [Point.mk.injEq, Nat.cast_inj] at hb
    exact hij hb.1.symm

/-! ## Connected groups -/

theorem conn_ok {g : Game} {c : Color} {s p : Point} (hs : g.inBounds s.X s.Y = true)
    (hcs : g.cell s.X s.Y = c) (h : g.Conn c s p) :
    g.inBounds p.X p.Y = true ∧ g.cell p.X p.Y = c := by
  induction h with
  | seed => exact ⟨hs, hcs⟩
  | step _ hq hcq _ => exact ⟨neighbors_inBounds hq, hcq⟩

theorem conn_trans {g : Game} {c : Color} {s p q : Point} (h1 : g.Conn c s p)
    (h2 : g.Conn c p q) : g.Conn c s q := by
  induction h2 with
  | seed => exact h1
  | step _ hq hcq ih => exact Game.Conn.step ih hq hcq

theorem conn_symm {g : Game} {c : Color} {s p : Point} (hs : g.inBounds s.X s.Y = true)
    (hcs : g.cell s.X s.Y = c) (h : g.Conn c s p) : g.Conn c p s := by
  induction h with
  | seed => exact Game.Conn.seed
  | step hp hq hcq ih =>
    have hpok := conn_ok hs hcs hp
    exact conn_trans (Game.Conn.step Game.Conn.seed (neighbors_symm hpok.1 hq) hpok.2) ih

theorem conn_congr {g h : Game} (hs : h.Size = g.Size) (hb : h.Board = g.Board) {c : Color}
    {s p : Point} (hc : g.Conn c s p) : h.Conn c s p := by
  induction hc with
  | seed => exact Game.Conn.seed
  | step _ hq hcq ih =>
    exact Game.Conn.step ih (by rw [neighbors_congr hs]; exact hq) (by rw [cell_congr hb]; exact hcq)

theorem isLiberty_congr {g h : Game} (hs : h.Size = g.Size) (hb : h.Board = g.Board) {c : Color}
    {s q : Point} (hl : g.IsLiberty c s q) : h.IsLiberty c s q := by
  obtain ⟨p, hp, hq, hn⟩ := hl
  exact ⟨p, conn_congr hs hb hp, by rw [neighbors_congr hs]; exact hq,
    by rw [cell_congr hb]; exact hn⟩

/-- A liberty next to the placed stone itself. -/
theorem isLiberty_of_neighbor {g : Game} {c : Color} {x y : Int} {q : Point}
    (hq : q ∈ g.neighbors x y) (hn : g.cell q.X q.Y = Color.None) : g.IsLiberty c ⟨x, y⟩ q :=
  ⟨⟨x, y⟩, Game.Conn.seed, hq, hn⟩

/-! ## The flood fill of `countLiberties`

The loop keeps `FillInv`; its fuel is enough (`fill_queue`, `fill_fuel_enough`); at
its end the stones are the connected group of the seed and the liberties are
the empty cells next to it. -/

theorem visit_spec (g : Game) (c : Color) (s : Fill) (nb : Point) :
    (g.visit c s nb).visited = s.visited ∧ (g.visit c s nb).stones = s.stones ∧
    (s.libs.Nodup → (g.visit c s nb).libs.Nodup) ∧
    (∀ q, q ∈ (g.visit c s nb).libs ↔ q ∈ s.libs ∨ (q = nb ∧ g.cell q.X q.Y = Color.None)) ∧
    (∀ q, q ∈ (g.visit c s nb).queue ↔ q ∈ s.queue ∨
      (q = nb ∧ g.cell q.X q.Y = c ∧ g.cell q.X q.Y ≠ Color.None ∧ q ∉ s.visited)) ∧
    (g.visit c s nb).queue.length ≤ s.queue.length + 1 := by
  unfold Game.visit
  by_cases h1 : g.cell nb.X nb.Y = Color.None
  · simp only [h1, if_true]
    refine ⟨trivial, trivial, ?_, ?_, ?_, by omega⟩
    · intro hn
      by_cases hm : nb ∈ s.libs
      · rw [if_pos hm]; exact hn
      · rw [if_neg hm]; exact List.nodup_cons.2 ⟨hm, hn⟩
    · intro q
      by_cases hm : nb ∈ s.libs
      · simp only [hm, if_true]
        constructor
        · exact Or.inl
        · rintro (h | ⟨rfl, -⟩)
          · exact h
          · exact hm
      · simp only [hm, if_false, List.mem_cons]
        constructor
        · rintro (rfl | h)
          · exact Or.inr ⟨rfl, h1⟩
          · exact Or.inl h
        · rintro (h | ⟨rfl, -⟩)
          · exact Or.inr h
          · exact Or.inl rfl
    · intro q
      constructor
      · exact Or.inl
      · rintro (h | ⟨rfl, -, h, -⟩)
        · exact h
        · exact absurd h1 h
  · simp only [h1, if_false]
    by_cases h2 : g.cell nb.X nb.Y = c
    · simp only [h2, if_true]
      by_cases hv : nb ∈ s.visited
      · simp only [hv, if_true]
        refine ⟨trivial, trivial, id, ?_, ?_, by omega⟩
        · intro q
          constructor
          · exact Or.inl
          · rintro (h | ⟨rfl, h⟩)
            · exact h
            · exact absurd h h1
        · intro q
          constructor
          · exact Or.inl
          · rintro (h | ⟨rfl, -, -, h⟩)
            · exact h
            · exact absurd hv h
      · simp only [hv, if_false]
        refine ⟨trivial, trivial, id, ?_, ?_, by simp⟩
        · intro q
          constructor
          · exact Or.inl
          · rintro (h | ⟨rfl, h⟩)
            · exact h
            · exact absurd h h1
        · intro q
          simp only [List.mem_cons]
          constructor
          · rintro (rfl | h)
            · exact Or.inr ⟨rfl, h2, h1, hv⟩
            · exact Or.inl h
          · rintro (h | ⟨rfl, -⟩)
            · exact Or.inr h
            · exact Or.inl rfl
    · simp only [h2, if_false]
      refine ⟨trivial, trivial, id, ?_, ?_, by omega⟩
      · intro q
        constructor
        · exact Or.inl
        · rintro (h | ⟨rfl, h⟩)
          · exact h
          · exact absurd h h1
      · intro q
        constructor
        · exact Or.inl
        · rintro (h | ⟨rfl, h, -⟩)
          · exact h
          · exact absurd h h2

theorem foldl_visit (g : Game) (c : Color) (l : List Point) (s : Fill) :
    (l.foldl (g.visit c) s).visited = s.visited ∧ (l.foldl (g.visit c) s).stones = s.stones ∧
    (s.libs.Nodup → (l.foldl (g.visit c) s).libs.Nodup) ∧
    (∀ q, q ∈ (l.foldl (g.visit c) s).libs ↔
      q ∈ s.libs ∨ (q ∈ l ∧ g.cell q.X q.Y = Color.None)) ∧
    (∀ q, q ∈ (l.foldl (g.visit c) s).queue ↔ q ∈ s.queue ∨
      (q ∈ l ∧ g.cell q.X q.Y = c ∧ g.cell q.X q.Y ≠ Color.None ∧ q ∉ s.visited)) ∧
    (l.foldl (g.visit c) s).queue.length ≤ s.queue.length + l.length := by
  induction l generalizing s with
  | nil => simp
  | cons nb l ih =>
    obtain ⟨a1, a2, a3, a4, a5, a6⟩ := visit_spec g c s nb
    obtain ⟨b1, b2, b3, b4, b5, b6⟩ := ih (g.visit c s nb)
    simp only [List.foldl_cons, List.mem_cons, List.length_cons]
    refine ⟨b1.trans a1, b2.trans a2, fun h => b3 (a3 h), ?_, ?_, by omega⟩
    · intro q
      rw [b4, a4]
      tauto
    · intro q
      rw [b5, a5, a1]
      tauto

theorem fillInv_skip {g : Game} {c : Color} {seed : Point} {s : Fill} {p : Point}
    {rest : List Point} (h : FillInv g c seed s) (hq : s.queue = p :: rest)
    (hp : p ∈ s.visited) : FillInv g c seed { s with queue := rest } where
  visited_ok := h.visited_ok
  queue_ok := fun q hq' => h.queue_ok q (by rw [hq]; exact List.mem_cons_of_mem _ hq')
  stones_nodup := h.stones_nodup
  stones_eq := h.stones_eq
  closed := by
    intro a ha q hqa hc
    rcases h.closed a ha q hqa hc with hv | hv
    · exact Or.inl hv
    · rw [hq] at hv
      rcases List.mem_cons.1 hv with rfl | hv
      · exact Or.inl hp
      · exact Or.inr hv
  libs_nodup := h.libs_nodup
  libs_eq := h.libs_eq
  seed_in := by
    rcases h.seed_in with hv | hv
    · exact Or.inl hv
    · rw [hq] at hv
      rcases List.mem_cons.1 hv with rfl | hv
      · exact Or.inl hp
      · exact Or.inr hv

theorem fillInv_expand {g : Game} {c : Color} {seed : Point} {s : Fill} {p : Point}
    {rest : List Point} (hc : c ≠ Color.None) (h : FillInv g c seed s)
    (hq : s.queue = p :: rest) (hp : p ∉ s.visited) :
    FillInv g c seed ((g.neighbors p.X p.Y).foldl (g.visit c)
      { s with queue := rest, visited := p :: s.visited, stones := s.stones ++ [p] }) := by
  obtain ⟨f1, f2, f3, f4, f5, -⟩ := foldl_visit g c (g.neighbors p.X p.Y)
    { s with queue := rest, visited := p :: s.visited, stones := s.stones ++ [p] }
  have hpq : p ∈ s.queue := by rw [hq]; exact List.mem_cons_self _ _
  have hpok := h.queue_ok p hpq
  refine ⟨?_, ?_, ?_, ?_, ?_, ?_, ?_, ?_⟩
  · intro a ha
    rw [f1] at ha
    rcases List.mem_cons.1 ha with rfl | ha
    · exact hpok
    · exact h.visited_ok a ha
  · intro a ha
    rw [f5] at ha
    rcases ha with ha | ⟨ha, hca, -, -⟩
    · exact h.queue_ok a (by rw [hq]; exact List.mem_cons_of_mem _ ha)
    · exact ⟨neighbors_inBounds ha, hca, Game.Conn.step hpok.2.2 ha hca⟩
  · rw [f2]
    refine List.Nodup.append h.stones_nodup (List.nodup_singleton p) ?_
    intro a ha hb
    rw [List.mem_singleton] at hb
    subst hb
    exact hp ((h.stones_eq a).1 ha)
  · intro a
    rw [f1, f2, List.mem_append, List.mem_singleton, List.mem_cons, h.stones_eq a]
    tauto
  · intro a ha q hqa hcq
    rw [f1] at ha ⊢
    rw [f5]
    by_cases hqv : q ∈ p :: s.visited
    · exact Or.inl hqv
    · right
      rcases List.mem_cons.1 ha with rfl | ha
      · exact Or.inr ⟨hqa, hcq, by rw [hcq]; exact hc, hqv⟩
      · rcases h.closed a ha q hqa hcq with hv | hv
        · exact absurd (List.mem_cons_of_mem _ hv) hqv
        · rw [hq] at hv
          rcases List.mem_cons.1 hv with rfl | hv
          · exact absurd (List.mem_cons_self _ _) hqv
          · exact Or.inl hv
  · exact f3 h.libs_nodup
  · intro q
    rw [f4, f1]
    show q ∈ s.libs ∨ _ ↔ _
    rw [h.libs_eq q]
    constructor
    · rintro (⟨a, ha, hn⟩ | hn)
      · exact ⟨a, List.mem_cons_of_mem _ ha, hn⟩
      · exact ⟨p, List.mem_cons_self _ _, hn⟩
    · rintro ⟨a, ha, hn⟩
      rcases List.mem_cons.1 ha with rfl | ha
      · exact Or.inr hn
      · exact Or.inl ⟨a, ha, hn⟩
  · rw [f1, f5]
    rcases h.seed_in with hv | hv
    · exact Or.inl (List.mem_cons_of_mem _ hv)
    · rw [hq] at hv
      rcases List.mem_cons.1 hv with rfl | hv
      · exact Or.inl (List.mem_cons_self _ _)
      · exact Or.inr (Or.inl hv)

theorem fillLoop_inv {g : Game} {c : Color} {seed : Point} (hc : c ≠ Color.None)
    (fuel : Nat) (s : Fill) (h : FillInv g c seed s) : FillInv g c seed (g.fillLoop c fuel s) := by
  induction fuel generalizing s with
  | zero => exact h
  | succ n ih =>
    unfold Game.fillLoop
    split
    · exact h
    · rename_i p rest hq
      by_cases hp : p ∈ s.visited
      · rw [if_pos hp]
        exact ih _ (fillInv_skip h hq hp)
      · rw [if_neg hp]
        exact ih _ (fillInv_expand hc h hq hp)

theorem unvisited_le (g : Game) (v : List Point) :
    g.unvisited v ≤ g.Size.toNat * g.Size.toNat := by
  rw [← allPoints_length]
  exact List.length_filter_le _ _

theorem unvisited_cons_lt {g : Game} {v : List Point} {p : Point}
    (hp : g.inBounds p.X p.Y = true) (hv : p ∉ v) :
    g.unvisited (p :: v) < g.unvisited v := by
  unfold Game.unvisited
  have h1 : (g.allPoints.filter fun q => decide (q ∉ p :: v)) =
      (g.allPoints.filter fun q => decide (q ∉ v)).filter fun q => decide (q ≠ p) := by
    rw [List.filter_filter]
    congr 1
    funext q
    simp [List.mem_cons, not_or]
  rw [h1, List.length_filter_lt_length_iff_exists]
  exact ⟨p, List.mem_filter.2 ⟨(mem_allPoints g p).2 hp, by simpa using hv⟩, by simp⟩

theorem fillLoop_done {g : Game} {c : Color} (fuel : Nat) (s : Fill)
    (hq : ∀ p ∈ s.queue, g.inBounds p.X p.Y = true)
    (hf : 4 * g.unvisited s.visited + s.queue.length ≤ fuel) :
    (g.fillLoop c fuel s).queue = [] := by
  induction fuel generalizing s with
  | zero =>
    unfold Game.fillLoop
    exact List.length_eq_zero.1 (by omega)
  | succ n ih =>
    unfold Game.fillLoop
    split
    · assumption
    · rename_i p rest hqe
      rw [hqe] at hq hf
      simp only [List.length_cons] at hf
      by_cases hp : p ∈ s.visited
      · rw [if_pos hp]
        exact ih _ (fun a ha => hq a (List.mem_cons_of_mem _ ha)) (by simp only; omega)
      · rw [if_neg hp]
        obtain ⟨f1, -, -, -, f5, f6⟩ := foldl_visit g c (g.neighbors p.X p.Y)
          { s with queue := rest, visited := p :: s.visited, stones := s.stones ++ [p] }
        refine ih _ ?_ ?_
        · intro a ha
          rw [f5] at ha
          rcases ha with ha | ⟨ha, -⟩
          · exact hq a (List.mem_cons_of_mem _ ha)
          · exact neighbors_inBounds ha
        · rw [f1]
          have h1 := unvisited_cons_lt (hq p (List.mem_cons_self _ _)) hp
          have h2 := neighbors_length g p.X p.Y
          simp only at f6 ⊢
          omega

/-- Once the loop has emptied its stack, more fuel changes nothing. -/
theorem fillLoop_more_fuel (g : Game) (c : Color) (fuel k : Nat) (s : Fill)
    (h : (g.fillLoop c fuel s).queue = []) :
    g.fillLoop c (fuel + k) s = g.fillLoop c fuel s := by
  induction fuel generalizing s with
  | zero =>
    simp only [Game.fillLoop] at h
    cases k with
    | zero => rfl
    | succ k =>
      simp only [Nat.zero_add, Game.fillLoop, h]
  | succ n ih =>
    rw [Nat.add_right_comm]
    cases hq : s.queue with
    | nil => simp only [Game.fillLoop, hq]
    | cons p rest =>
      simp only [Game.fillLoop, hq] at h ⊢
      by_cases hp : p ∈ s.visited
      · simp only [if_pos hp] at h ⊢
        exact ih _ h
      · simp only [if_neg hp] at h ⊢
        exact ih _ h

theorem fill_inv {g : Game} {c : Color} {x y : Int} (hc : c ≠ Color.None)
    (hin : g.inBounds x y = true) (hcol : g.cell x y = c) :
    FillInv g c ⟨x, y⟩ (g.fill x y c) := by
  refine fillLoop_inv hc _ _ ⟨?_, ?_, ?_, ?_, ?_, ?_, ?_, ?_⟩
  · intro p hp; simp at hp
  · intro p hp
    simp only [List.mem_singleton] at hp
    subst hp
    exact ⟨hin, hcol, Game.Conn.seed⟩
  · exact List.nodup_nil
  · intro p; simp
  · intro p hp; simp at hp
  · exact List.nodup_nil
  · intro q; simp
  · exact Or.inr (List.mem_singleton.2 rfl)

theorem fill_queue {g : Game} {c : Color} {x y : Int} (hin : g.inBounds x y = true) :
    (g.fill x y c).queue = [] := by
  refine fillLoop_done _ _ ?_ ?_
  · intro p hp
    simp only [List.mem_singleton] at hp
    subst hp
    exact hin
  · have := unvisited_le g []
    simp only [Game.fillFuel, List.length_singleton]
    nlinarith

/-- The flood fill from an in-bounds cell is complete: any larger fuel gives the
same result. -/
theorem fill_fuel_enough {g : Game} {c : Color} {x y : Int} (hin : g.inBounds x y = true)
    (k : Nat) :
    g.fillLoop c (g.fillFuel + k) { visited := [], queue := [⟨x, y⟩], stones := [], libs := [] } =
      g.fill x y c :=
  fillLoop_more_fuel g c g.fillFuel k _ (fill_queue hin)

/-- The stones found by the flood fill are exactly the cells connected to the seed. -/
theorem mem_fill_stones {g : Game} {c : Color} {x y : Int} (hc : c ≠ Color.None)
    (hin : g.inBounds x y = true) (hcol : g.cell x y = c) (p : Point) :
    p ∈ (g.fill x y c).stones ↔ g.Conn c ⟨x, y⟩ p := by
  have hI := fill_inv hc hin hcol
  have hQ := fill_queue (c := c) hin
  rw [hI.stones_eq]
  constructor
  · intro hp
    exact (hI.visited_ok p hp).2.2
  · intro hp
    induction hp with
    | seed =>
      rcases hI.seed_in with h | h
      · exact h
      · rw [hQ] at h; simp at h
    | step _ hq hcq ih =>
      rcases hI.closed _ ih _ hq hcq with h | h
      · exact h
      · rw [hQ] at h; simp at h

theorem fill_stones_nodup {g : Game} {c : Color} {x y : Int} (hc : c ≠ Color.None)
    (hin : g.inBounds x y = true) (hcol : g.cell x y = c) : (g.fill x y c).stones.Nodup :=
  (fill_inv hc hin hcol).stones_nodup

theorem fill_libs_nodup {g : Game} {c : Color} {x y : Int} (hc : c ≠ Color.None)
    (hin : g.inBounds x y = true) (hcol : g.cell x y = c) : (g.fill x y c).libs.Nodup :=
  (fill_inv hc hin hcol).libs_nodup

/-- The liberties found by the flood fill are exactly the empty cells next to the group. -/
theorem mem_fill_libs {g : Game} {c : Color} {x y : Int} (hc : c ≠ Color.None)
    (hin : g.inBounds x y = true) (hcol : g.cell x y = c) (q : Point) :
    q ∈ (g.fill x y c).libs ↔
      ∃ p, g.Conn c ⟨x, y⟩ p ∧ q ∈ g.neighbors p.X p.Y ∧ g.cell q.X q.Y = Color.None := by
  have hI := fill_inv hc hin hcol
  rw [hI.libs_eq]
  constructor
  · rintro ⟨p, hp, h⟩
    exact ⟨p, (hI.visited_ok p hp).2.2, h⟩
  · rintro ⟨p, hp, h⟩
    exact ⟨p, (hI.stones_eq p).1 ((mem_fill_stones hc hin hcol p).2 hp), h⟩

/-! ## `countLiberties` -/

theorem eq_singleton_of_nodup {α : Type} {L : List α} {p : α} (hnd : L.Nodup) (hp : p ∈ L)
    (hall : ∀ q ∈ L, q = p) : L = [p] := by
  cases L with
  | nil => simp at hp
  | cons a t =>
    have ha := hall a (List.mem_cons_self _ _)
    subst ha
    cases t with
    | nil => rfl
    | cons b t' =>
      have hb := hall b (List.mem_cons_of_mem _ (List.mem_cons_self _ _))
      subst hb
      simp at hnd

theorem countLiberties_of_cell {g : Game} {c : Color} {x y : Int} (hcol : g.cell x y = c) :
    g.countLiberties x y c = (((g.fill x y c).libs.length : Int), (g.fill x y c).stones) := by
  simp [Game.countLiberties, hcol]

theorem countLiberties_zero_iff {g : Game} {c : Color} {x y : Int} (hc : c ≠ Color.None)
    (hin : g.inBounds x y = true) (hcol : g.cell x y = c) :
    (g.countLiberties x y c).1 = 0 ↔ g.NoLiberty c ⟨x, y⟩ := by
  rw [countLiberties_of_cell hcol]
  simp only [Int.natCast_eq_zero, List.length_eq_zero]
  constructor
  · intro h p hp q hq hn
    have := (mem_fill_libs hc hin hcol q).2 ⟨p, hp, hq, hn⟩
    rw [h] at this
    simp at this
  · intro h
    apply List.eq_nil_iff_forall_not_mem.2
    intro q hq
    obtain ⟨p, hp, hq, hn⟩ := (mem_fill_libs hc hin hcol q).1 hq
    exact h p hp q hq hn

theorem mem_countLiberties {g : Game} {c : Color} {x y : Int} (hc : c ≠ Color.None)
    (hin : g.inBounds x y = true) (hcol : g.cell x y = c) (p : Point) :
    p ∈ (g.countLiberties x y c).2 ↔ g.Conn c ⟨x, y⟩ p := by
  rw [countLiberties_of_cell hcol]
  exact mem_fill_stones hc hin hcol p

theorem countLiberties_nodup {g : Game} {c : Color} {x y : Int} (hc : c ≠ Color.None)
    (hin : g.inBounds x y = true) (hcol : g.cell x y = c) :
    (g.countLiberties x y c).2.Nodup := by
  rw [countLiberties_of_cell hcol]
  exact fill_stones_nodup hc hin hcol

theorem mem_libs_iff {g : Game} {c : Color} {x y : Int} (hc : c ≠ Color.None)
    (hin : g.inBounds x y = true) (hcol : g.cell x y = c) (q : Point) :
    q ∈ (g.fill x y c).libs ↔ g.IsLiberty c ⟨x, y⟩ q :=
  mem_fill_libs hc hin hcol q

/-- Two distinct liberties make the count at least two. -/
theorem countLiberties_two {g : Game} {c : Color} {x y : Int} (hc : c ≠ Color.None)
    (hin : g.inBounds x y = true) (hcol : g.cell x y = c) {p q : Point}
    (hp : g.IsLiberty c ⟨x, y⟩ p) (hq : g.IsLiberty c ⟨x, y⟩ q) (hpq : p ≠ q) :
    2 ≤ (g.countLiberties x y c).1 := by
  rw [countLiberties_of_cell hcol]
  have h1 := (mem_libs_iff hc hin hcol p).2 hp
  have h2 := (mem_libs_iff hc hin hcol q).2 hq
  have hnd := fill_libs_nodup hc hin hcol
  have : [p, q].Subperm (g.fill x y c).libs := by
    apply List.subperm_of_subset
    · simp [hpq]
    · intro a ha
      simp only [List.mem_cons, List.mem_singleton, List.not_mem_nil, or_false] at ha
      rcases ha with rfl | rfl <;> assumption
  have := this.length_le
  simp only [List.length_cons, List.length_nil] at this
  simp only
  omega

/-- The count is one exactly when the group has a single liberty. -/
theorem countLiberties_one_iff {g : Game} {c : Color} {x y : Int} (hc : c ≠ Color.None)
    (hin : g.inBounds x y = true) (hcol : g.cell x y = c) :
    (g.countLiberties x y c).1 = 1 ↔
      ∃ p, g.IsLiberty c ⟨x, y⟩ p ∧ ∀ q, g.IsLiberty c ⟨x, y⟩ q → q = p := by
  rw [countLiberties_of_cell hcol]
  simp only [Nat.cast_eq_one, List.length_eq_one]
  constructor
  · rintro ⟨p, hp⟩
    refine ⟨p, (mem_libs_iff hc hin hcol p).1 (by simp [hp]), ?_⟩
    intro q hq
    have := (mem_libs_iff hc hin hcol q).2 hq
    rw [hp] at this
    simpa using this
  · rintro ⟨p, hp, hu⟩
    have hp' := (mem_libs_iff hc hin hcol p).2 hp
    have hnd := fill_libs_nodup hc hin hcol
    exact ⟨p, eq_singleton_of_nodup hnd hp'
      (fun q hq => hu q ((mem_libs_iff hc hin hcol q).1 hq))⟩

/-! ## Removing groups does not disturb the other groups -/

theorem removeStones_meta (g : Game) (l : List Point) :
    g.removeStones l = { g with Board := (g.removeStones l).Board } := by
  induction l generalizing g with
  | nil => rfl
  | cons s l ih =>
    simp only [Game.removeStones, List.foldl_cons] at ih ⊢
    rw [ih (g.setCell s.X s.Y Color.None)]
    rfl

theorem removeStones_WF {g : Game} (hg : g.WF) (l : List Point) : (g.removeStones l).WF := by
  induction l generalizing g with
  | nil => exact hg
  | cons s l ih =>
    simp only [Game.removeStones, List.foldl_cons] at ih ⊢
    exact ih (setCell_WF hg _ _ _)

theorem removeStones_Size (g : Game) (l : List Point) : (g.removeStones l).Size = g.Size := by
  rw [removeStones_meta]

theorem cell_removeStones {g : Game} (hg : g.WF) (l : List Point)
    (hl : ∀ s ∈ l, g.inBounds s.X s.Y = true) {a b : Int} (hab : g.inBounds a b = true) :
    (g.removeStones l).cell a b = if (⟨a, b⟩ : Point) ∈ l then Color.None else g.cell a b := by
  induction l generalizing g with
  | nil => simp [Game.removeStones]
  | cons s l ih =>
    have hs := hl s (List.mem_cons_self _ _)
    simp only [Game.removeStones, List.foldl_cons] at ih ⊢
    rw [ih (setCell_WF hg _ _ _) (fun t ht => hl t (List.mem_cons_of_mem _ ht)) hab,
      cell_setCell hg hs _ hab]
    by_cases h1 : (⟨a, b⟩ : Point) ∈ l
    · simp [h1]
    · by_cases h2 : (⟨a, b⟩ : Point) = s
      · subst h2
        simp
      · have h3 : ¬ (a = s.X ∧ b = s.Y) := by
          rintro ⟨rfl, rfl⟩
          exact h2 rfl
        simp [h1, h2, h3]

theorem conn_of_removed {g h : Game} {o : Color} {R : List Point} (hs : h.Size = g.Size)
    (ho : o ≠ Color.None)
    (hcell : ∀ a b, g.inBounds a b = true →
      h.cell a b = if (⟨a, b⟩ : Point) ∈ R then Color.None else g.cell a b)
    (hclosed : ∀ p ∈ R, ∀ q ∈ g.neighbors p.X p.Y, g.cell q.X q.Y = o → q ∈ R)
    {s : Point} (hsin : g.inBounds s.X s.Y = true) (hsc : g.cell s.X s.Y = o) (hsR : s ∉ R) :
    (∀ p, g.Conn o s p → p ∉ R ∧ h.Conn o s p) ∧ (∀ p, h.Conn o s p → g.Conn o s p) := by
  constructor
  · intro p hp
    induction hp with
    | seed => exact ⟨hsR, Game.Conn.seed⟩
    | @step p q hp hq hcq ih =>
      have hpok := conn_ok hsin hsc hp
      have hqin := neighbors_inBounds hq
      have hqR : q ∉ R := fun hqR =>
        ih.1 (hclosed q hqR p (neighbors_symm hpok.1 hq) hpok.2)
      refine ⟨hqR, Game.Conn.step ih.2 (by rw [neighbors_congr hs]; exact hq) ?_⟩
      have := hcell q.X q.Y hqin
      rw [if_neg hqR] at this
      rw [this, hcq]
  · intro p hp
    induction hp with
    | seed => exact Game.Conn.seed
    | @step p q _ hq hcq ih =>
      rw [neighbors_congr hs] at hq
      have hqin := neighbors_inBounds hq
      have := hcell q.X q.Y hqin
      by_cases hqR : q ∈ R
      · rw [if_pos hqR] at this
        rw [this] at hcq
        exact absurd hcq.symm ho
      · rw [if_neg hqR] at this
        exact Game.Conn.step ih hq (by rw [← this]; exact hcq)

theorem noLiberty_of_removed {g h : Game} {o : Color} {R : List Point} (hs : h.Size = g.Size)
    (ho : o ≠ Color.None)
    (hcell : ∀ a b, g.inBounds a b = true →
      h.cell a b = if (⟨a, b⟩ : Point) ∈ R then Color.None else g.cell a b)
    (hclosed : ∀ p ∈ R, ∀ q ∈ g.neighbors p.X p.Y, g.cell q.X q.Y = o → q ∈ R)
    {s : Point} (hsin : g.inBounds s.X s.Y = true) (hsc : g.cell s.X s.Y = o) (hsR : s ∉ R) :
    h.NoLiberty o s ↔ g.NoLiberty o s := by
  obtain ⟨h1, h2⟩ := conn_of_removed hs ho hcell hclosed hsin hsc hsR
  constructor
  · intro hn p hp q hq hcq
    have hqin := neighbors_inBounds hq
    refine hn p (h1 p hp).2 q (by rw [neighbors_congr hs]; exact hq) ?_
    rw [hcell q.X q.Y hqin, hcq]
    simp
  · intro hn p hp q hq hcq
    rw [neighbors_congr hs] at hq
    have hqin := neighbors_inBounds hq
    have hp' := h2 p hp
    have hpok := conn_ok hsin hsc hp'
    have hpR := (h1 p hp').1
    rw [hcell q.X q.Y hqin] at hcq
    by_cases hqR : q ∈ R
    · exact hpR (hclosed q hqR p (neighbors_symm hpok.1 hq) hpok.2)
    · rw [if_neg hqR] at hcq
      exact hn p hp' q hq hcq

/-! ## The capture loop -/

theorem capInv_closed {g1 : Game} {o : Color} {done : List Point} {st : Game × Int}
    {R : List Point} (hI : CapInv g1 o done st R) :
    ∀ p ∈ R, ∀ q ∈ g1.neighbors p.X p.Y, g1.cell q.X q.Y = o → q ∈ R := by
  intro p hp q hq hcq
  obtain ⟨nb, hnb, h1, h2, h3⟩ := (hI.mem p).1 hp
  exact (hI.mem q).2 ⟨nb, hnb, h1, Game.Conn.step h2 hq hcq, h3⟩

theorem capInv_step {g1 : Game} {c : Color} {done : List Point} {st : Game × Int}
    {R : List Point} (hc : c.Opp ≠ Color.None) (hI : CapInv g1 c.Opp done st R)
    {nb : Point} (hnb : g1.inBounds nb.X nb.Y = true) :
    ∃ R', CapInv g1 c.Opp (nb :: done) (captureStep c st nb) R' := by
  have hs : st.1.Size = g1.Size := by rw [hI.fields]
  have hcellnb := hI.cell nb.X nb.Y hnb
  have hlift : ∀ p, p ∈ R → ∃ nb' ∈ nb :: done,
      g1.cell nb'.X nb'.Y = c.Opp ∧ g1.Conn c.Opp nb' p ∧ g1.NoLiberty c.Opp nb' := by
    intro p hp
    obtain ⟨nb', h1, h2⟩ := (hI.mem p).1 hp
    exact ⟨nb', List.mem_cons_of_mem _ h1, h2⟩
  unfold captureStep
  by_cases h1 : st.1.cell nb.X nb.Y = c.Opp
  · have hnbR : nb ∉ R := by
      intro h
      rw [if_pos h, h1] at hcellnb
      exact hc hcellnb
    rw [if_neg hnbR, h1] at hcellnb
    have hg1 : g1.cell nb.X nb.Y = c.Opp := hcellnb.symm
    have hin' : st.1.inBounds nb.X nb.Y = true := by rw [inBounds_congr hs]; exact hnb
    obtain ⟨hc1, hc2⟩ := conn_of_removed hs hc hI.cell (capInv_closed hI) hnb hg1 hnbR
    have hnl := noLiberty_of_removed hs hc hI.cell (capInv_closed hI) hnb hg1 hnbR
    have hz := countLiberties_zero_iff hc hin' h1
    rw [if_pos h1]
    by_cases h2 : (st.1.countLiberties nb.X nb.Y c.Opp).1 = 0
    · rw [if_pos h2]
      have hS : ∀ p, p ∈ (st.1.countLiberties nb.X nb.Y c.Opp).2 ↔ g1.Conn c.Opp nb p :=
        fun p => (mem_countLiberties hc hin' h1 p).trans ⟨hc2 p, fun h => (hc1 p h).2⟩
      have hSin : ∀ s ∈ (st.1.countLiberties nb.X nb.Y c.Opp).2,
          st.1.inBounds s.X s.Y = true := by
        intro s hs'
        rw [inBounds_congr hs]
        exact (conn_ok hnb hg1 ((hS s).1 hs')).1
      refine ⟨R ++ (st.1.countLiberties nb.X nb.Y c.Opp).2, ?_, ?_, ?_, ?_, ?_, ?_⟩
      · show st.1.removeStones _ = _
        rw [removeStones_meta]
        rw [hI.fields]
      · exact removeStones_WF hI.wf _
      · refine List.Nodup.append hI.nodup (countLiberties_nodup hc hin' h1) ?_
        intro p hpR hpS
        exact (hc1 p ((hS p).1 hpS)).1 hpR
      · show st.2 + _ = _
        rw [hI.count, List.length_append]
        push_cast
        rfl
      · intro p
        rw [List.mem_append]
        constructor
        · rintro (hp | hp)
          · exact hlift p hp
          · exact ⟨nb, List.mem_cons_self _ _, hg1, (hS p).1 hp, hnl.1 (hz.1 h2)⟩
        · rintro ⟨nb', hm, h3, h4, h5⟩
          rcases List.mem_cons.1 hm with rfl | hm
          · exact Or.inr ((hS p).2 h4)
          · exact Or.inl ((hI.mem p).2 ⟨nb', hm, h3, h4, h5⟩)
      · intro a b hab
        show (st.1.removeStones _).cell a b = _
        rw [cell_removeStones hI.wf _ hSin (by rw [inBounds_congr hs]; exact hab), hI.cell a b hab]
        simp only [List.mem_append]
        by_cases hR : (⟨a, b⟩ : Point) ∈ R <;>
          by_cases hS' : (⟨a, b⟩ : Point) ∈ (st.1.countLiberties nb.X nb.Y c.Opp).2 <;>
          simp [hR, hS']
    · rw [if_neg h2]
      refine ⟨R, hI.fields, hI.wf, hI.nodup, hI.count, ?_, hI.cell⟩
      intro p
      constructor
      · exact hlift p
      · rintro ⟨nb', hm, h3, h4, h5⟩
        rcases List.mem_cons.1 hm with rfl | hm
        · exact absurd (hz.2 (hnl.2 h5)) h2
        · exact (hI.mem p).2 ⟨nb', hm, h3, h4, h5⟩
  · rw [if_neg h1]
    refine ⟨R, hI.fields, hI.wf, hI.nodup, hI.count, ?_, hI.cell⟩
    intro p
    constructor
    · exact hlift p
    · rintro ⟨nb', hm, h3, h4, h5⟩
      rcases List.mem_cons.1 hm with rfl | hm
      · have hnbR : nb' ∈ R := by
          by_contra h
          rw [if_neg h] at hcellnb
          exact h1 (hcellnb.trans h3)
        obtain ⟨nb0, hm0, h6, h7, h8⟩ := (hI.mem nb').1 hnbR
        exact (hI.mem p).2 ⟨nb0, hm0, h6, conn_trans h7 h4, h8⟩
      · exact (hI.mem p).2 ⟨nb', hm, h3, h4, h5⟩

theorem capInv_foldl {g1 : Game} {c : Color} (hc : c.Opp ≠ Color.None) (l : List Point)
    (hl : ∀ nb ∈ l, g1.inBounds nb.X nb.Y = true) (done : List Point) (st : Game × Int)
    (R : List Point) (hI : CapInv g1 c.Opp done st R) :
    ∃ R', CapInv g1 c.Opp (l.reverse ++ done) (l.foldl (captureStep c) st) R' := by
  induction l generalizing done st R with
  | nil => exact ⟨R, hI⟩
  | cons nb l ih =>
    obtain ⟨R1, h1⟩ := capInv_step hc hI (hl nb (List.mem_cons_self _ _))
    obtain ⟨R2, h2⟩ := ih (fun a ha => hl a (List.mem_cons_of_mem _ ha)) _ _ _ h1
    refine ⟨R2, ?_⟩
    simpa using h2

/-- The capture loop empties exactly the cells of the opponent groups next to
`(x, y)` that have no liberty, and counts each of them once. -/
theorem captureLoop_spec {g1 : Game} {c : Color} (hwf : g1.WF) (hc : c.Opp ≠ Color.None)
    (x y : Int) :
    ∃ R : List Point, R.Nodup ∧ (g1.captureLoop c x y).2 = (R.length : Int) ∧
      (∀ p, p ∈ R ↔ g1.Captures c x y p) ∧
      (g1.captureLoop c x y).1 = { g1 with Board := (g1.captureLoop c x y).1.Board } ∧
      (g1.captureLoop c x y).1.WF ∧
      ∀ a b, g1.inBounds a b = true → (g1.captureLoop c x y).1.cell a b =
        if (⟨a, b⟩ : Point) ∈ R then Color.None else g1.cell a b := by
  have h0 : CapInv g1 c.Opp [] (g1, 0) [] :=
    ⟨rfl, hwf, List.nodup_nil, rfl, by simp, by simp⟩
  obtain ⟨R, hR⟩ := capInv_foldl hc (g1.neighbors x y) (fun nb h => neighbors_inBounds h) [] _ _ h0
  refine ⟨R, hR.nodup, hR.count, ?_, hR.fields, hR.wf, hR.cell⟩
  intro p
  rw [hR.mem]
  simp [Game.Captures]

/-! ## The body of `Play` past its guards -/

theorem opp_ne_none {c : Color} (hc : c ≠ Color.None) : c.Opp ≠ Color.None := by
  cases c <;> simp_all [Color.Opp]

theorem opp_ne_self {c : Color} (hc : c ≠ Color.None) : c.Opp ≠ c := by
  cases c <;> simp_all [Color.Opp]

theorem not_admits_iff (g : Game) (c : Color) (x y : Int) :
    ¬ g.Admits c x y ↔ (g.over = true ∨ c = Color.None ∨ c ≠ g.Turn ∨ g.inBounds x y = false ∨
      g.cell x y ≠ Color.None ∨ g.koPoint = some ⟨x, y⟩) := by
  constructor
  · intro h
    by_contra hn
    push_neg at hn
    exact h ⟨by simpa using hn.1, hn.2.1, hn.2.2.1, by simpa using hn.2.2.2.1, hn.2.2.2.2.1,
      hn.2.2.2.2.2⟩
  · rintro h ⟨h1, h2, h3, h4, h5, h6⟩
    rcases h with h | h | h | h | h | h
    · rw [h1] at h; exact absurd h (by decide)
    · exact h2 h
    · exact h h3
    · rw [h4] at h; exact absurd h (by decide)
    · exact h h5
    · exact h6 h

theorem play_of_not_admits {g : Game} {c : Color} {x y : Int} (h : ¬ g.Admits c x y) :
    (g.Play c x y).1 ≠ none ∧ (g.Play c x y).2 = g := by
  have h := (not_admits_iff g c x y).1 h
  unfold Game.Play
  by_cases h1 : g.over = true
  · simp [h1]
  by_cases h2 : c = Color.None
  · simp [h1, h2]
  by_cases h3 : c ≠ g.Turn
  · simp [h1, h2, h3]
  by_cases h4 : g.inBounds x y = false
  · simp [h1, h2, h3, h4]
  by_cases h5 : g.cell x y ≠ Color.None
  · simp [h1, h2, h3, h4, h5]
  by_cases h6 : g.koPoint = some ⟨x, y⟩
  · simp [h1, h2, h3, h4, h5, h6]
  · tauto

theorem play_of_admits {g : Game} {c : Color} {x y : Int} (h : g.Admits c x y) :
    g.Play c x y =
      if ((g.afterCaptures c x y).countLiberties x y c).1 = 0 then
        (some PlayError.suicide, (g.afterCaptures c x y).setCell x y Color.None)
      else
        (none, (g.afterCaptures c x y).commit ((g.place c x y).captureLoop c x y).2 c x y) := by
  obtain ⟨h1, h2, h3, h4, h5, h6⟩ := h
  unfold Game.Play
  simp only [h1, Bool.false_eq_true, if_false, h2, h3.symm, ne_eq, not_true_eq_false, h4,
    Bool.not_true, h5, h6]

theorem place_WF {g : Game} (hwf : g.WF) (c : Color) (x y : Int) : (g.place c x y).WF :=
  setCell_WF hwf x y c

theorem place_Size (g : Game) (c : Color) (x y : Int) : (g.place c x y).Size = g.Size := rfl

theorem cell_place {g : Game} (hwf : g.WF) {x y : Int} (hin : g.inBounds x y = true)
    (c : Color) {a b : Int} (hab : g.inBounds a b = true) :
    (g.place c x y).cell a b = if a = x ∧ b = y then c else g.cell a b :=
  cell_setCell hwf hin c hab

theorem commit_Size (g : Game) (k : Int) (c : Color) (x y : Int) :
    (g.commit k c x y).Size = g.Size := rfl

theorem commit_Board (g : Game) (k : Int) (c : Color) (x y : Int) :
    (g.commit k c x y).Board = g.Board := rfl

/-- What the capture loop of `Play` leaves, past the guards. -/
theorem afterCaptures_spec {g : Game} {c : Color} {x y : Int} (hwf : g.WF)
    (h : g.Admits c x y) :
    ∃ R : List Point, R.Nodup ∧ ((g.place c x y).captureLoop c x y).2 = (R.length : Int) ∧
      (∀ p, p ∈ R ↔ (g.place c x y).Captures c x y p) ∧
      g.afterCaptures c x y = { g.place c x y with Board := (g.afterCaptures c x y).Board } ∧
      (g.afterCaptures c x y).WF ∧
      (∀ a b, g.inBounds a b = true → (g.afterCaptures c x y).cell a b =
        if (⟨a, b⟩ : Point) ∈ R then Color.None else if a = x ∧ b = y then c else g.cell a b) ∧
      (∀ p ∈ R, g.inBounds p.X p.Y = true ∧ g.cell p.X p.Y = c.Opp ∧ p ≠ ⟨x, y⟩) ∧
      (g.afterCaptures c x y).cell x y = c := by
  have ho := opp_ne_none h.colour
  obtain ⟨R, h1, h2, h3, h4, h5, h6⟩ :=
    captureLoop_spec (place_WF hwf c x y) ho (c := c) x y
  have hR : ∀ p ∈ R, g.inBounds p.X p.Y = true ∧ g.cell p.X p.Y = c.Opp ∧ p ≠ ⟨x, y⟩ := by
    intro p hp
    obtain ⟨nb, hnb, hcnb, hconn, -⟩ := (h3 p).1 hp
    have hok := conn_ok (neighbors_inBounds hnb) hcnb hconn
    have hpin : g.inBounds p.X p.Y = true := hok.1
    have hcp := hok.2
    rw [cell_place hwf h.inb c hpin] at hcp
    by_cases hxy : p.X = x ∧ p.Y = y
    · rw [if_pos hxy] at hcp
      exact absurd hcp.symm (opp_ne_self h.colour)
    · rw [if_neg hxy] at hcp
      refine ⟨hpin, hcp, ?_⟩
      rintro rfl
      exact hxy ⟨rfl, rfl⟩
  have hcell : ∀ a b, g.inBounds a b = true → (g.afterCaptures c x y).cell a b =
      if (⟨a, b⟩ : Point) ∈ R then Color.None else if a = x ∧ b = y then c else g.cell a b := by
    intro a b hab
    show ((g.place c x y).captureLoop c x y).1.cell a b = _
    rw [h6 a b hab, cell_place hwf h.inb c hab]
  refine ⟨R, h1, h2, h3, h4, h5, hcell, hR, ?_⟩
  rw [hcell x y h.inb]
  have : (⟨x, y⟩ : Point) ∉ R := fun hm => (hR _ hm).2.2 rfl
  simp [this]

theorem afterCaptures_Size {g : Game} {c : Color} {x y : Int} (hwf : g.WF)
    (h : g.Admits c x y) : (g.afterCaptures c x y).Size = g.Size := by
  obtain ⟨R, -, -, -, h4, -⟩ := afterCaptures_spec hwf h
  rw [h4]
  rfl

theorem afterCaptures_suicide_iff {g : Game} {c : Color} {x y : Int} (hwf : g.WF)
    (h : g.Admits c x y) :
    ((g.afterCaptures c x y).countLiberties x y c).1 = 0 ↔
      (g.afterCaptures c x y).NoLiberty c ⟨x, y⟩ := by
  obtain ⟨R, -, -, -, -, -, -, -, h8⟩ := afterCaptures_spec hwf h
  exact countLiberties_zero_iff h.colour
    (by rw [inBounds_congr (afterCaptures_Size hwf h)]; exact h.inb) h8

theorem findKo_some {g : Game} {x y : Int} {q : Point} (h : g.findKo x y = some q) :
    q ∈ g.neighbors x y ∧ g.cell q.X q.Y = Color.None := by
  unfold Game.findKo at h
  exact ⟨List.mem_of_find?_eq_some h, by simpa using List.find?_some h⟩

theorem findKo_none {g : Game} {x y : Int} (h : g.findKo x y = none) {q : Point}
    (hq : q ∈ g.neighbors x y) : g.cell q.X q.Y ≠ Color.None := by
  unfold Game.findKo at h
  simpa using List.find?_eq_none.1 h q hq

/-- When the capture loop has taken exactly one stone, that stone stood on a
neighbour of `(x, y)`, which is now empty. -/
theorem captured_one {g : Game} {c : Color} {x y : Int} (hwf : g.WF) (hadm : g.Admits c x y)
    (h1 : ((g.place c x y).captureLoop c x y).2 = 1) :
    ∃ nb, nb ∈ g.neighbors x y ∧ g.cell nb.X nb.Y = c.Opp ∧
      (g.afterCaptures c x y).cell nb.X nb.Y = Color.None := by
  obtain ⟨R, -, h2, h3, -, -, h6, h7, -⟩ := afterCaptures_spec hwf hadm
  rw [h2] at h1
  have hlen : R.length = 1 := by exact_mod_cast h1
  obtain ⟨r, hr⟩ := List.length_eq_one.1 hlen
  obtain ⟨nb, hnb, hcnb, -, hnl⟩ := (h3 r).1 (by rw [hr]; exact List.mem_singleton.2 rfl)
  have hnbR : nb ∈ R := (h3 nb).2 ⟨nb, hnb, hcnb, Game.Conn.seed, hnl⟩
  have hnbin : g.inBounds nb.X nb.Y = true := neighbors_inBounds hnb
  exact ⟨nb, hnb, (h7 nb hnbR).2.1, by rw [h6 nb.X nb.Y hnbin, if_pos hnbR]⟩

/-! ## Reachable games -/

theorem play_sound {g : Game} (h : g.Sound) (c : Color) (x y : Int) : (g.Play c x y).2.Sound := by
  by_cases hadm : g.Admits c x y
  · obtain ⟨R, -, -, -, h4, h5, -, -, -⟩ := afterCaptures_spec h.1 hadm
    have hsz := afterCaptures_Size h.1 hadm
    have hko2 : (g.afterCaptures c x y).koPoint = none := by rw [h4]; rfl
    rw [play_of_admits hadm]
    by_cases hz : ((g.afterCaptures c x y).countLiberties x y c).1 = 0
    · rw [if_pos hz]
      refine ⟨setCell_WF h5 _ _ _, ?_⟩
      intro p hp
      change (g.afterCaptures c x y).koPoint = some p at hp
      rw [hko2] at hp
      exact absurd hp (by simp)
    · rw [if_neg hz]
      refine ⟨h5, ?_⟩
      intro p hp
      change (g.afterCaptures c x y).koBranch _ c x y = some p at hp
      unfold Game.koBranch at hp
      rw [hko2] at hp
      split at hp
      · split at hp
        · split at hp
          · rename_i q hf
            have hq := findKo_some hf
            simp only [Option.some.injEq] at hp
            subst hp
            exact ⟨neighbors_inBounds hq.1, hq.2⟩
          · exact absurd hp (by simp)
        · exact absurd hp (by simp)
      · exact absurd hp (by simp)
  · rw [(play_of_not_admits hadm).2]
    exact h

theorem reachable_sound {g : Game} (h : Reachable g) : g.Sound := by
  induction h with
  | new n => exact ⟨newGame_WF n, by simp [NewGame]⟩
  | play c x y _ ih => exact play_sound ih c x y
  | pass c _ ih =>
    unfold Game.Pass
    split
    · exact ih
    · simp only
      split <;> exact ih
  | resign c _ ih =>
    unfold Game.Resign
    split <;> exact ih
  | startScoring _ ih =>
    unfold Game.StartScoring
    split <;> exact ih
  | toggleDead x y _ ih =>
    unfold Game.ToggleDeadAt
    split <;> exact ih
  | finalize _ ih =>
    unfold Game.FinalizeScore
    split <;> exact ih

theorem reachable_playAll {ms : List (Color × Int × Int)} {g g' : Game} (h : Reachable g)
    (hp : playAll ms g = some g') : Reachable g' := by
  induction ms generalizing g with
  | nil =>
    simp only [playAll, Option.some.injEq] at hp
    rw [← hp]
    exact h
  | cons m ms ih =>
    simp only [playAll] at hp
    split at hp
    · exact ih (Reachable.play m.1 m.2.1 m.2.2 h) hp
    · exact absurd hp (by simp)

/-- An optional game is `some g0` when its content, compared by evaluation, is `g0`. -/
theorem eq_some_of_elim (o : Option Game) (g0 : Game)
    (h : o.elim false (fun g => decide (g = g0)) = true) : o = some g0 := by
  cases o with
  | none => exact absurd h Bool.false_ne_true
  | some g => exact congrArg some (of_decide_eq_true h)

/-- The position `koGame` is reached from `NewGame 5` by the legal moves `koMoves`. -/
theorem koGame_reached : playAll koMoves (NewGame 5) = some koGame :=
  eq_some_of_elim _ _ (by decide)

/-- The position `preKoGame` is reached from `NewGame 5` by the first ten moves of `koMoves`. -/
theorem preKoGame_reached : playAll (koMoves.take 10) (NewGame 5) = some preKoGame :=
  eq_some_of_elim _ _ (by decide)

/-- The position `koGame` is reachable. -/
theorem koGame_reachable : Reachable koGame :=
  reachable_playAll (Reachable.new 5) koGame_reached

/-- After a successful `Play` on a sound game the ko point is not the one that
was active before. -/
theorem play_ko_moves {g : Game} (hs : g.Sound) {p : Point} (hko : g.koPoint = some p)
    {c : Color} {x y : Int} (hok : (g.Play c x y).1 = none) :
    (g.Play c x y).2.koPoint ≠ some p := by
  obtain ⟨hwf, hsound⟩ := hs
  obtain ⟨hpin, hpe⟩ := hsound p hko
  by_cases hadm : g.Admits c x y
  · obtain ⟨R, -, -, -, h4, h5, h6, -, h8⟩ := afterCaptures_spec hwf hadm
    have hsz := afterCaptures_Size hwf hadm
    have hin2 : (g.afterCaptures c x y).inBounds x y = true := by
      rw [inBounds_congr hsz]; exact hadm.inb
    have hko2 : (g.afterCaptures c x y).koPoint = none := by rw [h4]; rfl
    by_cases hz : ((g.afterCaptures c x y).countLiberties x y c).1 = 0
    · rw [play_of_admits hadm, if_pos hz] at hok
      simp at hok
    · rw [play_of_admits hadm, if_neg hz]
      show (g.afterCaptures c x y).koBranch _ c x y ≠ some p
      unfold Game.koBranch
      rw [hko2]
      split
      · rename_i hone
        split
        · rename_i hlone
          split
          · rename_i q hf
            have hq := findKo_some hf
            intro hqp
            simp only [Option.some.injEq] at hqp
            subst hqp
            obtain ⟨nb, hnb, hcnb, hnbe⟩ := captured_one hwf hadm hone
            have hnb2 : nb ∈ (g.afterCaptures c x y).neighbors x y := by
              rw [neighbors_congr hsz]; exact hnb
            have hne : nb ≠ q := by
              rintro rfl
              rw [hpe] at hcnb
              exact opp_ne_none hadm.colour hcnb.symm
            have := countLiberties_two hadm.colour hin2 h8
              (isLiberty_of_neighbor (c := c) hnb2 hnbe) (isLiberty_of_neighbor hq.1 hq.2) hne
            omega
          · simp
        · simp
      · simp
  · exact absurd hok (play_of_not_admits hadm).1

/-! ## Captures (C1) -/

/-- C1: after a successful `Play` the cell `(x, y)`, empty before, holds the
stone; the cells of the opponent groups next to `(x, y)` that have no liberty
once the stone is placed held opponent stones and are now empty; every other
cell is as before; the capture count of the mover has grown by the number of
cells emptied and that of the opponent is unchanged.  The count of the mover
and the number of cells are taken to be values of `int`, the count with room
for a board of stones (`hcnt`), so that `captured += len(stones)` and
`g.Captured[c] += captured` do not wrap; the new count is a value of `int`. -/
theorem play_captures (g : Game) (c : Color) (x y : Int) (hwf : g.WF)
    (hcnt : IsInt64 (g.Captured c) ∧ IsInt64 (g.Size * g.Size) ∧
      IsInt64 (g.Captured c + g.Size * g.Size))
    (hok : (g.Play c x y).1 = none) :
    (g.Play c x y).2.WF ∧ (g.Play c x y).2.Size = g.Size ∧
    (g.cell x y = Color.None ∧ (g.Play c x y).2.cell x y = c) ∧
    (∀ p, (g.place c x y).Captures c x y p →
      g.cell p.X p.Y = c.Opp ∧ (g.Play c x y).2.cell p.X p.Y = Color.None) ∧
    (∀ a b, g.inBounds a b = true → ¬ (a = x ∧ b = y) →
      ¬ (g.place c x y).Captures c x y ⟨a, b⟩ → (g.Play c x y).2.cell a b = g.cell a b) ∧
    (g.Play c x y).2.Captured c = g.Captured c +
      ((g.allPoints.filter fun p => decide (g.cell p.X p.Y ≠ Color.None ∧
        (g.Play c x y).2.cell p.X p.Y = Color.None)).length : Int) ∧
    IsInt64 ((g.Play c x y).2.Captured c) ∧
    (g.Play c x y).2.Captured c.Opp = g.Captured c.Opp := by
  have hsum : (g.Play c x y).2.Captured c = g.Captured c +
      ((g.allPoints.filter fun p => decide (g.cell p.X p.Y ≠ Color.None ∧
        (g.Play c x y).2.cell p.X p.Y = Color.None)).length : Int) →
      IsInt64 ((g.Play c x y).2.Captured c) := by
    intro h
    rw [h]
    have hle := List.length_filter_le (fun p => decide (g.cell p.X p.Y ≠ Color.None ∧
        (g.Play c x y).2.cell p.X p.Y = Color.None)) g.allPoints
    rw [allPoints_length] at hle
    have hs : ((g.Size.toNat * g.Size.toNat : Nat) : Int) = g.Size * g.Size := by
      rw [Nat.cast_mul, Int.toNat_of_nonneg hwf.1]
    have hle2 : ((List.filter (fun p => decide (g.cell p.X p.Y ≠ Color.None ∧
        (g.Play c x y).2.cell p.X p.Y = Color.None)) g.allPoints).length : Int) ≤
        g.Size * g.Size := by
      rw [← hs]
      exact_mod_cast hle
    obtain ⟨⟨h1, h2⟩, -, h3, h4⟩ := hcnt
    constructor
    · omega
    · omega
  by_cases hadm : g.Admits c x y
  · obtain ⟨R, h1, h2, h3, h4, h5, h6, h7, h8⟩ := afterCaptures_spec hwf hadm
    rw [play_of_admits hadm] at hok hsum ⊢
    by_cases hz : ((g.afterCaptures c x y).countLiberties x y c).1 = 0
    · rw [if_pos hz] at hok
      simp at hok
    · rw [if_neg hz] at hsum ⊢
      have hcap : (g.afterCaptures c x y).Captured = g.Captured := by rw [h4]; rfl
      have hcount : ((g.afterCaptures c x y).commit
          ((g.place c x y).captureLoop c x y).2 c x y).Captured c = g.Captured c +
          ((g.allPoints.filter fun p => decide (g.cell p.X p.Y ≠ Color.None ∧
            ((g.afterCaptures c x y).commit
              ((g.place c x y).captureLoop c x y).2 c x y).cell p.X p.Y = Color.None)).length :
            Int) := by
        show Function.update (g.afterCaptures c x y).Captured c _ c = _
        rw [Function.update_same, hcap, h2]
        congr 2
        apply List.Perm.length_eq
        rw [List.perm_ext_iff_of_nodup h1 ((allPoints_nodup g).filter _)]
        intro p
        simp only [List.mem_filter, mem_allPoints, decide_eq_true_eq]
        constructor
        · intro hpR
          obtain ⟨hpin, hpc, -⟩ := h7 p hpR
          refine ⟨hpin, by rw [hpc]; exact opp_ne_none hadm.colour, ?_⟩
          show (g.afterCaptures c x y).cell p.X p.Y = Color.None
          rw [h6 p.X p.Y hpin, if_pos hpR]
        · rintro ⟨hpin, hpc, hpn⟩
          change (g.afterCaptures c x y).cell p.X p.Y = Color.None at hpn
          rw [h6 p.X p.Y hpin] at hpn
          by_contra hpR
          rw [if_neg hpR] at hpn
          by_cases hxy : p.X = x ∧ p.Y = y
          · rw [if_pos hxy] at hpn
            exact hadm.colour hpn
          · rw [if_neg hxy] at hpn
            exact hpc hpn
      refine ⟨h5, afterCaptures_Size hwf hadm, ⟨hadm.empty, h8⟩, ?_, ?_, hcount, hsum hcount, ?_⟩
      · intro p hp
        have hpR := (h3 p).2 hp
        obtain ⟨hpin, hpc, -⟩ := h7 p hpR
        refine ⟨hpc, ?_⟩
        show (g.afterCaptures c x y).cell p.X p.Y = Color.None
        rw [h6 p.X p.Y hpin, if_pos hpR]
      · intro a b hab hxy hncap
        show (g.afterCaptures c x y).cell a b = g.cell a b
        rw [h6 a b hab, if_neg (fun hm => hncap ((h3 _).1 hm)), if_neg hxy]
      · show Function.update (g.afterCaptures c x y).Captured c _ c.Opp = _
        rw [Function.update_noteq (opp_ne_self hadm.colour), hcap]
  · exact absurd hok (play_of_not_admits hadm).1

/-- The capture scenario: in `captureGame` Black plays (1,2), the White stone at
(1,1) is taken and Black's capture count grows by 1. -/
theorem play_captures_witness :
    captureGame.WF ∧
    (IsInt64 (captureGame.Captured Color.Black) ∧
      IsInt64 (captureGame.Size * captureGame.Size) ∧
      IsInt64 (captureGame.Captured Color.Black + captureGame.Size * captureGame.Size)) ∧
    (captureGame.Play Color.Black 1 2).1 = none ∧
    ((captureGame.Play Color.Black 1 2).2.WF ∧
      (captureGame.Play Color.Black 1 2).2.Size = captureGame.Size ∧
      (captureGame.cell 1 2 = Color.None ∧
        (captureGame.Play Color.Black 1 2).2.cell 1 2 = Color.Black) ∧
      (∀ p, (captureGame.place Color.Black 1 2).Captures Color.Black 1 2 p →
        captureGame.cell p.X p.Y = Color.Black.Opp ∧
          (captureGame.Play Color.Black 1 2).2.cell p.X p.Y = Color.None) ∧
      (∀ a b, captureGame.inBounds a b = true → ¬ (a = 1 ∧ b = 2) →
        ¬ (captureGame.place Color.Black 1 2).Captures Color.Black 1 2 ⟨a, b⟩ →
        (captureGame.Play Color.Black 1 2).2.cell a b = captureGame.cell a b) ∧
      (captureGame.Play Color.Black 1 2).2.Captured Color.Black =
        captureGame.Captured Color.Black +
          ((captureGame.allPoints.filter fun p => decide (captureGame.cell p.X p.Y ≠ Color.None ∧
            (captureGame.Play Color.Black 1 2).2.cell p.X p.Y = Color.None)).length : Int) ∧
      IsInt64 ((captureGame.Play Color.Black 1 2).2.Captured Color.Black) ∧
      (captureGame.Play Color.Black 1 2).2.Captured Color.Black.Opp =
        captureGame.Captured Color.Black.Opp) ∧
    (captureGame.Play Color.Black 1 2).2.cell 1 1 = Color.None ∧
    (captureGame.Play Color.Black 1 2).2.Captured Color.Black =
      captureGame.Captured Color.Black + 1 :=
  ⟨by decide, by decide, by decide,
    play_captures captureGame Color.Black 1 2 (by decide) (by decide) (by decide),
    by decide, by decide⟩

/-! ## Errors of `Play` (C2, C3, C4) -/

theorem noLiberty_of_cells {g h : Game} (hg : g.WF) (hh : h.WF) (hs : h.Size = g.Size)
    (hc : ∀ a b, g.inBounds a b = true → h.cell a b = g.cell a b) {c : Color} {s : Point}
    (hn : g.NoLiberty c s) : h.NoLiberty c s := by
  have hb := board_ext hg hh hs hc
  intro p hp q hq
  rw [cell_congr hb]
  rw [neighbors_congr hs] at hq
  exact hn p (conn_congr hs.symm hb.symm hp) q hq

/-- The capture loop of `Play` leaves the board that `AfterStone` describes. -/
theorem afterStone_afterCaptures {g : Game} {c : Color} {x y : Int} (hwf : g.WF)
    (hadm : g.Admits c x y) : g.AfterStone c x y (g.afterCaptures c x y) := by
  obtain ⟨R, -, -, h3, -, h5, h6, -, -⟩ := afterCaptures_spec hwf hadm
  refine ⟨h5, afterCaptures_Size hwf hadm, ?_⟩
  intro a b hab
  constructor
  · intro hcap
    rw [h6 a b hab, if_pos ((h3 _).2 hcap)]
  · intro hcap
    rw [h6 a b hab, if_neg (fun hm => hcap ((h3 _).1 hm))]

/-- The board that `AfterStone` describes is one board. -/
theorem afterStone_cells {g : Game} {c : Color} {x y : Int} {h1 h2 : Game}
    (a1 : g.AfterStone c x y h1) (a2 : g.AfterStone c x y h2) (a b : Int)
    (hab : h1.inBounds a b = true) : h2.cell a b = h1.cell a b := by
  rw [inBounds_congr a1.2.1] at hab
  by_cases hcap : (g.place c x y).Captures c x y ⟨a, b⟩
  · rw [(a1.2.2 a b hab).1 hcap, (a2.2.2 a b hab).1 hcap]
  · rw [(a1.2.2 a b hab).2 hcap, (a2.2.2 a b hab).2 hcap]

/-- C2: `Play` returns an error exactly when the game is over, the colour is
`None`, it is not the colour's turn, the point is out of bounds, the cell is
occupied, the point is the active ko point, or the group of the placed stone
has no liberty on the board with the stone placed and the opponent groups next
to it that are left without liberty removed (`AfterStone`, stated on
connectivity); otherwise the cell holds the stone, the turn passes to the
opponent, the pass counter is 0 and the last move is `(x, y)`. -/
theorem play_error_iff (g : Game) (c : Color) (x y : Int) (hwf : g.WF) :
    ((g.Play c x y).1 ≠ none ↔
      (g.over = true ∨ c = Color.None ∨ c ≠ g.Turn ∨ g.inBounds x y = false ∨
        g.cell x y ≠ Color.None ∨ g.koPoint = some ⟨x, y⟩ ∨
        ∃ h, g.AfterStone c x y h ∧ h.NoLiberty c ⟨x, y⟩)) ∧
    ((g.Play c x y).1 = none →
      (g.Play c x y).2.cell x y = c ∧ (g.Play c x y).2.Turn = c.Opp ∧
        (g.Play c x y).2.passes = 0 ∧ (g.Play c x y).2.lastMove = ⟨x, y⟩) := by
  by_cases hadm : g.Admits c x y
  · have hnot : ¬ (g.over = true ∨ c = Color.None ∨ c ≠ g.Turn ∨ g.inBounds x y = false ∨
        g.cell x y ≠ Color.None ∨ g.koPoint = some ⟨x, y⟩) :=
      fun hn => (not_admits_iff g c x y).2 hn hadm
    obtain ⟨R, -, -, -, h4, -, -, -, h8⟩ := afterCaptures_spec hwf hadm
    have hsu := afterCaptures_suicide_iff hwf hadm
    have hspec := afterStone_afterCaptures hwf hadm
    rw [play_of_admits hadm]
    by_cases hz : ((g.afterCaptures c x y).countLiberties x y c).1 = 0
    · rw [if_pos hz]
      refine ⟨⟨fun _ => ?_, fun _ => by simp⟩, fun hn => by simp at hn⟩
      exact Or.inr (Or.inr (Or.inr (Or.inr (Or.inr (Or.inr ⟨_, hspec, hsu.1 hz⟩)))))
    · rw [if_neg hz]
      refine ⟨⟨fun hn => absurd rfl hn, ?_⟩, fun _ => ⟨h8, ?_, rfl, rfl⟩⟩
      · intro hn
        rcases hn with hn | hn | hn | hn | hn | hn | ⟨h, ha, hn⟩
        · exact absurd (Or.inl hn) hnot
        · exact absurd (Or.inr (Or.inl hn)) hnot
        · exact absurd (Or.inr (Or.inr (Or.inl hn))) hnot
        · exact absurd (Or.inr (Or.inr (Or.inr (Or.inl hn)))) hnot
        · exact absurd (Or.inr (Or.inr (Or.inr (Or.inr (Or.inl hn))))) hnot
        · exact absurd (Or.inr (Or.inr (Or.inr (Or.inr (Or.inr hn))))) hnot
        · refine absurd (hsu.2 ?_) hz
          exact noLiberty_of_cells ha.1 hspec.1 (hspec.2.1.trans ha.2.1.symm)
            (afterStone_cells ha hspec) hn
      · show (g.afterCaptures c x y).Turn.Opp = c.Opp
        rw [h4]
        show g.Turn.Opp = c.Opp
        rw [hadm.turn]
  · have hn := (not_admits_iff g c x y).1 hadm
    have h := play_of_not_admits hadm
    refine ⟨⟨fun _ => ?_, fun _ => h.1⟩, fun h0 => absurd h0 h.1⟩
    rcases hn with hn | hn | hn | hn | hn | hn
    · exact Or.inl hn
    · exact Or.inr (Or.inl hn)
    · exact Or.inr (Or.inr (Or.inl hn))
    · exact Or.inr (Or.inr (Or.inr (Or.inl hn)))
    · exact Or.inr (Or.inr (Or.inr (Or.inr (Or.inl hn))))
    · exact Or.inr (Or.inr (Or.inr (Or.inr (Or.inr (Or.inl hn)))))

/-- Two scenarios.  In `preKoGame` Black plays (1,2): the stone has no empty
neighbour, yet the move takes the White stone at (1,1) and succeeds, so the
group of (1,2) has a liberty on the board after the capture.  On `NewGame 19`
Black plays (3,3): the move succeeds, the cell holds Black and the turn is White's. -/
theorem play_error_iff_witness :
    preKoGame.WF ∧ (preKoGame.Play Color.Black 1 2).1 = none ∧
    (∀ q ∈ preKoGame.neighbors 1 2, preKoGame.cell q.X q.Y ≠ Color.None) ∧
    (¬ ∃ h, preKoGame.AfterStone Color.Black 1 2 h ∧ h.NoLiberty Color.Black ⟨1, 2⟩) ∧
    ((preKoGame.Play Color.Black 1 2).2.cell 1 2 = Color.Black ∧
      (preKoGame.Play Color.Black 1 2).2.Turn = Color.Black.Opp ∧
      (preKoGame.Play Color.Black 1 2).2.passes = 0 ∧
      (preKoGame.Play Color.Black 1 2).2.lastMove = ⟨1, 2⟩) ∧
    (NewGame 19).WF ∧ ((NewGame 19).Play Color.Black 3 3).1 = none ∧
    (((NewGame 19).Play Color.Black 3 3).2.cell 3 3 = Color.Black ∧
      ((NewGame 19).Play Color.Black 3 3).2.Turn = Color.Black.Opp ∧
      ((NewGame 19).Play Color.Black 3 3).2.passes = 0 ∧
      ((NewGame 19).Play Color.Black 3 3).2.lastMove = ⟨3, 3⟩) :=
  ⟨by decide, by decide, by decide,
    fun h => (play_error_iff preKoGame Color.Black 1 2 (by decide)).1.2
      (Or.inr (Or.inr (Or.inr (Or.inr (Or.inr (Or.inr h)))))) (by decide),
    (play_error_iff preKoGame Color.Black 1 2 (by decide)).2 (by decide),
    by decide, by decide,
    (play_error_iff (NewGame 19) Color.Black 3 3 (by decide)).2 (by decide)⟩

/-- C3: a `Play` rejected because the game is over, the colour is `None`, it is
not the colour's turn, the point is out of bounds, the cell is occupied or the
point is the active ko point returns an error and leaves the whole game as it was. -/
theorem play_rejected_unchanged (g : Game) (c : Color) (x y : Int) (_hwf : g.WF)
    (h : g.over = true ∨ c = Color.None ∨ c ≠ g.Turn ∨ g.inBounds x y = false ∨
      g.cell x y ≠ Color.None ∨ g.koPoint = some ⟨x, y⟩) :
    (g.Play c x y).1 ≠ none ∧ (g.Play c x y).2 = g :=
  play_of_not_admits ((not_admits_iff g c x y).2 h)

/-- In `koGame` the play of White at the ko point (1,1) is rejected and changes nothing. -/
theorem play_rejected_unchanged_witness :
    koGame.WF ∧
      (koGame.over = true ∨ Color.White = Color.None ∨ Color.White ≠ koGame.Turn ∨
        koGame.inBounds 1 1 = false ∨ koGame.cell 1 1 ≠ Color.None ∨
        koGame.koPoint = some ⟨1, 1⟩) ∧
      (koGame.Play Color.White 1 1).1 ≠ none ∧ (koGame.Play Color.White 1 1).2 = koGame :=
  ⟨by decide, by decide,
    play_rejected_unchanged koGame Color.White 1 1 (by decide) (by decide)⟩

/-- A suicide leaves the board, the capture counts and the turn as they were. -/
theorem suicide_restores {g : Game} {c : Color} {x y : Int} (hwf : g.WF)
    (hadm : g.Admits c x y) (hs : (g.afterCaptures c x y).NoLiberty c ⟨x, y⟩) :
    (g.Play c x y).1 = some PlayError.suicide ∧ (g.Play c x y).2.Board = g.Board ∧
      (g.Play c x y).2.Captured = g.Captured ∧ (g.Play c x y).2.Turn = g.Turn := by
  obtain ⟨R, h1, h2, h3, h4, h5, h6, h7, h8⟩ := afterCaptures_spec hwf hadm
  have hsz := afterCaptures_Size hwf hadm
  have hz := (afterCaptures_suicide_iff hwf hadm).2 hs
  rw [play_of_admits hadm, if_pos hz]
  have hR : ∀ p, p ∉ R := by
    intro p hp
    obtain ⟨nb, hnb, hcnb, -, hnl⟩ := (h3 p).1 hp
    have hnbR : nb ∈ R := (h3 nb).2 ⟨nb, hnb, hcnb, Game.Conn.seed, hnl⟩
    have hnbin : g.inBounds nb.X nb.Y = true := neighbors_inBounds hnb
    refine hs ⟨x, y⟩ Game.Conn.seed nb ?_ ?_
    · rw [neighbors_congr hsz]
      exact hnb
    · rw [h6 nb.X nb.Y hnbin, if_pos hnbR]
  refine ⟨rfl, ?_, ?_, ?_⟩
  · apply board_ext hwf (setCell_WF h5 _ _ _) hsz
    intro a b hab
    show ((g.afterCaptures c x y).setCell x y Color.None).cell a b = _
    rw [cell_setCell h5 (by rw [inBounds_congr hsz]; exact hadm.inb) _
      (by rw [inBounds_congr hsz]; exact hab), h6 a b hab, if_neg (hR _)]
    by_cases hxy : a = x ∧ b = y
    · rw [if_pos hxy, hxy.1, hxy.2, hadm.empty]
    · rw [if_neg hxy, if_neg hxy]
  · show (g.afterCaptures c x y).Captured = _
    rw [h4]
    rfl
  · show (g.afterCaptures c x y).Turn = _
    rw [h4]
    rfl

/-- C4: when the guards of `Play` pass and the group of the placed stone has no
liberty once the captures are applied, `Play` returns the suicide error and
the board, the capture counts and the turn are as before the call. -/
theorem play_suicide_restores (g : Game) (c : Color) (x y : Int) (hwf : g.WF)
    (hadm : g.Admits c x y) (hs : (g.afterCaptures c x y).NoLiberty c ⟨x, y⟩) :
    (g.Play c x y).1 = some PlayError.suicide ∧ (g.Play c x y).2.Board = g.Board ∧
      (g.Play c x y).2.Captured = g.Captured ∧ (g.Play c x y).2.Turn = g.Turn :=
  suicide_restores hwf hadm hs

/-- In `koGame` the play of White in the corner (4,4), between the Black stones at
(3,4) and (4,3), is a suicide: board, capture counts and turn are kept. -/
theorem play_suicide_restores_witness :
    koGame.WF ∧ koGame.Admits Color.White 4 4 ∧
    (koGame.afterCaptures Color.White 4 4).NoLiberty Color.White ⟨4, 4⟩ ∧
    (koGame.Play Color.White 4 4).1 = some PlayError.suicide ∧
    (koGame.Play Color.White 4 4).2.Board = koGame.Board ∧
    (koGame.Play Color.White 4 4).2.Captured = koGame.Captured ∧
    (koGame.Play Color.White 4 4).2.Turn = koGame.Turn :=
  have hwf : koGame.WF := by decide
  have hadm : koGame.Admits Color.White 4 4 :=
    ⟨by decide, by decide, by decide, by decide, by decide, by decide⟩
  have hs : (koGame.afterCaptures Color.White 4 4).NoLiberty Color.White ⟨4, 4⟩ :=
    (afterCaptures_suicide_iff hwf hadm).1 (by decide)
  ⟨hwf, hadm, hs, play_suicide_restores koGame Color.White 4 4 hwf hadm hs⟩

/-! ## Ko (C5, C6, C7) -/

/-- C5: after a successful `Play` that takes exactly one stone and leaves the
group of `(x, y)` with the single liberty `p`, the ko point is `p`, the stone
taken stood on `p`, and the opponent's `Play` at `p` is rejected as ko and
changes nothing. -/
theorem play_ko_forbidden (g : Game) (c : Color) (x y : Int) (hwf : g.WF)
    (hok : (g.Play c x y).1 = none)
    (hcap : (g.Play c x y).2.Captured c = g.Captured c + 1) (p : Point)
    (hlib : (g.Play c x y).2.IsLiberty c ⟨x, y⟩ p)
    (huniq : ∀ q, (g.Play c x y).2.IsLiberty c ⟨x, y⟩ q → q = p) :
    (g.Play c x y).2.koPoint = some p ∧
    (g.cell p.X p.Y = c.Opp ∧ (g.Play c x y).2.cell p.X p.Y = Color.None) ∧
    ((g.Play c x y).2.Play c.Opp p.X p.Y).1 = some PlayError.ko ∧
    ((g.Play c x y).2.Play c.Opp p.X p.Y).2 = (g.Play c x y).2 := by
  by_cases hadm : g.Admits c x y
  · obtain ⟨R, -, -, -, h4, h5, -, -, h8⟩ := afterCaptures_spec hwf hadm
    have hsz := afterCaptures_Size hwf hadm
    have hin2 : (g.afterCaptures c x y).inBounds x y = true := by
      rw [inBounds_congr hsz]; exact hadm.inb
    by_cases hz : ((g.afterCaptures c x y).countLiberties x y c).1 = 0
    · rw [play_of_admits hadm, if_pos hz] at hok
      simp at hok
    · have hP : g.Play c x y =
          (none, (g.afterCaptures c x y).commit ((g.place c x y).captureLoop c x y).2 c x y) := by
        rw [play_of_admits hadm, if_neg hz]
      rw [hP] at hcap hlib huniq ⊢
      simp only at hcap hlib huniq ⊢
      have hcapd : (g.afterCaptures c x y).Captured = g.Captured := by rw [h4]; rfl
      have hone : ((g.place c x y).captureLoop c x y).2 = 1 := by
        change Function.update (g.afterCaptures c x y).Captured c _ c = _ at hcap
        rw [Function.update_same, hcapd] at hcap
        omega
      obtain ⟨nb, hnb, hcnb, hnbe⟩ := captured_one hwf hadm hone
      have hnb2 : nb ∈ (g.afterCaptures c x y).neighbors x y := by
        rw [neighbors_congr hsz]; exact hnb
      have hlib2 : ∀ q, (g.afterCaptures c x y).IsLiberty c ⟨x, y⟩ q → q = p :=
        fun q hq => huniq q (isLiberty_congr (commit_Size _ _ _ _ _) (commit_Board _ _ _ _ _) hq)
      have hnbp : nb = p := hlib2 nb (isLiberty_of_neighbor hnb2 hnbe)
      subst hnbp
      have hlone : ((g.afterCaptures c x y).countLiberties x y c).1 = 1 :=
        (countLiberties_one_iff hadm.colour hin2 h8).2
          ⟨nb, isLiberty_of_neighbor hnb2 hnbe, hlib2⟩
      have hko : ((g.afterCaptures c x y).commit
          ((g.place c x y).captureLoop c x y).2 c x y).koPoint = some nb := by
        show (g.afterCaptures c x y).koBranch _ c x y = some nb
        unfold Game.koBranch
        rw [if_pos hone, if_pos hlone]
        cases hf : (g.afterCaptures c x y).findKo x y with
        | none => exact absurd hnbe (findKo_none hf hnb2)
        | some q =>
          have hq := findKo_some hf
          rw [hlib2 q (isLiberty_of_neighbor hq.1 hq.2)]
      have hrej := play_of_not_admits (c := c.Opp) (x := nb.X) (y := nb.Y)
        (g := (g.afterCaptures c x y).commit ((g.place c x y).captureLoop c x y).2 c x y)
        (fun ha => ha.notKo hko)
      refine ⟨hko, ⟨hcnb, hnbe⟩, ?_, hrej.2⟩
      have hover : ((g.afterCaptures c x y).commit
          ((g.place c x y).captureLoop c x y).2 c x y).over = false := by
        show (g.afterCaptures c x y).over = false
        rw [h4]; exact hadm.notOver
      have hturn : ((g.afterCaptures c x y).commit
          ((g.place c x y).captureLoop c x y).2 c x y).Turn = c.Opp := by
        show (g.afterCaptures c x y).Turn.Opp = c.Opp
        rw [h4]
        show g.Turn.Opp = c.Opp
        rw [hadm.turn]
      have hinb : ((g.afterCaptures c x y).commit
          ((g.place c x y).captureLoop c x y).2 c x y).inBounds nb.X nb.Y = true :=
        neighbors_inBounds hnb2
      have hcell : ((g.afterCaptures c x y).commit
          ((g.place c x y).captureLoop c x y).2 c x y).cell nb.X nb.Y = Color.None := hnbe
      unfold Game.Play
      simp [hover, opp_ne_none hadm.colour, hturn, hinb, hcell, hko]
  · exact absurd hok (play_of_not_admits hadm).1

/-- In `preKoGame` Black takes the White stone at (1,1) by playing (1,2): the ko point
is (1,1) and White may not retake at once. -/
theorem play_ko_forbidden_witness :
    preKoGame.WF ∧ (preKoGame.Play Color.Black 1 2).1 = none ∧
    (preKoGame.Play Color.Black 1 2).2.Captured Color.Black =
      preKoGame.Captured Color.Black + 1 ∧
    (preKoGame.Play Color.Black 1 2).2.IsLiberty Color.Black ⟨1, 2⟩ ⟨1, 1⟩ ∧
    (∀ q, (preKoGame.Play Color.Black 1 2).2.IsLiberty Color.Black ⟨1, 2⟩ q → q = ⟨1, 1⟩) ∧
    (preKoGame.Play Color.Black 1 2).2.koPoint = some ⟨1, 1⟩ ∧
    (preKoGame.cell 1 1 = Color.White ∧
      (preKoGame.Play Color.Black 1 2).2.cell 1 1 = Color.None) ∧
    ((preKoGame.Play Color.Black 1 2).2.Play Color.White 1 1).1 = some PlayError.ko ∧
    ((preKoGame.Play Color.Black 1 2).2.Play Color.White 1 1).2 =
      (preKoGame.Play Color.Black 1 2).2 :=
  have hlib : (preKoGame.Play Color.Black 1 2).2.IsLiberty Color.Black ⟨1, 2⟩ ⟨1, 1⟩ :=
    ⟨⟨1, 2⟩, Game.Conn.seed, by decide, by decide⟩
  have huniq : ∀ q, (preKoGame.Play Color.Black 1 2).2.IsLiberty Color.Black ⟨1, 2⟩ q →
      q = ⟨1, 1⟩ := by
    obtain ⟨p0, -, h0⟩ := (countLiberties_one_iff (g := (preKoGame.Play Color.Black 1 2).2)
      (c := Color.Black) (x := 1) (y := 2) (by decide) (by decide) (by decide)).1 (by decide)
    intro q hq
    rw [h0 q hq, h0 _ hlib]
  ⟨by decide, by decide, by decide, hlib, huniq,
    play_ko_forbidden preKoGame Color.Black 1 2 (by decide) (by decide) (by decide) ⟨1, 1⟩
      hlib huniq⟩

/-- C6: in a game reached from a fresh one whose ko point is `p`, a `Play` that
succeeds leaves a ko point other than `p` (none, or another point). -/
theorem ko_lifted (g : Game) (hr : Reachable g) (p : Point) (hko : g.koPoint = some p)
    (c : Color) (x y : Int) (hok : (g.Play c x y).1 = none) :
    (g.Play c x y).2.koPoint ≠ some p :=
  play_ko_moves (reachable_sound hr) hko hok

/-- In `koGame` White plays elsewhere, at (3,3): the ko point (1,1) is lifted. -/
theorem ko_lifted_witness :
    Reachable koGame ∧ koGame.koPoint = some ⟨1, 1⟩ ∧
    (koGame.Play Color.White 3 3).1 = none ∧
    (koGame.Play Color.White 3 3).2.koPoint ≠ some ⟨1, 1⟩ :=
  ⟨koGame_reachable, by decide, by decide,
    ko_lifted koGame koGame_reachable ⟨1, 1⟩ (by decide) Color.White 3 3 (by decide)⟩

/-- C7 fails on the code: in `koGame` (White to move, ko point (1,1)) the suicide
move of White at (4,4) is rejected, yet the game after the call has lost its ko
point, and White may then retake at (1,1), which was forbidden before the call. -/
theorem play_suicide_clears_ko :
    koGame.koPoint = some ⟨1, 1⟩ ∧
    (koGame.Play Color.White 1 1).1 = some PlayError.ko ∧
    (koGame.Play Color.White 4 4).1 = some PlayError.suicide ∧
    (koGame.Play Color.White 4 4).2.koPoint = none ∧
    (koGame.Play Color.White 4 4).2 ≠ koGame ∧
    ((koGame.Play Color.White 4 4).2.Play Color.White 1 1).1 = none := by
  decide

/-! ## Commands on a finished game (C8) -/

/-- On a finished game `Play`, `Pass`, `Resign`, `StartScoring` and
`FinalizeScore` change nothing. -/
theorem over_unchanged (g : Game) (h : g.over = true) (c : Color) (x y : Int) :
    (g.Play c x y).2 = g ∧ g.Pass c = g ∧ g.Resign c = g ∧ g.StartScoring = g ∧
      g.FinalizeScore = g := by
  simp [Game.Play, Game.Pass, Game.Resign, Game.StartScoring, Game.FinalizeScore, h]

/-- C8 fails on the code: `overGame` is over (and was in its scoring phase when
Black resigned), yet `ToggleDeadAt 0 0` adds a dead mark to it. -/
theorem toggleDead_after_over :
    overGame.over = true ∧ overGame.dead = [] ∧
    (overGame.ToggleDeadAt 0 0).dead = [(⟨0, 0⟩, true)] ∧
    overGame.ToggleDeadAt 0 0 ≠ overGame := by
  decide

/-! ## Spectators (C9) -/

/-- A session of colour `None` changes nothing by `place`, `pass`, `resign`,
`sync` or an unknown message. -/
theorem spectator_play_unchanged (r : Room) (x y : Int) :
    r.handle Color.None (Msg.place x y) = r ∧ r.handle Color.None Msg.pass = r ∧
      r.handle Color.None Msg.resign = r ∧ r.handle Color.None Msg.sync = r ∧
      r.handle Color.None Msg.unknown = r := by
  refine ⟨?_, ?_, ?_, rfl, rfl⟩
  · simp only [Room.handle, Game.Play]
    by_cases h : r.game.over = true <;> simp [h]
  · simp [Room.handle, Game.Pass]
  · simp [Room.handle, Game.Resign]

/-- C9 fails on the code: in a fresh room a session of colour `None` starts the
scoring phase with `request-score`, marks (3,3) dead with `toggle-dead` and ends
the game with `finalize-score`. -/
theorem spectator_mutates :
    newRoom.game.scoring = false ∧
    (newRoom.handle Color.None Msg.requestScore).game.scoring = true ∧
    ((newRoom.handle Color.None Msg.requestScore).handle Color.None
      (Msg.toggleDead 3 3)).game.dead = [(⟨3, 3⟩, true)] ∧
    newRoom.game.over = false ∧
    ((newRoom.handle Color.None Msg.requestScore).handle Color.None
      Msg.finalizeScore).game.over = true := by
  refine ⟨by decide, by decide, by decide, by decide, ?_⟩
  simp [Room.handle, newRoom, Game.StartScoring, Game.FinalizeScore, NewGame]

/-! ## Colour assignment (C10) -/

/-- C10 fails on the code: the first session is given Black and leaves; the
session joining next is given Black again. -/
theorem vacated_colour_reassigned :
    (newRoom.ServeWS 1).2 = Color.Black ∧
    (((newRoom.ServeWS 1).1.leave 1).ServeWS 2).2 = Color.Black := by
  constructor <;> rfl

/-- C10 as amended: a joining session is given Black exactly when no connected
session holds Black, White exactly when Black is held and White is not, and
`None` exactly when both are held; so a colour held by a connected session is
never given to another, and a vacated colour is given to the next joiner. -/
theorem serveWS_colour (r : Room) (id : Nat) :
    ((r.ServeWS id).2 = Color.Black ↔ ∀ cli ∈ r.conns, cli.color ≠ Color.Black) ∧
    ((r.ServeWS id).2 = Color.White ↔
      (∃ cli ∈ r.conns, cli.color = Color.Black) ∧ ∀ cli ∈ r.conns, cli.color ≠ Color.White) ∧
    ((r.ServeWS id).2 = Color.None ↔
      (∃ cli ∈ r.conns, cli.color = Color.Black) ∧ ∃ cli ∈ r.conns, cli.color = Color.White) := by
  have hB : colorsInUse (r.conns ++ [⟨id, Color.None⟩]) Color.Black = true ↔
      ∃ cli ∈ r.conns, cli.color = Color.Black := by
    simp [colorsInUse]
    constructor
    · rintro ⟨cli, h1, -, h2⟩; exact ⟨cli, h1, h2⟩
    · rintro ⟨cli, h1, h2⟩; exact ⟨cli, h1, by rw [h2]; decide, h2⟩
  have hW : colorsInUse (r.conns ++ [⟨id, Color.None⟩]) Color.White = true ↔
      ∃ cli ∈ r.conns, cli.color = Color.White := by
    simp [colorsInUse]
    constructor
    · rintro ⟨cli, h1, -, h2⟩; exact ⟨cli, h1, h2⟩
    · rintro ⟨cli, h1, h2⟩; exact ⟨cli, h1, by rw [h2]; decide, h2⟩
  simp only [Room.ServeWS]
  by_cases h1 : colorsInUse (r.conns ++ [⟨id, Color.None⟩]) Color.Black = true
  · by_cases h2 : colorsInUse (r.conns ++ [⟨id, Color.None⟩]) Color.White = true
    · have e1 := hB.1 h1
      have e2 := hW.1 h2
      simp only [h1, h2, Bool.not_true, Bool.false_eq_true, if_false]
      refine ⟨?_, ?_, ?_⟩
      · simp only [reduceCtorEq, false_iff]; push_neg; exact e1
      · simp only [reduceCtorEq, false_iff, not_and]; intro _; push_neg; exact e2
      · simp only [true_iff]; exact ⟨e1, e2⟩
    · have e1 := hB.1 h1
      have e2 : ¬ ∃ cli ∈ r.conns, cli.color = Color.White := fun h => h2 (hW.2 h)
      simp only [h1, h2, Bool.not_true, Bool.not_false, Bool.false_eq_true, if_false, if_true]
      refine ⟨?_, ?_, ?_⟩
      · simp only [reduceCtorEq, false_iff]; push_neg; exact e1
      · simp only [true_iff]; push_neg at e2; exact ⟨e1, e2⟩
      · simp only [reduceCtorEq, false_iff, not_and]; intro _; exact e2
  · have e1 : ¬ ∃ cli ∈ r.conns, cli.color = Color.Black := fun h => h1 (hB.2 h)
    simp only [h1, Bool.not_false, if_true]
    refine ⟨?_, ?_, ?_⟩
    · simp only [true_iff]; push_neg at e1; exact e1
    · simp only [reduceCtorEq, false_iff, not_and]; intro h; exact absurd h e1
    · simp only [reduceCtorEq, false_iff, not_and]; intro h; exact absurd h e1

/-! ## `Pass` and `Resign` (C14, C15) -/

theorem opp_opp {c : Color} : c.Opp.Opp = c := by
  cases c <;> rfl

/-- C14: on a game that is not over and whose pass counter is 0, a `Pass` by the
player on turn followed by a `Pass` by the other player leaves `scoring = true`,
`over = false`, the turn with the first passer, and the board and the capture
counts as they were; a `Pass` by `None`, by the player not on turn or on a
finished game changes nothing. -/
theorem pass_twice (g : Game) (c : Color) :
    (g.over = false → g.passes = 0 → c ≠ Color.None → c = g.Turn →
      ((g.Pass c).Pass c.Opp).scoring = true ∧ ((g.Pass c).Pass c.Opp).over = false ∧
      ((g.Pass c).Pass c.Opp).Turn = c ∧ ((g.Pass c).Pass c.Opp).Board = g.Board ∧
      ((g.Pass c).Pass c.Opp).Captured = g.Captured) ∧
    (g.over = true ∨ c = Color.None ∨ c ≠ g.Turn → g.Pass c = g) := by
  constructor
  · intro h1 h2 h3 h4
    subst h4
    have h5 : g.Turn.Opp ≠ Color.None := opp_ne_none h3
    simp [Game.Pass, h1, h2, h3, h5, opp_opp]
  · rintro (h | h | h) <;> simp [Game.Pass, h]

/-- The scenario of two passes: on a new game Black passes, then White passes. -/
theorem pass_twice_witness :
    (NewGame 19).over = false ∧ (NewGame 19).passes = 0 ∧ Color.Black ≠ Color.None ∧
    Color.Black = (NewGame 19).Turn ∧
    (((NewGame 19).Pass Color.Black).Pass Color.White).scoring = true ∧
    (((NewGame 19).Pass Color.Black).Pass Color.White).over = false ∧
    (((NewGame 19).Pass Color.Black).Pass Color.White).Turn = Color.Black ∧
    (((NewGame 19).Pass Color.Black).Pass Color.White).Board = (NewGame 19).Board ∧
    (((NewGame 19).Pass Color.Black).Pass Color.White).Captured = (NewGame 19).Captured :=
  ⟨by decide, by decide, by decide, by decide,
    (pass_twice (NewGame 19) Color.Black).1 (by decide) (by decide) (by decide) (by decide)⟩

/-- C15: on a game that is not over, `Resign` by Black or White, whoever is on
turn, ends the game with the opponent recorded as winner by resignation and
keeps board, turn and capture counts; `Resign` by `None` or on a finished game
changes nothing. -/
theorem resign_spec (g : Game) (c : Color) :
    (g.over = false → c ≠ Color.None →
      (g.Resign c).over = true ∧
      (g.Resign c).result = (if c = Color.Black then "W+R" else "B+R") ∧
      (g.Resign c).Board = g.Board ∧ (g.Resign c).Turn = g.Turn ∧
      (g.Resign c).Captured = g.Captured) ∧
    (g.over = true ∨ c = Color.None → g.Resign c = g) := by
  constructor
  · intro h1 h2
    simp [Game.Resign, h1, h2]
  · rintro (h | h) <;> simp [Game.Resign, h]

/-- The resignation scenario: on a new game Black resigns, White wins by resignation. -/
theorem resign_spec_witness :
    (NewGame 19).over = false ∧ Color.Black ≠ Color.None ∧
    ((NewGame 19).Resign Color.Black).over = true ∧
    ((NewGame 19).Resign Color.Black).result = "W+R" ∧
    ((NewGame 19).Resign Color.Black).Board = (NewGame 19).Board ∧
    ((NewGame 19).Resign Color.Black).Turn = (NewGame 19).Turn ∧
    ((NewGame 19).Resign Color.Black).Captured = (NewGame 19).Captured :=
  ⟨by decide, by decide,
    (resign_spec (NewGame 19) Color.Black).1 (by decide) (by decide)⟩

/-! ## Joins without leaves (C11) -/

theorem colorsInUse_seats (k id : Nat) (conns : List Client)
    (h : conns.map Client.color = (List.range k).map seat) (c : Color) :
    colorsInUse (conns ++ [⟨id, Color.None⟩]) c =
      decide ((c = Color.Black ∧ 1 ≤ k) ∨ (c = Color.White ∧ 2 ≤ k)) := by
  have hmem : ∀ d, (∃ cli ∈ conns, cli.color = d) ↔ ∃ i < k, seat i = d := by
    intro d
    have : d ∈ conns.map Client.color ↔ d ∈ (List.range k).map seat := by rw [h]
    simpa using this
  have hiff : colorsInUse (conns ++ [⟨id, Color.None⟩]) c = true ↔
      (c ≠ Color.None ∧ ∃ cli ∈ conns, cli.color = c) := by
    simp only [colorsInUse, List.any_append, List.any_cons, List.any_nil, Bool.or_false,
      Bool.or_eq_true, List.any_eq_true, Bool.and_eq_true, decide_eq_true_eq, ne_eq,
      not_true_eq_false, false_and, or_false]
    constructor
    · rintro ⟨cli, h1, h2, h3⟩
      exact ⟨h3 ▸ h2, cli, h1, h3⟩
    · rintro ⟨h1, cli, h2, h3⟩
      exact ⟨cli, h2, h3 ▸ h1, h3⟩
  rw [Bool.eq_iff_iff, hiff, hmem, decide_eq_true_eq]
  constructor
  · rintro ⟨h1, i, hi, h2⟩
    unfold seat at h2
    split at h2
    · left; exact ⟨h2.symm, by omega⟩
    · split at h2
      · right; exact ⟨h2.symm, by omega⟩
      · exact absurd h2.symm h1
  · rintro (⟨rfl, hk⟩ | ⟨rfl, hk⟩)
    · exact ⟨by decide, 0, by omega, rfl⟩
    · exact ⟨by decide, 1, by omega, rfl⟩

theorem serveWS_seat (r : Room) (k id : Nat)
    (h : r.conns.map Client.color = (List.range k).map seat) :
    (r.ServeWS id).2 = seat k ∧
      (r.ServeWS id).1.conns.map Client.color = (List.range (k + 1)).map seat := by
  have hB := colorsInUse_seats k id r.conns h Color.Black
  have hW := colorsInUse_seats k id r.conns h Color.White
  have h2 : (r.ServeWS id).2 = seat k := by
    simp only [Room.ServeWS, hB, hW, seat]
    rcases Nat.lt_or_ge k 1 with h0 | h0
    · have : k = 0 := by omega
      subst this
      simp
    · rcases Nat.lt_or_ge k 2 with h1 | h1
      · have : k = 1 := by omega
        subst this
        simp
      · have e1 : ¬ k = 0 := by omega
        have e2 : ¬ k = 1 := by omega
        simp [h0, h1, e1, e2]
  refine ⟨h2, ?_⟩
  show (r.conns ++ [Client.mk id (r.ServeWS id).2]).map Client.color = _
  rw [List.map_append, h, h2, List.range_succ, List.map_append]
  rfl

theorem joinAll_seats (ids : List Nat) (r : Room) (k : Nat)
    (h : r.conns.map Client.color = (List.range k).map seat) :
    (r.joinAll ids).2 = (List.range' k ids.length).map seat ∧
      (r.joinAll ids).1.conns.map Client.color = (List.range (k + ids.length)).map seat := by
  induction ids generalizing r k with
  | nil => exact ⟨rfl, h⟩
  | cons id ids ih =>
    obtain ⟨h1, h2⟩ := serveWS_seat r k id h
    obtain ⟨h3, h4⟩ := ih (r.ServeWS id).1 (k + 1) h2
    simp only [Room.joinAll, List.length_cons, List.range'_succ, List.map_cons]
    refine ⟨by rw [h1, h3], ?_⟩
    rw [h4]
    congr 2
    omega

theorem count_seat (n : Nat) (c : Color) (hc : c ≠ Color.None) :
    (((List.range n).map seat).filter fun d => decide (d = c)).length ≤ 1 := by
  induction n with
  | zero => simp
  | succ n ih =>
    rw [List.range_succ, List.map_append, List.filter_append, List.length_append]
    by_cases hn : seat n = c
    · have h0 : (((List.range n).map seat).filter fun d => decide (d = c)) = [] := by
        rw [List.filter_eq_nil_iff]
        intro d hd
        simp only [List.mem_map, List.mem_range] at hd
        obtain ⟨i, hi, rfl⟩ := hd
        simp only [decide_eq_true_eq]
        intro hic
        unfold seat at hn hic
        split at hn
        · split at hic
          · omega
          · split at hic
            · rw [← hn] at hic; exact absurd hic (by decide)
            · rw [← hn] at hic; exact absurd hic (by decide)
        · split at hn
          · split at hic
            · rw [← hn] at hic; exact absurd hic (by decide)
            · split at hic
              · omega
              · rw [← hn] at hic; exact absurd hic (by decide)
          · exact hc hn.symm
      rw [h0]
      simp [hn]
    · simp [hn]
      exact ih

/-- C11: in a room without sessions, when sessions join and none leaves, the
first is given Black, the second White and every later one `None`; at every
moment at most one connected session holds Black and at most one holds White. -/
theorem joins_colours (g : Game) (ids : List Nat) :
    (Room.joinAll ⟨g, []⟩ ids).2 = (List.range ids.length).map seat ∧
    (((Room.joinAll ⟨g, []⟩ ids).1.conns.filter
      fun cli => decide (cli.color = Color.Black)).length ≤ 1) ∧
    (((Room.joinAll ⟨g, []⟩ ids).1.conns.filter
      fun cli => decide (cli.color = Color.White)).length ≤ 1) := by
  obtain ⟨h1, h2⟩ := joinAll_seats ids ⟨g, []⟩ 0 rfl
  have hcount : ∀ c : Color, c ≠ Color.None →
      ((Room.joinAll ⟨g, []⟩ ids).1.conns.filter fun cli => decide (cli.color = c)).length ≤ 1 := by
    intro c hc
    have := count_seat (0 + ids.length) c hc
    rw [← h2, List.filter_map, List.length_map] at this
    exact this
  refine ⟨?_, hcount _ (by decide), hcount _ (by decide)⟩
  rw [h1, List.range_eq_range']

/-! ## `FinalizeScore` twice (C13) -/

/-- C13: in the scoring phase, `FinalizeScore` called twice in a row gives the
same game as called once, and the call keeps the board, the capture counts and
the dead marks. -/
theorem finalizeScore_twice (g : Game) (_hwf : g.WF) (_hdead : g.DeadOK)
    (_hs : g.scoring = true) :
    g.FinalizeScore.FinalizeScore = g.FinalizeScore ∧
    g.FinalizeScore.Board = g.Board ∧ g.FinalizeScore.Captured = g.Captured ∧
    g.FinalizeScore.dead = g.dead := by
  unfold Game.FinalizeScore
  by_cases h : (g.over || !g.scoring) = true
  · simp [h]
  · simp only [h]
    simp

/-- On a new game in its scoring phase, a second `FinalizeScore` changes nothing. -/
theorem finalizeScore_twice_witness :
    (NewGame 19).StartScoring.WF ∧ (NewGame 19).StartScoring.DeadOK ∧
    (NewGame 19).StartScoring.scoring = true ∧
    (NewGame 19).StartScoring.FinalizeScore.FinalizeScore =
      (NewGame 19).StartScoring.FinalizeScore ∧
    (NewGame 19).StartScoring.FinalizeScore.Board = (NewGame 19).StartScoring.Board ∧
    (NewGame 19).StartScoring.FinalizeScore.Captured = (NewGame 19).StartScoring.Captured ∧
    (NewGame 19).StartScoring.FinalizeScore.dead = (NewGame 19).StartScoring.dead :=
  ⟨by decide, by decide, by decide,
    finalizeScore_twice (NewGame 19).StartScoring (by decide) (by decide) (by decide)⟩

/-! ## The last move in the snapshot (C16) -/

/-- After a successful `Play` away from (0,0) the snapshot shows the last move. -/
theorem snapshot_lastMove (g : Game) (c : Color) (x y : Int) (_hwf : g.WF)
    (hok : (g.Play c x y).1 = none) (hxy : x ≠ 0 ∨ y ≠ 0) :
    (g.Play c x y).2.Snapshot.LastMove = some ⟨x, y⟩ := by
  have hl : (g.Play c x y).2.lastMove = ⟨x, y⟩ := by
    by_cases hadm : g.Admits c x y
    · rw [play_of_admits hadm] at hok ⊢
      by_cases hz : ((g.afterCaptures c x y).countLiberties x y c).1 = 0
      · rw [if_pos hz] at hok
        simp at hok
      · rw [if_neg hz]
        rfl
    · exact absurd hok (play_of_not_admits hadm).1
  simp only [Game.Snapshot, hl]
  rw [if_pos hxy]

/-- C16 fails on the code: on a new 19×19 game Black plays the corner (0,0); the
move succeeds and is recorded as last move, yet the snapshot of the resulting
game has no last move. -/
theorem snapshot_lastMove_origin :
    (NewGame 19).inBounds 0 0 = true ∧
    ((NewGame 19).Play Color.Black 0 0).1 = none ∧
    ((NewGame 19).Play Color.Black 0 0).2.lastMove = ⟨0, 0⟩ ∧
    ((NewGame 19).Play Color.Black 0 0).2.Snapshot.LastMove = none := by
  decide

/-! ## What `countLiberties` returns (C19) -/

/-- C19: on a cell of the board holding the colour `c` (Black or White),
`countLiberties` ends within its fuel (more fuel gives the same run), its
stones list, each once, exactly the cells connected to `(x, y)` through cells
of colour `c`, and its count is the number of distinct empty cells next to one
of them; on a cell not holding `c` it returns `(0, [])`. -/
theorem countLiberties_spec (g : Game) (c : Color) (x y : Int) :
    (g.WF → c ≠ Color.None → g.inBounds x y = true → g.cell x y = c →
      (g.fill x y c).queue = [] ∧
      (∀ k, g.fillLoop c (g.fillFuel + k)
        { visited := [], queue := [⟨x, y⟩], stones := [], libs := [] } = g.fill x y c) ∧
      (g.countLiberties x y c).2.Nodup ∧
      (∀ p, p ∈ (g.countLiberties x y c).2 ↔ g.Conn c ⟨x, y⟩ p) ∧
      ∃ L : List Point, L.Nodup ∧ (∀ q, q ∈ L ↔ g.IsLiberty c ⟨x, y⟩ q) ∧
        (g.countLiberties x y c).1 = (L.length : Int)) ∧
    (g.cell x y ≠ c → g.countLiberties x y c = (0, [])) := by
  constructor
  · intro _ hc hin hcol
    refine ⟨fill_queue hin, fun k => fill_fuel_enough hin k, countLiberties_nodup hc hin hcol,
      mem_countLiberties hc hin hcol, (g.fill x y c).libs, fill_libs_nodup hc hin hcol,
      mem_libs_iff hc hin hcol, ?_⟩
    rw [countLiberties_of_cell hcol]
  · intro h
    simp [Game.countLiberties, h]

/-- In `koGame` the Black stone at (0,1) is a group of one stone with the two
liberties (0,0) and (1,1). -/
theorem countLiberties_spec_witness :
    koGame.WF ∧ Color.Black ≠ Color.None ∧ koGame.inBounds 0 1 = true ∧
    koGame.cell 0 1 = Color.Black ∧
    ((koGame.fill 0 1 Color.Black).queue = [] ∧
      (∀ k, koGame.fillLoop Color.Black (koGame.fillFuel + k)
        { visited := [], queue := [⟨0, 1⟩], stones := [], libs := [] } =
          koGame.fill 0 1 Color.Black) ∧
      (koGame.countLiberties 0 1 Color.Black).2.Nodup ∧
      (∀ p, p ∈ (koGame.countLiberties 0 1 Color.Black).2 ↔ koGame.Conn Color.Black ⟨0, 1⟩ p) ∧
      ∃ L : List Point, L.Nodup ∧ (∀ q, q ∈ L ↔ koGame.IsLiberty Color.Black ⟨0, 1⟩ q) ∧
        (koGame.countLiberties 0 1 Color.Black).1 = (L.length : Int)) ∧
    koGame.countLiberties 0 1 Color.Black = (2, [⟨0, 1⟩]) :=
  ⟨by decide, by decide, by decide, by decide,
    (countLiberties_spec koGame Color.Black 0 1).1 (by decide) (by decide) (by decide)
      (by decide),
    by decide⟩

/-! ## Order of the snapshots (C18) -/

/-- When each handler broadcasts before the other one enters, the snapshots
arrive in the order of the moves. -/
theorem broadcast_in_order :
    (raceHub.run [0, 0, 1, 1]).sessions.map Session.sendCh =
      [[raceGame1.Snapshot, raceGame2.Snapshot], [raceGame1.Snapshot, raceGame2.Snapshot]] := by
  decide

/-- C18 fails on the code: Black's handler plays and takes its snapshot, White's
handler plays, takes its snapshot and broadcasts it, and only then Black's
handler broadcasts: both sessions are sent the snapshot of the game after
White's move first and the snapshot of the older game, after Black's move
alone, last. -/
theorem broadcast_out_of_order :
    ((NewGame 19).Play Color.Black 3 3).1 = none ∧
    (raceGame1.Play Color.White 15 15).1 = none ∧
    raceGame1.Snapshot ≠ raceGame2.Snapshot ∧
    (raceHub.run [0, 1, 1, 0]).game = raceGame2 ∧
    (raceHub.run [0, 1, 1, 0]).handlers.map Handler.pc = [2, 2] ∧
    (raceHub.run [0, 1, 1, 0]).sessions.map Session.sendCh =
      [[raceGame2.Snapshot, raceGame1.Snapshot], [raceGame2.Snapshot, raceGame1.Snapshot]] := by
  decide

/-! ## What a ko rejection tells (C17) -/

/-- The position `preBigKoGame` is reached from `NewGame 5` by the first twelve
moves of `bigKoMoves`. -/
theorem preBigKoGame_reached :
    playAll (bigKoMoves.take 12) (NewGame 5) = some preBigKoGame :=
  eq_some_of_elim _ _ (by decide)

/-- The position `bigKoGame` is reached from `NewGame 5` by `bigKoMoves`. -/
theorem bigKoGame_reached : playAll bigKoMoves (NewGame 5) = some bigKoGame :=
  eq_some_of_elim _ _ (by decide)

/-- C17 fails on the code, in two ways.  In `bigKoGame` Black has just taken one
stone at (1,1) from `preBigKoGame`; White's `Play` at (1,1) is rejected as ko,
although placing White there would take two stones and leave a board other than
the one before Black's capture.  In `koGame`, after a `Pass` by White, the `Play`
of Black at (1,1) is rejected as ko: the preceding successful operation is a
`Pass`, the player rejected made the capture himself, and placing Black there
would take nothing. -/
theorem ko_not_recapture :
    ((preBigKoGame.Play Color.Black 1 2).1 = none ∧
      (preBigKoGame.Play Color.Black 1 2).2 = bigKoGame ∧
      (bigKoGame.Play Color.White 1 1).1 = some PlayError.ko ∧
      ((bigKoGame.place Color.White 1 1).captureLoop Color.White 1 1).2 = 2 ∧
      (bigKoGame.afterCaptures Color.White 1 1).Board ≠ preBigKoGame.Board) ∧
    ((koGame.Pass Color.White).Turn = Color.Black ∧
      ((koGame.Pass Color.White).Play Color.Black 1 1).1 = some PlayError.ko ∧
      (((koGame.Pass Color.White).place Color.Black 1 1).captureLoop Color.Black 1 1).2 = 0) := by
  decide

theorem pass_board (g : Game) (c : Color) :
    (g.Pass c).Board = g.Board ∧ (g.Pass c).Size = g.Size ∧ (g.Pass c).koPoint = g.koPoint := by
  unfold Game.Pass
  split
  · exact ⟨rfl, rfl, rfl⟩
  · simp only
    split <;> exact ⟨rfl, rfl, rfl⟩

theorem resign_board (g : Game) (c : Color) :
    (g.Resign c).Board = g.Board ∧ (g.Resign c).Size = g.Size ∧
      (g.Resign c).koPoint = g.koPoint := by
  unfold Game.Resign
  split <;> exact ⟨rfl, rfl, rfl⟩

theorem startScoring_board (g : Game) :
    g.StartScoring.Board = g.Board ∧ g.StartScoring.Size = g.Size ∧
      g.StartScoring.koPoint = g.koPoint := by
  unfold Game.StartScoring
  split <;> exact ⟨rfl, rfl, rfl⟩

theorem toggleDeadAt_board (g : Game) (x y : Int) :
    (g.ToggleDeadAt x y).Board = g.Board ∧ (g.ToggleDeadAt x y).Size = g.Size ∧
      (g.ToggleDeadAt x y).koPoint = g.koPoint := by
  unfold Game.ToggleDeadAt
  split <;> exact ⟨rfl, rfl, rfl⟩

theorem finalizeScore_board (g : Game) :
    g.FinalizeScore.Board = g.Board ∧ g.FinalizeScore.Size = g.Size ∧
      g.FinalizeScore.koPoint = g.koPoint := by
  unfold Game.FinalizeScore
  split <;> exact ⟨rfl, rfl, rfl⟩

theorem isLiberty_iff_of_board {g h : Game} (hs : h.Size = g.Size) (hb : h.Board = g.Board)
    (c : Color) (s q : Point) : h.IsLiberty c s q ↔ g.IsLiberty c s q :=
  ⟨isLiberty_congr hs.symm hb.symm, isLiberty_congr hs hb⟩

theorem koOrigin_of_board {g h : Game} (hq : ∀ g0, Quiet g0 g → Quiet g0 h)
    (hf : h.Board = g.Board ∧ h.Size = g.Size ∧ h.koPoint = g.koPoint) (hg : g.KoOrigin) :
    h.KoOrigin := by
  obtain ⟨hb, hs, hk⟩ := hf
  intro p hp
  rw [hk] at hp
  obtain ⟨g0, c0, x0, y0, h1, h2, h3, h4, h5, h6, h7, h8⟩ := hg p hp
  refine ⟨g0, c0, x0, y0, h1, h2, h3, h4, hq _ h5, ?_, ?_, ?_⟩
  · rw [cell_congr hb]; exact h6
  · exact (isLiberty_iff_of_board hs hb _ _ _).2 h7
  · intro q hq'
    exact h8 q ((isLiberty_iff_of_board hs hb _ _ _).1 hq')

theorem play_koOrigin {g : Game} (hr : Reachable g) (hg : g.KoOrigin) (c : Color) (x y : Int) :
    (g.Play c x y).2.KoOrigin := by
  have hwf := (reachable_sound hr).1
  by_cases hadm : g.Admits c x y
  · obtain ⟨R, -, -, -, h4, h5, -, -, h8⟩ := afterCaptures_spec hwf hadm
    have hsz := afterCaptures_Size hwf hadm
    have hin2 : (g.afterCaptures c x y).inBounds x y = true := by
      rw [inBounds_congr hsz]; exact hadm.inb
    have hko2 : (g.afterCaptures c x y).koPoint = none := by rw [h4]; rfl
    by_cases hz : ((g.afterCaptures c x y).countLiberties x y c).1 = 0
    · intro p hp
      rw [play_of_admits hadm, if_pos hz] at hp
      change (g.afterCaptures c x y).koPoint = some p at hp
      rw [hko2] at hp
      exact absurd hp (by simp)
    · have hP : g.Play c x y =
          (none, (g.afterCaptures c x y).commit ((g.place c x y).captureLoop c x y).2 c x y) := by
        rw [play_of_admits hadm, if_neg hz]
      intro p hp
      refine ⟨g, c, x, y, hr, by rw [hP], ?_⟩
      rw [hP] at hp ⊢
      simp only at hp ⊢
      change (g.afterCaptures c x y).koBranch _ c x y = some p at hp
      unfold Game.koBranch at hp
      rw [hko2] at hp
      split at hp
      · rename_i hone
        split at hp
        · rename_i hlone
          split at hp
          · rename_i q hf
            simp only [Option.some.injEq] at hp
            subst hp
            have hq := findKo_some hf
            obtain ⟨p0, -, hu⟩ := (countLiberties_one_iff hadm.colour hin2 h8).1 hlone
            have hqlib : (g.afterCaptures c x y).IsLiberty c ⟨x, y⟩ q :=
              isLiberty_of_neighbor hq.1 hq.2
            obtain ⟨nb, hnb, hcnb, hnbe⟩ := captured_one hwf hadm hone
            have hnb2 : nb ∈ (g.afterCaptures c x y).neighbors x y := by
              rw [neighbors_congr hsz]; exact hnb
            have hnbq : nb = q := by
              rw [hu nb (isLiberty_of_neighbor hnb2 hnbe), hu q hqlib]
            subst hnbq
            have hcapd : (g.afterCaptures c x y).Captured = g.Captured := by rw [h4]; rfl
            refine ⟨?_, hcnb, Quiet.refl, hnbe, ?_, ?_⟩
            · show Function.update (g.afterCaptures c x y).Captured c _ c = _
              rw [Function.update_same, hcapd, hone]
            · exact isLiberty_congr (commit_Size _ _ _ _ _) (commit_Board _ _ _ _ _) hqlib
            · intro q' hq'
              have := isLiberty_congr (g := (g.afterCaptures c x y).commit
                ((g.place c x y).captureLoop c x y).2 c x y) (h := g.afterCaptures c x y)
                rfl rfl hq'
              rw [hu q' this, hu nb hqlib]
          · exact absurd hp (by simp)
        · exact absurd hp (by simp)
      · exact absurd hp (by simp)
  · rw [(play_of_not_admits hadm).2]
    exact hg

theorem reachable_koOrigin {g : Game} (h : Reachable g) : g.KoOrigin := by
  induction h with
  | new n =>
    intro p hp
    simp [NewGame] at hp
  | play c x y hr ih => exact play_koOrigin hr ih c x y
  | pass c _ ih => exact koOrigin_of_board (fun _ hq => Quiet.pass c hq) (pass_board _ c) ih
  | resign c _ ih => exact koOrigin_of_board (fun _ hq => Quiet.resign c hq) (resign_board _ c) ih
  | startScoring _ ih =>
    exact koOrigin_of_board (fun _ hq => Quiet.startScoring hq) (startScoring_board _) ih
  | toggleDead x y _ ih =>
    exact koOrigin_of_board (fun _ hq => Quiet.toggleDead x y hq) (toggleDeadAt_board _ x y) ih
  | finalize _ ih =>
    exact koOrigin_of_board (fun _ hq => Quiet.finalize hq) (finalizeScore_board _) ih

theorem play_ko_error {g : Game} {c : Color} {x y : Int}
    (h : (g.Play c x y).1 = some PlayError.ko) : g.koPoint = some ⟨x, y⟩ := by
  by_contra hk
  unfold Game.Play at h
  by_cases h1 : g.over = true
  · simp [h1] at h
  by_cases h2 : c = Color.None
  · simp [h1, h2] at h
  by_cases h3 : c ≠ g.Turn
  · simp [h1, h2, h3] at h
  by_cases h4 : g.inBounds x y = false
  · simp [h1, h2, h3, h4] at h
  by_cases h5 : g.cell x y ≠ Color.None
  · simp [h1, h2, h3, h4, h5] at h
  simp only [h1, h2, h3, h4, h5, hk, if_false, Bool.false_eq_true] at h
  simp only [Bool.not_eq_true] at h4
  simp only [h4, Bool.not_true, Bool.false_eq_true, if_false] at h
  split at h <;> simp at h

/-- C17 as amended: when a `Play` at `(x, y)` is rejected as ko in a game reached
from a fresh one, the last stone placed was placed by a successful `Play` that
took exactly one stone, standing on `(x, y)`; no stone was placed since, and
`(x, y)` is empty and the single liberty of the group of that stone. -/
theorem ko_rejection_origin (g : Game) (hr : Reachable g) (c : Color) (x y : Int)
    (hko : (g.Play c x y).1 = some PlayError.ko) :
    ∃ g0 c0 x0 y0, Reachable g0 ∧ (g0.Play c0 x0 y0).1 = none ∧
      (g0.Play c0 x0 y0).2.Captured c0 = g0.Captured c0 + 1 ∧
      g0.cell x y = c0.Opp ∧ Quiet (g0.Play c0 x0 y0).2 g ∧
      g.cell x y = Color.None ∧
      g.IsLiberty c0 ⟨x0, y0⟩ ⟨x, y⟩ ∧ ∀ q, g.IsLiberty c0 ⟨x0, y0⟩ q → q = ⟨x, y⟩ :=
  reachable_koOrigin hr ⟨x, y⟩ (play_ko_error hko)

/-- In `koGame` the play of White at (1,1) is rejected as ko: Black's capture at
(1,2) from `preKoGame` is its origin. -/
theorem ko_rejection_origin_witness :
    Reachable koGame ∧ (koGame.Play Color.White 1 1).1 = some PlayError.ko ∧
    ∃ g0 c0 x0 y0, Reachable g0 ∧ (g0.Play c0 x0 y0).1 = none ∧
      (g0.Play c0 x0 y0).2.Captured c0 = g0.Captured c0 + 1 ∧
      g0.cell 1 1 = c0.Opp ∧ Quiet (g0.Play c0 x0 y0).2 koGame ∧
      koGame.cell 1 1 = Color.None ∧
      koGame.IsLiberty c0 ⟨x0, y0⟩ ⟨1, 1⟩ ∧ ∀ q, koGame.IsLiberty c0 ⟨x0, y0⟩ q → q = ⟨1, 1⟩ :=
  ⟨koGame_reachable, by decide,
    ko_rejection_origin koGame koGame_reachable Color.White 1 1 (by decide)⟩

/-! ## No group without liberty (C20) -/

theorem conn_mono {g h : Game} {k : Color} (hs : h.Size = g.Size)
    (hcell : ∀ a b, g.inBounds a b = true → g.cell a b = k → h.cell a b = k) {s p : Point}
    (hc : g.Conn k s p) : h.Conn k s p := by
  induction hc with
  | seed => exact Game.Conn.seed
  | step _ hq hcq ih =>
    exact Game.Conn.step ih (by rw [neighbors_congr hs]; exact hq)
      (hcell _ _ (neighbors_inBounds hq) hcq)

theorem exists_liberty_of_not_noLiberty {g : Game} {k : Color} {s : Point}
    (h : ¬ g.NoLiberty k s) : ∃ q, g.IsLiberty k s q := by
  unfold Game.NoLiberty at h
  push_neg at h
  obtain ⟨p, hp, q, hq, hn⟩ := h
  exact ⟨q, p, hp, hq, hn⟩

theorem alive_of_board {g h : Game} (hb : h.Board = g.Board) (hs : h.Size = g.Size)
    (hg : g.Alive) : h.Alive := by
  intro p hp hc
  rw [inBounds_congr hs] at hp
  rw [cell_congr hb] at hc ⊢
  obtain ⟨q, hq⟩ := hg p hp hc
  exact ⟨q, isLiberty_congr hs hb hq⟩

theorem eq_opp_of_ne {c k : Color} (hc : c ≠ Color.None) (hk : k ≠ Color.None) (h : k ≠ c) :
    k = c.Opp := by
  cases c <;> cases k <;> simp_all [Color.Opp]

theorem afterCaptures_alive {g : Game} {c : Color} {x y : Int} (hwf : g.WF)
    (hadm : g.Admits c x y) (hg : g.Alive)
    (hz : ((g.afterCaptures c x y).countLiberties x y c).1 ≠ 0) :
    (g.afterCaptures c x y).Alive := by
  have ho := opp_ne_none hadm.colour
  have hoc := opp_ne_self hadm.colour
  obtain ⟨R, -, -, h3, h4, -, h6⟩ :=
    captureLoop_spec (place_WF hwf c x y) ho (c := c) x y
  change ∀ a b, (g.place c x y).inBounds a b = true → (g.afterCaptures c x y).cell a b = _ at h6
  change g.afterCaptures c x y = _ at h4
  have hsz := afterCaptures_Size hwf hadm
  have hsz1 : (g.afterCaptures c x y).Size = (g.place c x y).Size := hsz
  have hxyc : (g.afterCaptures c x y).cell x y = c := by
    obtain ⟨R', -, -, -, -, -, -, -, h8⟩ := afterCaptures_spec hwf hadm
    exact h8
  have hin2 : (g.afterCaptures c x y).inBounds x y = true := by
    rw [inBounds_congr hsz]; exact hadm.inb
  -- the cells of `R` hold opponent stones on the board with the stone placed
  have hR : ∀ p ∈ R, (g.place c x y).cell p.X p.Y = c.Opp := by
    intro p hp
    obtain ⟨nb, hnb, hcnb, hconn, -⟩ := (h3 p).1 hp
    exact (conn_ok (neighbors_inBounds hnb) hcnb hconn).2
  have hclosed : ∀ p ∈ R, ∀ q ∈ (g.place c x y).neighbors p.X p.Y,
      (g.place c x y).cell q.X q.Y = c.Opp → q ∈ R := by
    intro p hp q hq hcq
    obtain ⟨nb, hnb, h1, h2, h5⟩ := (h3 p).1 hp
    exact (h3 q).2 ⟨nb, hnb, h1, Game.Conn.step h2 hq hcq, h5⟩
  have hplace : ∀ a b, g.inBounds a b = true →
      (g.place c x y).cell a b = if a = x ∧ b = y then c else g.cell a b :=
    fun a b hab => cell_place hwf hadm.inb c hab
  intro s hs hcs
  have hs0 : g.inBounds s.X s.Y = true := by rw [← inBounds_congr hsz]; exact hs
  have hsR : s ∉ R := by
    intro hm
    rw [h6 s.X s.Y hs0, if_pos hm] at hcs
    exact hcs rfl
  have hs1 : (g.afterCaptures c x y).cell s.X s.Y = (g.place c x y).cell s.X s.Y := by
    rw [h6 s.X s.Y hs0, if_neg hsR]
  by_cases hk : (g.afterCaptures c x y).cell s.X s.Y = c
  · -- a stone of the mover
    rw [hk]
    by_cases hconn : (g.afterCaptures c x y).Conn c ⟨x, y⟩ s
    · obtain ⟨q, p, hp, hq, hn⟩ := exists_liberty_of_not_noLiberty
        (fun hn => hz ((afterCaptures_suicide_iff hwf hadm).2 hn))
      exact ⟨q, p, conn_trans (conn_symm hin2 hxyc hconn) hp, hq, hn⟩
    · have hsxy : ¬ (s.X = x ∧ s.Y = y) := by
        rintro ⟨h1, h2⟩
        apply hconn
        have : s = ⟨x, y⟩ := by cases s; simp_all
        rw [this]
        exact Game.Conn.seed
      have hgs : g.cell s.X s.Y = c := by
        rw [hs1, hplace _ _ hs0, if_neg hsxy] at hk
        exact hk
      obtain ⟨q, r, hr, hq, hn⟩ := hg s hs0 (by rw [hgs]; exact hadm.colour)
      rw [hgs] at hr
      have hkeep : ∀ a b, g.inBounds a b = true → g.cell a b = c →
          (g.afterCaptures c x y).cell a b = c := by
        intro a b hab hcab
        have hnR : (⟨a, b⟩ : Point) ∉ R := by
          intro hm
          have := hR _ hm
          simp only at this
          rw [hplace a b hab] at this
          split at this
          · exact hoc this.symm
          · rw [hcab] at this
            exact hoc this.symm
        rw [h6 a b hab, if_neg hnR, hplace a b hab]
        split
        · rfl
        · exact hcab
      have hr2 : (g.afterCaptures c x y).Conn c s r := conn_mono hsz hkeep hr
      have hq2 : q ∈ (g.afterCaptures c x y).neighbors r.X r.Y := by
        rw [neighbors_congr hsz]; exact hq
      have hqin : g.inBounds q.X q.Y = true := neighbors_inBounds hq
      have hqR : q ∉ R := by
        intro hm
        have := hR _ hm
        rw [hplace _ _ hqin] at this
        split at this
        · exact hoc this.symm
        · rw [hn] at this
          exact ho this.symm
      by_cases hqxy : q.X = x ∧ q.Y = y
      · exfalso
        apply hconn
        have hq' : q = ⟨x, y⟩ := by cases q; simp_all
        have hsc : (g.afterCaptures c x y).Conn c s ⟨x, y⟩ :=
          Game.Conn.step hr2 (by rw [← hq']; exact hq2) hxyc
        exact conn_symm hs hk hsc
      · refine ⟨q, r, hr2, hq2, ?_⟩
        rw [h6 _ _ hqin, if_neg hqR, hplace _ _ hqin, if_neg hqxy]
        exact hn
  · -- a stone of the opponent
    have hsxy : ¬ (s.X = x ∧ s.Y = y) := by
      rintro ⟨h1, h2⟩
      rw [h1, h2] at hk
      exact hk hxyc
    have hko : (g.afterCaptures c x y).cell s.X s.Y = c.Opp := eq_opp_of_ne hadm.colour hcs hk
    rw [hko]
    have hs1o : (g.place c x y).cell s.X s.Y = c.Opp := by rw [← hs1]; exact hko
    have hgs : g.cell s.X s.Y = c.Opp := by
      rw [hplace _ _ hs0, if_neg hsxy] at hs1o
      exact hs1o
    apply exists_liberty_of_not_noLiberty
    rw [noLiberty_of_removed hsz1 ho h6 hclosed hs0 hs1o hsR]
    intro hnl
    obtain ⟨q, r, hr, hq, hn⟩ := hg s hs0 (by rw [hgs]; exact ho)
    rw [hgs] at hr
    have hkeep : ∀ a b, g.inBounds a b = true → g.cell a b = c.Opp →
        (g.place c x y).cell a b = c.Opp := by
      intro a b hab hcab
      rw [hplace a b hab]
      split
      · rename_i hxy
        rw [hxy.1, hxy.2, hadm.empty] at hcab
        exact absurd hcab.symm ho
      · exact hcab
    have hr1 : (g.place c x y).Conn c.Opp s r :=
      conn_mono (g := g) (h := g.place c x y) rfl hkeep hr
    have hrok := conn_ok (g := g.place c x y) hs0 hs1o hr1
    have hqin : g.inBounds q.X q.Y = true := neighbors_inBounds hq
    have hq1 := hnl r hr1 q hq
    rw [hplace _ _ hqin] at hq1
    by_cases hqxy : q.X = x ∧ q.Y = y
    · have hq' : q = ⟨x, y⟩ := by cases q; simp_all
      rw [hq'] at hq
      have hrn : r ∈ (g.place c x y).neighbors x y := neighbors_symm hrok.1 hq
      have hnlr : (g.place c x y).NoLiberty c.Opp r :=
        fun p hp => hnl p (conn_trans hr1 hp)
      exact hsR ((h3 s).2 ⟨r, hrn, hrok.2, conn_symm hs0 hs1o hr1, hnlr⟩)
    · rw [if_neg hqxy] at hq1
      exact hq1 hn

theorem play_alive {g : Game} (hwf : g.WF) (hg : g.Alive) (c : Color) (x y : Int) :
    (g.Play c x y).2.Alive := by
  by_cases hadm : g.Admits c x y
  · by_cases hz : ((g.afterCaptures c x y).countLiberties x y c).1 = 0
    · have hs := (afterCaptures_suicide_iff hwf hadm).1 hz
      obtain ⟨-, hb, -, -⟩ := suicide_restores hwf hadm hs
      have hsz : (g.Play c x y).2.Size = g.Size := by
        rw [play_of_admits hadm, if_pos hz]
        exact afterCaptures_Size hwf hadm
      exact alive_of_board hb hsz hg
    · rw [play_of_admits hadm, if_neg hz]
      exact alive_of_board (commit_Board _ _ _ _ _) (commit_Size _ _ _ _ _)
        (afterCaptures_alive hwf hadm hg hz)
  · rw [(play_of_not_admits hadm).2]
    exact hg

theorem reachable_alive_aux {g : Game} (h : Reachable g) : g.Alive := by
  induction h with
  | new n =>
    intro p hp hc
    exfalso
    apply hc
    rw [inBounds_iff] at hp
    simp only [NewGame, Int.toNat_ofNat] at hp
    simp only [Game.cell, NewGame, Int.toNat_ofNat, List.getD_eq_getElem?_getD]
    have h1 : p.X.toNat < n := by omega
    have h2 : p.Y.toNat < n := by omega
    simp [List.getElem?_replicate, h1, h2]
  | play c x y hr ih => exact play_alive (reachable_sound hr).1 ih c x y
  | pass c _ ih => exact alive_of_board (pass_board _ c).1 (pass_board _ c).2.1 ih
  | resign c _ ih => exact alive_of_board (resign_board _ c).1 (resign_board _ c).2.1 ih
  | startScoring _ ih =>
    exact alive_of_board (startScoring_board _).1 (startScoring_board _).2.1 ih
  | toggleDead x y _ ih =>
    exact alive_of_board (toggleDeadAt_board _ x y).1 (toggleDeadAt_board _ x y).2.1 ih
  | finalize _ ih =>
    exact alive_of_board (finalizeScore_board _).1 (finalizeScore_board _).2.1 ih

/-- C20: in every game reached from a fresh one by the six commands, every stone
on the board belongs to a group with at least one liberty. -/
theorem reachable_alive (g : Game) (hr : Reachable g) (p : Point)
    (hp : g.inBounds p.X p.Y = true) (hc : g.cell p.X p.Y ≠ Color.None) :
    ∃ q, g.IsLiberty (g.cell p.X p.Y) p q :=
  reachable_alive_aux hr p hp hc

/-- In `koGame`, a reachable game, the Black stone at (1,2) has a liberty. -/
theorem reachable_alive_witness :
    Reachable koGame ∧ koGame.inBounds 1 2 = true ∧ koGame.cell 1 2 ≠ Color.None ∧
    ∃ q, koGame.IsLiberty (koGame.cell 1 2) ⟨1, 2⟩ q :=
  ⟨koGame_reachable, by decide, by decide,
    reachable_alive koGame koGame_reachable ⟨1, 2⟩ (by decide) (by decide)⟩

/-! ## The loops of `Score` over dead marks and stones -/

theorem deadPoints_nodup (g : Game) : g.deadPoints.Nodup :=
  (List.nodup_dedup _).filter _

theorem deadGet_mem {dead : List (Point × Bool)} {p : Point} (h : deadGet dead p = true) :
    ∃ e ∈ dead, e.1 = p := by
  unfold deadGet at h
  split at h
  · rename_i e he
    exact ⟨e, List.mem_of_find?_eq_some he, by simpa using List.find?_some he⟩
  · exact absurd h (by decide)

theorem mem_deadPoints (g : Game) (p : Point) :
    p ∈ g.deadPoints ↔ deadGet g.dead p = true := by
  simp only [Game.deadPoints, deadKeys, List.mem_filter, List.mem_dedup, List.mem_map]
  constructor
  · exact fun h => h.2
  · intro h
    obtain ⟨e, he, hp⟩ := deadGet_mem h
    exact ⟨⟨e, he, hp⟩, h⟩

theorem deadPoints_inBounds {g : Game} (hd : g.DeadOK) {p : Point} (hp : p ∈ g.deadPoints) :
    g.inBounds p.X p.Y = true := by
  obtain ⟨e, he, rfl⟩ := deadGet_mem ((mem_deadPoints g p).1 hp)
  exact hd e he

theorem foldl_removeDead (D : List Point) (t : Tally) (hwf : t.board.WF) (hD : D.Nodup)
    (hin : ∀ p ∈ D, t.board.inBounds p.X p.Y = true) :
    (D.foldl removeDead t).board = t.board.removeStones D ∧
    (D.foldl removeDead t).visited = t.visited ∧
    (D.foldl removeDead t).black = t.black +
      ((D.filter fun p => decide (t.board.cell p.X p.Y = Color.White)).length : Int) ∧
    (D.foldl removeDead t).white = t.white +
      ((D.filter fun p => decide (t.board.cell p.X p.Y = Color.Black)).length : Int) := by
  induction D generalizing t with
  | nil => simp [Game.removeStones]
  | cons p D ih =>
    have hp := hin p (List.mem_cons_self _ _)
    have hpD : p ∉ D := (List.nodup_cons.1 hD).1
    have hcell : ∀ q ∈ D, (removeDead t p).board.cell q.X q.Y = t.board.cell q.X q.Y := by
      intro q hq
      show (t.board.setCell p.X p.Y Color.None).cell q.X q.Y = _
      rw [cell_setCell hwf hp _ (hin q (List.mem_cons_of_mem _ hq))]
      have : ¬ (q.X = p.X ∧ q.Y = p.Y) := by
        rintro ⟨h1, h2⟩
        apply hpD
        have : q = p := by cases q; cases p; simp_all
        rw [← this]; exact hq
      rw [if_neg this]
    obtain ⟨h1, h2, h3, h4⟩ := ih (removeDead t p) (setCell_WF hwf _ _ _) (List.nodup_cons.1 hD).2
      (fun q hq => hin q (List.mem_cons_of_mem _ hq))
    have hfW : (D.filter fun q => decide ((removeDead t p).board.cell q.X q.Y = Color.White)) =
        D.filter fun q => decide (t.board.cell q.X q.Y = Color.White) :=
      List.filter_congr (fun q hq => by rw [hcell q hq])
    have hfB : (D.filter fun q => decide ((removeDead t p).board.cell q.X q.Y = Color.Black)) =
        D.filter fun q => decide (t.board.cell q.X q.Y = Color.Black) :=
      List.filter_congr (fun q hq => by rw [hcell q hq])
    simp only [List.foldl_cons]
    refine ⟨h1, h2, ?_, ?_⟩
    · rw [h3, hfW, List.filter_cons]
      by_cases hB : t.board.cell p.X p.Y = Color.Black
      · simp [removeDead, hB]
      · by_cases hW : t.board.cell p.X p.Y = Color.White
        · simp [removeDead, hW]
          omega
        · simp [removeDead, hB, hW]
    · rw [h4, hfB, List.filter_cons]
      by_cases hB : t.board.cell p.X p.Y = Color.Black
      · simp [removeDead, hB]
        omega
      · simp [removeDead, hB]

theorem foldl_countStone (l : List Point) (t : Tally) :
    (l.foldl countStone t).board = t.board ∧ (l.foldl countStone t).visited = t.visited ∧
    (l.foldl countStone t).black = t.black +
      ((l.filter fun p => decide (t.board.cell p.X p.Y = Color.Black)).length : Int) ∧
    (l.foldl countStone t).white = t.white +
      ((l.filter fun p => decide (t.board.cell p.X p.Y = Color.White)).length : Int) := by
  induction l generalizing t with
  | nil => simp
  | cons p l ih =>
    obtain ⟨h1, h2, h3, h4⟩ := ih (countStone t p)
    have hb : (countStone t p).board = t.board := rfl
    simp only [List.foldl_cons]
    rw [hb] at h1 h3 h4
    refine ⟨h1, h2, ?_, ?_⟩
    · rw [h3, List.filter_cons]
      by_cases hB : t.board.cell p.X p.Y = Color.Black
      · simp [countStone, hB]
        omega
      · simp [countStone, hB]
    · rw [h4, List.filter_cons]
      by_cases hW : t.board.cell p.X p.Y = Color.White
      · simp [countStone, hW]
        omega
      · simp [countStone, hW]

/-! ## The region fill of `Score` -/

theorem regionVisit_eq (b : Game) (p : Point) (s : Region) (d : Int × Int) :
    regionVisit b p s d =
      if b.inBounds (p.X + d.1) (p.Y + d.2) then regionNb b s ⟨p.X + d.1, p.Y + d.2⟩ else s := by
  unfold regionVisit regionNb
  by_cases hin : b.inBounds (p.X + d.1) (p.Y + d.2) = true
  · have h := (inBounds_iff _ _ _).1 hin
    have h1 : ¬ (p.X + d.1 < 0) := by omega
    have h2 : ¬ (p.Y + d.2 < 0) := by omega
    have h3 : ¬ (p.X + d.1 ≥ b.Size) := by omega
    have h4 : ¬ (p.Y + d.2 ≥ b.Size) := by omega
    simp [hin, h1, h2, h3, h4]
  · have h : ¬ (0 ≤ p.X + d.1 ∧ 0 ≤ p.Y + d.2 ∧ p.X + d.1 < b.Size ∧ p.Y + d.2 < b.Size) :=
      fun h => hin ((inBounds_iff _ _ _).2 h)
    have h' : (p.X + d.1 < 0 ∨ p.Y + d.2 < 0) ∨ p.X + d.1 ≥ b.Size ∨ p.Y + d.2 ≥ b.Size := by
      omega
    simp only [hin, Bool.false_eq_true, if_false]
    rw [if_pos]
    simpa [or_assoc] using h'

theorem foldl_regionVisit (b : Game) (p : Point) (l : List (Int × Int)) (s : Region) :
    l.foldl (regionVisit b p) s =
      (l.filterMap fun d =>
        if b.inBounds (p.X + d.1) (p.Y + d.2) then some (⟨p.X + d.1, p.Y + d.2⟩ : Point)
        else none).foldl (regionNb b) s := by
  induction l generalizing s with
  | nil => rfl
  | cons d l ih =>
    rw [List.foldl_cons, ih, regionVisit_eq, List.filterMap_cons]
    by_cases hin : b.inBounds (p.X + d.1) (p.Y + d.2) = true
    · simp [hin]
    · simp [hin]

theorem foldl_regionVisit_dirs (b : Game) (p : Point) (s : Region) :
    dirs.foldl (regionVisit b p) s = (b.neighbors p.X p.Y).foldl (regionNb b) s :=
  foldl_regionVisit b p dirs s

theorem regionNb_spec (b : Game) (s : Region) (n : Point) :
    (regionNb b s n).visited = s.visited ∧ (regionNb b s n).empties = s.empties ∧
    (∀ v, v ∈ (regionNb b s n).q ↔ v ∈ s.q ∨ (v = n ∧ b.cell v.X v.Y = Color.None)) ∧
    (regionNb b s n).q.length ≤ s.q.length + 1 ∧
    (s.colors.Nodup → (regionNb b s n).colors.Nodup) ∧
    (∀ k, k ∈ (regionNb b s n).colors ↔
      k ∈ s.colors ∨ (k ≠ Color.None ∧ b.cell n.X n.Y = k)) := by
  unfold regionNb
  by_cases h1 : b.cell n.X n.Y = Color.None
  · simp only [h1, if_true]
    refine ⟨trivial, trivial, ?_, by simp, id, ?_⟩
    · intro v
      simp only [List.mem_cons]
      constructor
      · rintro (rfl | h)
        · exact Or.inr ⟨rfl, h1⟩
        · exact Or.inl h
      · rintro (h | ⟨rfl, -⟩)
        · exact Or.inr h
        · exact Or.inl rfl
    · intro k
      constructor
      · exact Or.inl
      · rintro (h | ⟨h, h'⟩)
        · exact h
        · exact absurd h'.symm h
  · simp only [h1, if_false]
    refine ⟨trivial, trivial, ?_, by omega, ?_, ?_⟩
    · intro v
      constructor
      · exact Or.inl
      · rintro (h | ⟨rfl, h⟩)
        · exact h
        · exact absurd h h1
    · intro hn
      by_cases hm : b.cell n.X n.Y ∈ s.colors
      · rw [if_pos hm]; exact hn
      · rw [if_neg hm]; exact List.nodup_cons.2 ⟨hm, hn⟩
    · intro k
      by_cases hm : b.cell n.X n.Y ∈ s.colors
      · rw [if_pos hm]
        constructor
        · exact Or.inl
        · rintro (h | ⟨-, rfl⟩)
          · exact h
          · exact hm
      · rw [if_neg hm, List.mem_cons]
        constructor
        · rintro (rfl | h)
          · exact Or.inr ⟨h1, rfl⟩
          · exact Or.inl h
        · rintro (h | ⟨-, rfl⟩)
          · exact Or.inr h
          · exact Or.inl rfl

theorem foldl_regionNb (b : Game) (l : List Point) (s : Region) :
    (l.foldl (regionNb b) s).visited = s.visited ∧
    (l.foldl (regionNb b) s).empties = s.empties ∧
    (∀ v, v ∈ (l.foldl (regionNb b) s).q ↔ v ∈ s.q ∨ (v ∈ l ∧ b.cell v.X v.Y = Color.None)) ∧
    (l.foldl (regionNb b) s).q.length ≤ s.q.length + l.length ∧
    (s.colors.Nodup → (l.foldl (regionNb b) s).colors.Nodup) ∧
    (∀ k, k ∈ (l.foldl (regionNb b) s).colors ↔
      k ∈ s.colors ∨ (k ≠ Color.None ∧ ∃ n ∈ l, b.cell n.X n.Y = k)) := by
  induction l generalizing s with
  | nil => simp
  | cons n l ih =>
    obtain ⟨a1, a2, a3, a4, a5, a6⟩ := regionNb_spec b s n
    obtain ⟨b1, b2, b3, b4, b5, b6⟩ := ih (regionNb b s n)
    simp only [List.foldl_cons, List.mem_cons, List.length_cons]
    refine ⟨b1.trans a1, b2.trans a2, ?_, by omega, fun h => b5 (a5 h), ?_⟩
    · intro v
      rw [b3, a3]
      tauto
    · intro k
      rw [b6, a6]
      constructor
      · rintro ((h | ⟨h1, h2⟩) | ⟨h1, m, hm, h2⟩)
        · exact Or.inl h
        · exact Or.inr ⟨h1, n, Or.inl rfl, h2⟩
        · exact Or.inr ⟨h1, m, Or.inr hm, h2⟩
      · rintro (h | ⟨h1, m, (rfl | hm), h2⟩)
        · exact Or.inl (Or.inl h)
        · exact Or.inl (Or.inr ⟨h1, h2⟩)
        · exact Or.inr ⟨h1, m, hm, h2⟩

theorem regInv_skip {b : Game} {V : List Point} {seed : Point} {s : Region} {p : Point}
    {rest : List Point} (h : RegInv b V seed s) (hq : s.q = p :: rest) (hp : p ∈ s.visited) :
    RegInv b V seed { s with q := rest } where
  visited_eq := h.visited_eq
  empties_nodup := h.empties_nodup
  empties_ok := h.empties_ok
  q_ok := fun v hv => h.q_ok v (by rw [hq]; exact List.mem_cons_of_mem _ hv)
  closed := by
    intro e he n hn hc
    rcases h.closed e he n hn hc with hv | hv
    · exact Or.inl hv
    · rw [hq] at hv
      rcases List.mem_cons.1 hv with rfl | hv
      · exact Or.inl hp
      · exact Or.inr hv
  colors_nodup := h.colors_nodup
  colors_eq := h.colors_eq
  seed_in := by
    rcases h.seed_in with hv | hv
    · exact Or.inl hv
    · rw [hq] at hv
      rcases List.mem_cons.1 hv with rfl | hv
      · rcases (h.visited_eq _).1 hp with h1 | h1
        · exact absurd h1 h.seed_new
        · exact Or.inl h1
      · exact Or.inr hv
  seed_new := h.seed_new

theorem regInv_expand {b : Game} {V : List Point} {seed : Point} {s : Region} {p : Point}
    {rest : List Point} (h : RegInv b V seed s) (hq : s.q = p :: rest) (hp : p ∉ s.visited) :
    RegInv b V seed (dirs.foldl (regionVisit b p)
      { s with q := rest, visited := p :: s.visited, empties := s.empties ++ [p] }) := by
  rw [foldl_regionVisit_dirs]
  obtain ⟨f1, f2, f3, -, f5, f6⟩ := foldl_regionNb b (b.neighbors p.X p.Y)
    { s with q := rest, visited := p :: s.visited, empties := s.empties ++ [p] }
  have hpq : p ∈ s.q := by rw [hq]; exact List.mem_cons_self _ _
  have hpok := h.q_ok p hpq
  have hpV : p ∉ V := fun hv => hp ((h.visited_eq p).2 (Or.inl hv))
  have hpE : p ∉ s.empties := fun hv => hp ((h.visited_eq p).2 (Or.inr hv))
  refine ⟨?_, ?_, ?_, ?_, ?_, ?_, ?_, ?_, h.seed_new⟩
  · intro v
    rw [f1, f2, List.mem_cons, List.mem_append, List.mem_singleton, h.visited_eq v]
    tauto
  · rw [f2]
    refine List.Nodup.append h.empties_nodup (List.nodup_singleton p) ?_
    intro a ha hb
    rw [List.mem_singleton] at hb
    subst hb
    exact hpE ha
  · intro e he
    rw [f2, List.mem_append, List.mem_singleton] at he
    rcases he with he | rfl
    · exact h.empties_ok e he
    · exact ⟨hpV, hpok⟩
  · intro v hv
    rw [f3] at hv
    rcases hv with hv | ⟨hv, hc⟩
    · exact h.q_ok v (by rw [hq]; exact List.mem_cons_of_mem _ hv)
    · exact ⟨neighbors_inBounds hv, hc, Game.Conn.step hpok.2.2 hv hc⟩
  · intro e he n hn hc
    rw [f2, List.mem_append, List.mem_singleton] at he
    rw [f1, f3]
    rcases he with he | rfl
    · rcases h.closed e he n hn hc with hv | hv
      · exact Or.inl (List.mem_cons_of_mem _ hv)
      · rw [hq] at hv
        rcases List.mem_cons.1 hv with rfl | hv
        · exact Or.inl (List.mem_cons_self _ _)
        · exact Or.inr (Or.inl hv)
    · exact Or.inr (Or.inr ⟨hn, hc⟩)
  · exact f5 h.colors_nodup
  · intro k
    rw [f6, f2]
    show k ∈ s.colors ∨ _ ↔ _
    rw [h.colors_eq k]
    constructor
    · rintro (⟨h1, e, he, hn⟩ | ⟨h1, hn⟩)
      · exact ⟨h1, e, List.mem_append_left _ he, hn⟩
      · exact ⟨h1, p, List.mem_append_right _ (List.mem_singleton.2 rfl), hn⟩
    · rintro ⟨h1, e, he, hn⟩
      rcases List.mem_append.1 he with he | he
      · exact Or.inl ⟨h1, e, he, hn⟩
      · rw [List.mem_singleton] at he
        subst he
        exact Or.inr ⟨h1, hn⟩
  · rw [f2, f3]
    rcases h.seed_in with hv | hv
    · exact Or.inl (List.mem_append_left _ hv)
    · rw [hq] at hv
      rcases List.mem_cons.1 hv with rfl | hv
      · exact Or.inl (List.mem_append_right _ (List.mem_singleton.2 rfl))
      · exact Or.inr (Or.inl hv)

theorem regionLoop_inv {b : Game} {V : List Point} {seed : Point} (fuel : Nat) (s : Region)
    (h : RegInv b V seed s) : RegInv b V seed (regionLoop b fuel s) := by
  induction fuel generalizing s with
  | zero => exact h
  | succ n ih =>
    unfold regionLoop
    split
    · exact h
    · rename_i p rest hq
      by_cases hp : p ∈ s.visited
      · rw [if_pos hp]
        exact ih _ (regInv_skip h hq hp)
      · rw [if_neg hp]
        exact ih _ (regInv_expand h hq hp)

theorem regionLoop_done {b : Game} (fuel : Nat) (s : Region)
    (hq : ∀ p ∈ s.q, b.inBounds p.X p.Y = true)
    (hf : 4 * b.unvisited s.visited + s.q.length ≤ fuel) :
    (regionLoop b fuel s).q = [] := by
  induction fuel generalizing s with
  | zero =>
    unfold regionLoop
    exact List.length_eq_zero.1 (by omega)
  | succ n ih =>
    unfold regionLoop
    split
    · assumption
    · rename_i p rest hqe
      rw [hqe] at hq hf
      simp only [List.length_cons] at hf
      by_cases hp : p ∈ s.visited
      · rw [if_pos hp]
        exact ih _ (fun a ha => hq a (List.mem_cons_of_mem _ ha)) (by simp only; omega)
      · rw [if_neg hp, foldl_regionVisit_dirs]
        obtain ⟨f1, -, f3, f4, -, -⟩ := foldl_regionNb b (b.neighbors p.X p.Y)
          { s with q := rest, visited := p :: s.visited, empties := s.empties ++ [p] }
        refine ih _ ?_ ?_
        · intro a ha
          rw [f3] at ha
          rcases ha with ha | ⟨ha, -⟩
          · exact hq a (List.mem_cons_of_mem _ ha)
          · exact neighbors_inBounds ha
        · rw [f1]
          have h1 := unvisited_cons_lt (hq p (List.mem_cons_self _ _)) hp
          have h2 := neighbors_length b p.X p.Y
          simp only at f4 ⊢
          omega

/-- The region fill of `Score` from an empty cell not yet visited ends within its
fuel with the region of the cell and the colours of its bordering stones. -/
theorem regionLoop_spec {b : Game} {V : List Point} {p : Point} (hV : b.Regions V)
    (hin : b.inBounds p.X p.Y = true) (hc : b.cell p.X p.Y = Color.None) (hp : p ∉ V) :
    (regionLoop b b.fillFuel { visited := V, q := [p], empties := [], colors := [] }).q = [] ∧
    (∀ v, v ∈ (regionLoop b b.fillFuel
        { visited := V, q := [p], empties := [], colors := [] }).visited ↔
      v ∈ V ∨ b.Conn Color.None p v) ∧
    (regionLoop b b.fillFuel { visited := V, q := [p], empties := [], colors := [] }).empties.Nodup ∧
    (∀ e, e ∈ (regionLoop b b.fillFuel
        { visited := V, q := [p], empties := [], colors := [] }).empties ↔
      b.Conn Color.None p e) ∧
    (regionLoop b b.fillFuel { visited := V, q := [p], empties := [], colors := [] }).colors.Nodup ∧
    (∀ k, k ∈ (regionLoop b b.fillFuel
        { visited := V, q := [p], empties := [], colors := [] }).colors ↔
      k ≠ Color.None ∧ b.Borders p k) ∧
    (∀ e, b.Conn Color.None p e → e ∉ V) := by
  have hI : RegInv b V p (regionLoop b b.fillFuel
      { visited := V, q := [p], empties := [], colors := [] }) := by
    refine regionLoop_inv _ _ ⟨?_, ?_, ?_, ?_, ?_, ?_, ?_, ?_, hp⟩
    · intro v; simp
    · exact List.nodup_nil
    · intro e he; simp at he
    · intro v hv
      simp only [List.mem_singleton] at hv
      subst hv
      exact ⟨hin, hc, Game.Conn.seed⟩
    · intro e he; simp at he
    · exact List.nodup_nil
    · intro k; simp
    · exact Or.inr (List.mem_singleton.2 rfl)
  have hQ : (regionLoop b b.fillFuel
      { visited := V, q := [p], empties := [], colors := [] }).q = [] := by
    refine regionLoop_done _ _ ?_ ?_
    · intro v hv
      simp only [List.mem_singleton] at hv
      subst hv
      exact hin
    · have := unvisited_le b V
      simp only [Game.fillFuel, List.length_singleton]
      nlinarith
  have hmem : ∀ e, e ∈ (regionLoop b b.fillFuel
      { visited := V, q := [p], empties := [], colors := [] }).empties ↔
      b.Conn Color.None p e := by
    intro e
    constructor
    · exact fun he => (hI.empties_ok e he).2.2.2
    · intro he
      induction he with
      | seed =>
        rcases hI.seed_in with h | h
        · exact h
        · rw [hQ] at h; simp at h
      | @step e n _ hn hcn ih =>
        rcases hI.closed e ih n hn hcn with h | h
        · rcases (hI.visited_eq n).1 h with h1 | h1
          · exfalso
            have heok := hI.empties_ok e ih
            exact heok.1 ((hV n h1).2.2 e (neighbors_symm heok.2.1 hn) heok.2.2.1)
          · exact h1
        · rw [hQ] at h; simp at h
  refine ⟨hQ, ?_, hI.empties_nodup, hmem, hI.colors_nodup, ?_, ?_⟩
  · intro v
    rw [hI.visited_eq v, hmem v]
  · intro k
    rw [hI.colors_eq k]
    constructor
    · rintro ⟨h1, e, he, n, hn, hk⟩
      exact ⟨h1, e, n, (hmem e).1 he, hn, hk⟩
    · rintro ⟨h1, e, n, he, hn, hk⟩
      exact ⟨h1, e, (hmem e).2 he, n, hn, hk⟩
  · intro e he
    exact (hI.empties_ok e ((hmem e).2 he)).1

/-! ## The territory loop of `Score` -/

theorem borders_congr {b : Game} {p e : Point} (hin : b.inBounds p.X p.Y = true)
    (hc : b.cell p.X p.Y = Color.None) (he : b.Conn Color.None p e) (k : Color) :
    b.Borders e k ↔ b.Borders p k := by
  constructor
  · rintro ⟨q, r, hq, hr, hk⟩
    exact ⟨q, r, conn_trans he hq, hr, hk⟩
  · rintro ⟨q, r, hq, hr, hk⟩
    exact ⟨q, r, conn_trans (conn_symm hin hc he) hq, hr, hk⟩

theorem colors_both {l : List Color} (hnd : l.Nodup) (hne : ∀ k ∈ l, k ≠ Color.None)
    (hlen : l.length ≠ 1) : Color.Black ∈ l ↔ Color.White ∈ l := by
  cases l with
  | nil => simp
  | cons a l =>
    cases l with
    | nil => simp at hlen
    | cons c l =>
      have ha := hne a (List.mem_cons_self _ _)
      have hc := hne c (List.mem_cons_of_mem _ (List.mem_cons_self _ _))
      have hac : a ≠ c := by
        intro h
        subst h
        simp at hnd
      cases a <;> cases c <;> simp_all

theorem colors_single {l : List Color} (hne : ∀ k ∈ l, k ≠ Color.None) (hlen : l.length = 1)
    {k : Color} (hk : k ∈ l) (hkn : k ≠ Color.None) : k.Opp ∉ l := by
  obtain ⟨a, rfl⟩ := List.length_eq_one.1 hlen
  simp only [List.mem_singleton] at hk ⊢
  subst hk
  exact opp_ne_self hkn

theorem countRegion_skip {t : Tally} {p : Point}
    (h : t.board.cell p.X p.Y ≠ Color.None ∨ p ∈ t.visited) : countRegion t p = t := by
  unfold countRegion
  rw [if_pos]
  rcases h with h | h
  · simp [h]
  · simp [h]

theorem countRegion_fill {t : Tally} {p : Point} (hc : t.board.cell p.X p.Y = Color.None)
    (hp : p ∉ t.visited) :
    (countRegion t p).board = t.board ∧
    (countRegion t p).visited = (regionLoop t.board t.board.fillFuel
      { visited := t.visited, q := [p], empties := [], colors := [] }).visited ∧
    ∀ k, k ≠ Color.None → (countRegion t p).total k =
      if (regionLoop t.board t.board.fillFuel
            { visited := t.visited, q := [p], empties := [], colors := [] }).colors.length = 1 ∧
          k ∈ (regionLoop t.board t.board.fillFuel
            { visited := t.visited, q := [p], empties := [], colors := [] }).colors then
        t.total k + ((regionLoop t.board t.board.fillFuel
          { visited := t.visited, q := [p], empties := [], colors := [] }).empties.length : Int)
      else t.total k := by
  unfold countRegion
  rw [if_neg (by simp [hc, hp])]
  simp only
  by_cases hl : (regionLoop t.board t.board.fillFuel
      { visited := t.visited, q := [p], empties := [], colors := [] }).colors.length = 1
  · rw [if_pos hl]
    refine ⟨rfl, rfl, ?_⟩
    intro k hk
    cases k with
    | None => exact absurd rfl hk
    | Black => simp [Tally.total, hl]
    | White => simp [Tally.total, hl]
  · rw [if_neg hl]
    refine ⟨rfl, rfl, ?_⟩
    intro k _
    simp [Tally.total, hl]

theorem scoreInv_step {b : Game} {done : List Point} {n0 : Color → Int} {t : Tally}
    (h : ScoreInv b done n0 t) {p : Point} (hin : b.inBounds p.X p.Y = true) :
    ScoreInv b (p :: done) n0 (countRegion t p) := by
  obtain ⟨hb, hV, hdone, hT⟩ := h
  by_cases hskip : t.board.cell p.X p.Y ≠ Color.None ∨ p ∈ t.visited
  · rw [countRegion_skip hskip]
    refine ⟨hb, hV, ?_, hT⟩
    intro a ha hca
    rcases List.mem_cons.1 ha with rfl | ha
    · rcases hskip with h1 | h1
      · rw [hb] at h1
        exact absurd hca h1
      · exact h1
    · exact hdone a ha hca
  · push_neg at hskip
    obtain ⟨hc, hp⟩ := hskip
    obtain ⟨c1, c2, c3⟩ := countRegion_fill hc hp
    rw [hb] at hc c1 c2 c3
    obtain ⟨-, r2, r3, r4, r5, r6, r7⟩ := regionLoop_spec hV hin hc hp
    have hvis : ∀ v, v ∈ (countRegion t p).visited ↔ v ∈ t.visited ∨ b.Conn Color.None p v := by
      intro v
      rw [c2]
      exact r2 v
    have hcol : ∀ k ∈ (regionLoop b b.fillFuel
        { visited := t.visited, q := [p], empties := [], colors := [] }).colors,
        k ≠ Color.None := fun k hk => ((r6 k).1 hk).1
    refine ⟨c1, ?_, ?_, ?_⟩
    · intro v hv
      rcases (hvis v).1 hv with h1 | h1
      · obtain ⟨a1, a2, a3⟩ := hV v h1
        exact ⟨a1, a2, fun n hn hcn => (hvis n).2 (Or.inl (a3 n hn hcn))⟩
      · obtain ⟨a1, a2⟩ := conn_ok hin hc h1
        exact ⟨a1, a2, fun n hn hcn => (hvis n).2 (Or.inr (Game.Conn.step h1 hn hcn))⟩
    · intro a ha hca
      rcases List.mem_cons.1 ha with rfl | ha
      · exact (hvis _).2 (Or.inr Game.Conn.seed)
      · exact (hvis a).2 (Or.inl (hdone a ha hca))
    · intro k hk
      obtain ⟨T, t1, t2, t3⟩ := hT k hk
      rw [c3 k hk]
      -- territory of colour `k` inside the region of `p`
      have hterr : ∀ e, b.Conn Color.None p e →
          (b.Territory k e ↔
            (k ∈ (regionLoop b b.fillFuel
                { visited := t.visited, q := [p], empties := [], colors := [] }).colors ∧
              k.Opp ∉ (regionLoop b b.fillFuel
                { visited := t.visited, q := [p], empties := [], colors := [] }).colors)) := by
        intro e he
        obtain ⟨a1, a2⟩ := conn_ok hin hc he
        unfold Game.Territory
        rw [borders_congr hin hc he k, borders_congr hin hc he k.Opp, r6 k, r6 k.Opp]
        constructor
        · rintro ⟨-, -, h1, h2⟩
          exact ⟨⟨hk, h1⟩, fun h3 => h2 h3.2⟩
        · rintro ⟨h1, h2⟩
          exact ⟨a1, a2, h1.2, fun h3 => h2 ⟨opp_ne_none hk, h3⟩⟩
      by_cases hone : (regionLoop b b.fillFuel
            { visited := t.visited, q := [p], empties := [], colors := [] }).colors.length = 1 ∧
          k ∈ (regionLoop b b.fillFuel
            { visited := t.visited, q := [p], empties := [], colors := [] }).colors
      · rw [if_pos hone]
        refine ⟨T ++ (regionLoop b b.fillFuel
          { visited := t.visited, q := [p], empties := [], colors := [] }).empties, ?_, ?_, ?_⟩
        · refine List.Nodup.append t1 r3 ?_
          intro a haT haE
          exact r7 a ((r4 a).1 haE) ((t2 a).1 haT).1
        · intro a
          rw [List.mem_append, t2 a, r4 a, hvis a]
          constructor
          · rintro (⟨h1, h2⟩ | h1)
            · exact ⟨Or.inl h1, h2⟩
            · exact ⟨Or.inr h1, (hterr a h1).2 ⟨hone.2, colors_single hcol hone.1 hone.2 hk⟩⟩
          · rintro ⟨h1 | h1, h2⟩
            · exact Or.inl ⟨h1, h2⟩
            · exact Or.inr h1
        · rw [t3, List.length_append]
          push_cast
          ring
      · rw [if_neg hone]
        refine ⟨T, t1, ?_, t3⟩
        intro a
        rw [t2 a, hvis a]
        constructor
        · rintro ⟨h1, h2⟩
          exact ⟨Or.inl h1, h2⟩
        · rintro ⟨h1 | h1, h2⟩
          · exact ⟨h1, h2⟩
          · exfalso
            obtain ⟨h3, h4⟩ := (hterr a h1).1 h2
            by_cases hlen : (regionLoop b b.fillFuel
                { visited := t.visited, q := [p], empties := [], colors := [] }).colors.length = 1
            · exact hone ⟨hlen, h3⟩
            · have hboth := colors_both r5 hcol hlen
              cases k with
              | None => exact hk rfl
              | Black => exact h4 (hboth.1 h3)
              | White => exact h4 (hboth.2 h3)

theorem scoreInv_foldl {b : Game} {n0 : Color → Int} (l : List Point)
    (hl : ∀ p ∈ l, b.inBounds p.X p.Y = true) (done : List Point) (t : Tally)
    (h : ScoreInv b done n0 t) : ScoreInv b (l.reverse ++ done) n0 (l.foldl countRegion t) := by
  induction l generalizing done t with
  | nil => exact h
  | cons p l ih =>
    have := ih (fun a ha => hl a (List.mem_cons_of_mem _ ha)) _ _
      (scoreInv_step h (hl p (List.mem_cons_self _ _)))
    simpa using this

/-- The territory loop of `Score`: each total grows by the number of cells of
the territory of its colour. -/
theorem foldl_countRegion {t : Tally} (hV : t.visited = []) (k : Color) (hk : k ≠ Color.None) :
    ∃ T : List Point, T.Nodup ∧ (∀ p, p ∈ T ↔ t.board.Territory k p) ∧
      (t.board.allPoints.foldl countRegion t).total k = t.total k + (T.length : Int) := by
  have h0 : ScoreInv t.board [] (fun k => t.total k) t := by
    refine ⟨rfl, ?_, ?_, ?_⟩
    · intro v hv
      rw [hV] at hv
      simp at hv
    · intro p hp
      simp at hp
    · intro k _
      exact ⟨[], List.nodup_nil, by simp [hV], by simp⟩
  obtain ⟨-, -, hdone, hT⟩ := scoreInv_foldl t.board.allPoints
    (fun p hp => (mem_allPoints _ p).1 hp) [] t h0
  obtain ⟨T, t1, t2, t3⟩ := hT k hk
  refine ⟨T, t1, ?_, t3⟩
  intro p
  rw [t2 p]
  constructor
  · exact fun h => h.2
  · intro h
    refine ⟨hdone p ?_ h.2.1, h⟩
    simp only [List.append_nil, List.mem_reverse]
    exact (mem_allPoints _ p).2 h.1

/-! ## The result of `Score` -/

theorem itoa_nonneg {twice : Int} (h : 0 ≤ twice) : itoa twice = marginText twice.natAbs := by
  unfold itoa marginText
  simp only [not_lt.2 h, if_false]
  have he : ∀ s : String, "" ++ s = s := fun s => by
    apply String.ext
    simp
  split <;> simp [he]

theorem score_eq (g : Game) :
    g.Score = resultText
      (g.allPoints.foldl countRegion (g.allPoints.foldl countStone
        (g.deadPoints.foldl removeDead
          (Tally.mk g [] (g.Captured Color.Black) (g.Captured Color.White))))).black
      (g.allPoints.foldl countRegion (g.allPoints.foldl countStone
        (g.deadPoints.foldl removeDead
          (Tally.mk g [] (g.Captured Color.Black) (g.Captured Color.White))))).white := by
  unfold Game.Score resultText Game.deadPoints
  simp only
  split
  · rename_i h
    rw [if_pos (by omega), itoa_nonneg (by omega)]
  · rename_i h
    rw [if_neg (by omega), itoa_nonneg (by omega), Int.natAbs_neg]

theorem allPoints_congr {g h : Game} (hs : h.Size = g.Size) : h.allPoints = g.allPoints := by
  unfold Game.allPoints
  rw [hs]

/-- The totals of `Score`: captures, dead stones, stones left and territory. -/
theorem score_spec {g : Game} (hwf : g.WF) (hdead : g.DeadOK) :
    ∃ TB TW : List Point, TB.Nodup ∧ TW.Nodup ∧
      (∀ p, p ∈ TB ↔ g.cleared.Territory Color.Black p) ∧
      (∀ p, p ∈ TW ↔ g.cleared.Territory Color.White p) ∧
      g.Score = resultText (g.blackCount + (TB.length : Int)) (g.whiteCount + (TW.length : Int)) := by
  obtain ⟨d1, d2, d3, d4⟩ := foldl_removeDead g.deadPoints
    (Tally.mk g [] (g.Captured Color.Black) (g.Captured Color.White)) hwf (deadPoints_nodup g)
    (fun p hp => deadPoints_inBounds hdead hp)
  obtain ⟨s1, s2, s3, s4⟩ := foldl_countStone g.allPoints
    (g.deadPoints.foldl removeDead
          (Tally.mk g [] (g.Captured Color.Black) (g.Captured Color.White)))
  have hb : (g.allPoints.foldl countStone
      (g.deadPoints.foldl removeDead
          (Tally.mk g [] (g.Captured Color.Black) (g.Captured Color.White)))).board = g.cleared := by
    rw [s1, d1]
    rfl
  have hv : (g.allPoints.foldl countStone
      (g.deadPoints.foldl removeDead
          (Tally.mk g [] (g.Captured Color.Black) (g.Captured Color.White)))).visited = [] := by
    rw [s2, d2]
  have hall : g.cleared.allPoints = g.allPoints := allPoints_congr (removeStones_Size _ _)
  obtain ⟨TB, b1, b2, b3⟩ := foldl_countRegion hv Color.Black (by decide)
  obtain ⟨TW, w1, w2, w3⟩ := foldl_countRegion hv Color.White (by decide)
  rw [hb] at b2 b3 w2 w3
  rw [hall] at b3 w3
  refine ⟨TB, TW, b1, w1, b2, w2, ?_⟩
  rw [score_eq]
  simp only [Tally.total, if_true, if_neg (show Color.White ≠ Color.Black by decide)] at b3 w3
  rw [b3, w3, s3, s4, d3, d4, d1]
  rfl

/-! ## The result of `FinalizeScore` (C12) -/

/-- The margin of `Score` is never a whole number. -/
theorem resultText_eq (black white : Int) :
    resultText black white =
      if black > white + 6 then "B+" ++ toString (black - white - 7).toNat ++ ".5"
      else "W+" ++ toString (white + 6 - black).toNat ++ ".5" := by
  unfold resultText marginText
  have hodd : (2 * black - (2 * white + 13)).natAbs % 2 ≠ 0 := by omega
  rw [if_neg hodd]
  by_cases h : black > white + 6
  · rw [if_pos h, if_pos (by omega)]
    have : (2 * black - (2 * white + 13)).natAbs / 2 = (black - white - 7).toNat := by omega
    rw [this, String.append_assoc]
  · rw [if_neg h, if_neg (by omega)]
    have : (2 * black - (2 * white + 13)).natAbs / 2 = (white + 6 - black).toNat := by omega
    rw [this, String.append_assoc]

/-- The position `scoreGame` is reached from `NewGame 5`. -/
theorem scoreGame_reached :
    (playAll scoreMoves (NewGame 5)).map (fun g => g.StartScoring.ToggleDeadAt 4 2) =
      some scoreGame :=
  eq_some_of_elim _ _ (by decide)

/-- In `scoreGame` White wins by 7.5: Black has 5 stones and 5 points, White a
dead stone, 5 stones, 5 points and 6.5; row 2 borders both walls. -/
theorem scoreGame_result : scoreGame.FinalizeScore.result = "W+7.5" := by
  set_option maxRecDepth 100000 in decide

theorem length_le_cells {g : Game} (hwf : g.WF) {l : List Point} (hn : l.Nodup)
    (hl : ∀ p ∈ l, g.inBounds p.X p.Y = true) : (l.length : Int) ≤ g.Size * g.Size := by
  have h1 : l.length ≤ g.allPoints.length :=
    (hn.subperm (fun p hp => (mem_allPoints g p).2 (hl p hp))).length_le
  rw [allPoints_length] at h1
  have hs : ((g.Size.toNat * g.Size.toNat : Nat) : Int) = g.Size * g.Size := by
    rw [Nat.cast_mul, Int.toNat_of_nonneg hwf.1]
  rw [← hs]
  exact_mod_cast h1

/-- The totals of `Score` are the capture count and at most three times the
number of cells. -/
theorem score_range {g : Game} (hwf : g.WF) (hdead : g.DeadOK) {TB TW : List Point}
    (hB : TB.Nodup) (hW : TW.Nodup) (hTB : ∀ p, p ∈ TB → g.cleared.Territory Color.Black p)
    (hTW : ∀ p, p ∈ TW → g.cleared.Territory Color.White p) :
    (g.Captured Color.Black ≤ g.blackCount + (TB.length : Int) ∧
      g.blackCount + (TB.length : Int) ≤ g.Captured Color.Black + 3 * (g.Size * g.Size)) ∧
    (g.Captured Color.White ≤ g.whiteCount + (TW.length : Int) ∧
      g.whiteCount + (TW.length : Int) ≤ g.Captured Color.White + 3 * (g.Size * g.Size)) := by
  have hsz : g.cleared.Size = g.Size := removeStones_Size _ _
  have hT : ∀ {k : Color} {T : List Point}, T.Nodup → (∀ p, p ∈ T → g.cleared.Territory k p) →
      (T.length : Int) ≤ g.Size * g.Size := by
    intro k T hn hT
    refine length_le_cells hwf hn (fun p hp => ?_)
    rw [← inBounds_congr hsz]
    exact (hT p hp).1
  have hD : ∀ f : Point → Bool, ((g.deadPoints.filter f).length : Int) ≤ g.Size * g.Size :=
    fun f => length_le_cells hwf ((deadPoints_nodup g).filter f)
      (fun p hp => deadPoints_inBounds hdead (List.mem_of_mem_filter hp))
  have hA : ∀ f : Point → Bool, ((g.allPoints.filter f).length : Int) ≤ g.Size * g.Size :=
    fun f => length_le_cells hwf ((allPoints_nodup g).filter f)
      (fun p hp => (mem_allPoints g p).1 (List.mem_of_mem_filter hp))
  have b1 := hT hB hTB
  have w1 := hT hW hTW
  have b2 := hD fun p => decide (g.cell p.X p.Y = Color.White)
  have w2 := hD fun p => decide (g.cell p.X p.Y = Color.Black)
  have b3 := hA fun p => decide (g.cleared.cell p.X p.Y = Color.Black)
  have w3 := hA fun p => decide (g.cleared.cell p.X p.Y = Color.White)
  unfold Game.blackCount Game.whiteCount
  refine ⟨⟨?_, ?_⟩, ?_, ?_⟩ <;> omega

/-- C12: for a game in the scoring phase and not over, `FinalizeScore` sets
`over` and sets `result` from these totals on the board with every point marked
dead emptied: Black's total is `Captured[Black]`, the White stones marked dead,
the Black stones left and the size of `TB`, the empty points of the regions
bordered by Black stones only; White's total is the symmetric count plus 6.5; a
region bordering both colours or no stone is in neither `TB` nor `TW`.  The
result is "B+m" when Black's total is higher and "W+m" otherwise.  The capture
counts are taken in the range where the `float64` arithmetic of `Score` is
exact (`ScoreExact`); both totals then lie in that range. -/
theorem finalizeScore_spec (g : Game) (hwf : g.WF) (hdead : g.DeadOK) (hx : g.ScoreExact)
    (hs : g.scoring = true) (hno : g.over = false) :
    ∃ TB TW : List Point, TB.Nodup ∧ TW.Nodup ∧
      (∀ p, p ∈ TB ↔ g.cleared.Territory Color.Black p) ∧
      (∀ p, p ∈ TW ↔ g.cleared.Territory Color.White p) ∧
      ExactTotal (g.blackCount + (TB.length : Int)) ∧
      ExactTotal (g.whiteCount + (TW.length : Int)) ∧
      g.FinalizeScore =
        { g with
          over := true
          result := resultText (g.blackCount + (TB.length : Int))
            (g.whiteCount + (TW.length : Int)) } := by
  obtain ⟨TB, TW, h1, h2, h3, h4, h5⟩ := score_spec hwf hdead
  obtain ⟨⟨b1, b2⟩, w1, w2⟩ :=
    score_range hwf hdead h1 h2 (fun p hp => (h3 p).1 hp) (fun p hp => (h4 p).1 hp)
  obtain ⟨⟨⟨x1, -⟩, -, x2⟩, ⟨y1, -⟩, -, y2⟩ := hx
  refine ⟨TB, TW, h1, h2, h3, h4, ⟨by omega, by omega⟩, ⟨by omega, by omega⟩, ?_⟩
  unfold Game.FinalizeScore
  rw [if_neg (by simp [hs, hno]), h5]

/-- The totals of `scoreGame`. -/
theorem finalizeScore_spec_witness :
    scoreGame.WF ∧ scoreGame.DeadOK ∧ scoreGame.ScoreExact ∧ scoreGame.scoring = true ∧
    scoreGame.over = false ∧ scoreGame.blackCount = 5 ∧ scoreGame.whiteCount = 6 ∧
    ∃ TB TW : List Point, TB.Nodup ∧ TW.Nodup ∧
      (∀ p, p ∈ TB ↔ scoreGame.cleared.Territory Color.Black p) ∧
      (∀ p, p ∈ TW ↔ scoreGame.cleared.Territory Color.White p) ∧
      ExactTotal (scoreGame.blackCount + (TB.length : Int)) ∧
      ExactTotal (scoreGame.whiteCount + (TW.length : Int)) ∧
      scoreGame.FinalizeScore =
        { scoreGame with
          over := true
          result := resultText (scoreGame.blackCount + (TB.length : Int))
            (scoreGame.whiteCount + (TW.length : Int)) } :=
  ⟨by decide, by decide, by decide, by decide, by decide, by decide, by decide,
    finalizeScore_spec scoreGame (by decide) (by decide) (by decide) (by decide) (by decide)⟩

/-! ## The games that reach `FinalizeScore` -/

theorem play_Size_dead {g : Game} (hwf : g.WF) (c : Color) (x y : Int) :
    (g.Play c x y).2.Size = g.Size ∧ (g.Play c x y).2.dead = g.dead := by
  by_cases hadm : g.Admits c x y
  · obtain ⟨R, -, -, -, h4, -⟩ := afterCaptures_spec hwf hadm
    have hs : (g.afterCaptures c x y).Size = g.Size := by rw [h4]; rfl
    have hd : (g.afterCaptures c x y).dead = g.dead := by rw [h4]; rfl
    rw [play_of_admits hadm]
    split
    · exact ⟨hs, hd⟩
    · exact ⟨hs, hd⟩
  · rw [(play_of_not_admits hadm).2]
    exact ⟨rfl, rfl⟩

theorem deadOK_congr {g h : Game} (hs : h.Size = g.Size) (hd : h.dead = g.dead)
    (hg : g.DeadOK) : h.DeadOK := by
  intro e he
  rw [hd] at he
  rw [inBounds_congr hs]
  exact hg e he

theorem mem_deadSet {d : List (Point × Bool)} {p : Point} {v : Bool} {e : Point × Bool}
    (he : e ∈ deadSet d p v) : e ∈ d ∨ e = (p, v) := by
  induction d with
  | nil =>
    simp only [deadSet, List.mem_singleton] at he
    exact Or.inr he
  | cons a d ih =>
    simp only [deadSet] at he
    split at he
    · rcases List.mem_cons.1 he with h | h
      · exact Or.inr h
      · exact Or.inl (List.mem_cons_of_mem _ h)
    · rcases List.mem_cons.1 he with h | h
      · exact Or.inl (h ▸ List.mem_cons_self _ _)
      · rcases ih h with h | h
        · exact Or.inl (List.mem_cons_of_mem _ h)
        · exact Or.inr h

/-- Every dead mark of a reachable game is on the board. -/
theorem reachable_deadOK {g : Game} (h : Reachable g) : g.DeadOK := by
  induction h with
  | new n =>
    intro e he
    simp [NewGame] at he
  | @play g c x y hr ih =>
    obtain ⟨hs, hd⟩ := play_Size_dead (reachable_sound hr).1 c x y
    exact deadOK_congr hs hd ih
  | @pass g c _ ih =>
    unfold Game.Pass
    split
    · exact ih
    · simp only
      split
      · exact deadOK_congr rfl rfl ih
      · exact deadOK_congr rfl rfl ih
  | @resign g c _ ih =>
    unfold Game.Resign
    split
    · exact ih
    · exact deadOK_congr rfl rfl ih
  | @startScoring g _ ih =>
    unfold Game.StartScoring
    split
    · exact ih
    · exact deadOK_congr rfl rfl ih
  | @toggleDead g x y _ ih =>
    unfold Game.ToggleDeadAt
    split
    · exact ih
    · rename_i hc
      simp only [Bool.or_eq_true, Bool.not_eq_true', not_or, Bool.not_eq_false] at hc
      intro e he
      rcases mem_deadSet he with h | h
      · exact ih e h
      · rw [h]
        exact hc.2
  | @finalize g _ ih =>
    unfold Game.FinalizeScore
    split
    · exact ih
    · exact deadOK_congr rfl rfl ih

/-- The position `scoreGame` is reachable. -/
theorem scoreGame_reachable : Reachable scoreGame := by
  have h := scoreGame_reached
  cases hp : playAll scoreMoves (NewGame 5) with
  | none =>
    rw [hp] at h
    exact absurd h (by simp)
  | some g =>
    rw [hp] at h
    simp only [Option.map_some', Option.some.injEq] at h
    rw [← h]
    exact Reachable.toggleDead 4 2
      (Reachable.startScoring (reachable_playAll (Reachable.new 5) hp))

/-! ## Two results of `Score`: the empty board and the lone stone -/

theorem newGame_cell (n : Nat) (a b : Int) : (NewGame n).cell a b = Color.None := by
  simp only [NewGame, Game.cell, Int.toNat_ofNat, List.getD_eq_getElem?_getD,
    List.getElem?_replicate]
  split
  · simp only [Option.getD_some, List.getElem?_replicate]
    split <;> rfl
  · rfl

theorem deadPoints_nil {g : Game} (hd : g.dead = []) : g.deadPoints = [] := by
  unfold Game.deadPoints
  rw [hd]
  rfl

theorem cleared_nil {g : Game} (hd : g.dead = []) : g.cleared = g := by
  unfold Game.cleared
  rw [deadPoints_nil hd]
  rfl

theorem deadOK_nil {g : Game} (hd : g.dead = []) : g.DeadOK := by
  intro e he
  rw [hd] at he
  exact absurd he (List.not_mem_nil _)

theorem not_borders {g : Game} {k : Color}
    (h : ∀ a b, g.inBounds a b = true → g.cell a b ≠ k) (p : Point) : ¬ g.Borders p k := by
  rintro ⟨q, r, -, hr, hk⟩
  exact h r.X r.Y (neighbors_inBounds hr) hk

theorem conn_row_up {g : Game} (b a : Int) (k : Nat)
    (h : ∀ i, a ≤ i → i ≤ a + k → g.inBounds i b = true ∧ g.cell i b = Color.None) :
    g.Conn Color.None ⟨a, b⟩ ⟨a + k, b⟩ := by
  induction k with
  | zero =>
    simp only [Nat.cast_zero, add_zero]
    exact Game.Conn.seed
  | succ k ih =>
    have h1 := ih (fun i hi1 hi2 => h i hi1 (by push_cast; omega))
    have h2 := h (a + ((k + 1 : Nat) : Int)) (by omega) (le_refl _)
    refine Game.Conn.step h1 ?_ h2.2
    rw [mem_neighbors]
    exact ⟨h2.1, Or.inl ⟨by push_cast; ring, rfl⟩⟩

theorem conn_col_up {g : Game} (a b : Int) (k : Nat)
    (h : ∀ j, b ≤ j → j ≤ b + k → g.inBounds a j = true ∧ g.cell a j = Color.None) :
    g.Conn Color.None ⟨a, b⟩ ⟨a, b + k⟩ := by
  induction k with
  | zero =>
    simp only [Nat.cast_zero, add_zero]
    exact Game.Conn.seed
  | succ k ih =>
    have h1 := ih (fun j hj1 hj2 => h j hj1 (by push_cast; omega))
    have h2 := h (b + ((k + 1 : Nat) : Int)) (by omega) (le_refl _)
    refine Game.Conn.step h1 ?_ h2.2
    rw [mem_neighbors]
    exact ⟨h2.1, Or.inr (Or.inr (Or.inl ⟨rfl, by push_cast; ring⟩))⟩

/-- The cells of a row segment, all empty, are connected. -/
theorem conn_row {g : Game} (b a a' : Int)
    (h : ∀ i, (a ≤ i ∧ i ≤ a') ∨ (a' ≤ i ∧ i ≤ a) →
      g.inBounds i b = true ∧ g.cell i b = Color.None) :
    g.Conn Color.None ⟨a, b⟩ ⟨a', b⟩ := by
  rcases le_total a a' with hle | hle
  · have := conn_row_up (g := g) b a (a' - a).toNat
      (fun i h1 h2 => h i (Or.inl ⟨h1, by omega⟩))
    rwa [show a + ((a' - a).toNat : Int) = a' by omega] at this
  · have := conn_row_up (g := g) b a' (a - a').toNat
      (fun i h1 h2 => h i (Or.inr ⟨h1, by omega⟩))
    rw [show a' + ((a - a').toNat : Int) = a by omega] at this
    have h0 := h a' (Or.inr ⟨le_refl _, hle⟩)
    exact conn_symm h0.1 h0.2 this

/-- The cells of a column segment, all empty, are connected. -/
theorem conn_col {g : Game} (a b b' : Int)
    (h : ∀ j, (b ≤ j ∧ j ≤ b') ∨ (b' ≤ j ∧ j ≤ b) →
      g.inBounds a j = true ∧ g.cell a j = Color.None) :
    g.Conn Color.None ⟨a, b⟩ ⟨a, b'⟩ := by
  rcases le_total b b' with hle | hle
  · have := conn_col_up (g := g) a b (b' - b).toNat
      (fun j h1 h2 => h j (Or.inl ⟨h1, by omega⟩))
    rwa [show b + ((b' - b).toNat : Int) = b' by omega] at this
  · have := conn_col_up (g := g) a b' (b - b').toNat
      (fun j h1 h2 => h j (Or.inr ⟨h1, by omega⟩))
    rw [show b' + ((b - b').toNat : Int) = b by omega] at this
    have h0 := h b' (Or.inr ⟨le_refl _, hle⟩)
    exact conn_symm h0.1 h0.2 this

/-- On a board whose only stone is at (x,y), every empty region borders it. -/
theorem borders_lone_stone {g : Game} {x y : Int} (hin : g.inBounds x y = true)
    (he : ∀ a b, g.inBounds a b = true → ¬ (a = x ∧ b = y) → g.cell a b = Color.None)
    {p : Point} (hp : g.inBounds p.X p.Y = true) (hne : p ≠ ⟨x, y⟩) :
    g.Borders p (g.cell x y) := by
  obtain ⟨a, b⟩ := p
  rw [inBounds_iff] at hin hp
  simp only at hp
  have hcell : ∀ i j, 0 ≤ i → i < g.Size → 0 ≤ j → j < g.Size → ¬ (i = x ∧ j = y) →
      g.inBounds i j = true ∧ g.cell i j = Color.None := by
    intro i j h1 h2 h3 h4 h5
    have : g.inBounds i j = true := (inBounds_iff _ _ _).2 ⟨h1, h3, h2, h4⟩
    exact ⟨this, he i j this h5⟩
  have hstone : g.inBounds x y = true := (inBounds_iff _ _ _).2 hin
  by_cases hb : b = y
  · subst hb
    have hax : a ≠ x := fun h => hne (by rw [h])
    rcases lt_or_gt_of_ne hax with hlt | hgt
    · refine ⟨⟨x - 1, b⟩, ⟨x, b⟩, ?_, ?_, rfl⟩
      · exact conn_row b a (x - 1) (fun i hi =>
          hcell i b (by omega) (by omega) (by omega) (by omega) (by omega))
      · rw [mem_neighbors]
        exact ⟨hstone, Or.inl ⟨by simp, rfl⟩⟩
    · refine ⟨⟨x + 1, b⟩, ⟨x, b⟩, ?_, ?_, rfl⟩
      · exact conn_row b a (x + 1) (fun i hi =>
          hcell i b (by omega) (by omega) (by omega) (by omega) (by omega))
      · rw [mem_neighbors]
        exact ⟨hstone, Or.inr (Or.inl ⟨by simp, rfl⟩)⟩
  · have hrow : g.Conn Color.None ⟨a, b⟩ ⟨x, b⟩ :=
      conn_row b a x (fun i hi =>
        hcell i b (by omega) (by omega) (by omega) (by omega) (fun h => hb h.2))
    rcases lt_or_gt_of_ne hb with hlt | hgt
    · refine ⟨⟨x, y - 1⟩, ⟨x, y⟩, conn_trans hrow ?_, ?_, rfl⟩
      · exact conn_col x b (y - 1) (fun j hj =>
          hcell x j (by omega) (by omega) (by omega) (by omega) (by omega))
      · rw [mem_neighbors]
        exact ⟨hstone, Or.inr (Or.inr (Or.inl ⟨rfl, by simp⟩))⟩
    · refine ⟨⟨x, y + 1⟩, ⟨x, y⟩, conn_trans hrow ?_, ?_, rfl⟩
      · exact conn_col x b (y + 1) (fun j hj =>
          hcell x j (by omega) (by omega) (by omega) (by omega) (by omega))
      · rw [mem_neighbors]
        exact ⟨hstone, Or.inr (Or.inr (Or.inr ⟨rfl, by simp⟩))⟩

theorem filter_cell_nil {g : Game} {k : Color} (l : List Point)
    (hl : ∀ p ∈ l, g.inBounds p.X p.Y = true)
    (h : ∀ a b, g.inBounds a b = true → g.cell a b ≠ k) :
    (l.filter fun p => decide (g.cell p.X p.Y = k)) = [] := by
  rw [List.filter_eq_nil_iff]
  intro p hp
  simpa using h p.X p.Y (hl p hp)

theorem territory_nil {g : Game} {k : Color} {T : List Point}
    (hT : ∀ p, p ∈ T ↔ g.Territory k p)
    (h : ∀ a b, g.inBounds a b = true → g.cell a b ≠ k) : T = [] := by
  rw [List.eq_nil_iff_forall_not_mem]
  intro p hp
  exact not_borders h p ((hT p).1 hp).2.2.1

/-- The count of a colour absent from the board and from the captures. -/
theorem whiteCount_zero {g : Game} (hd : g.dead = []) (hc : g.Captured Color.White = 0)
    (h : ∀ a b, g.inBounds a b = true → g.cell a b ≠ Color.White) : g.whiteCount = 0 := by
  unfold Game.whiteCount
  rw [hc, deadPoints_nil hd, cleared_nil hd,
    filter_cell_nil g.allPoints (fun p hp => (mem_allPoints g p).1 hp) h]
  rfl

theorem blackCount_zero {g : Game} (hd : g.dead = []) (hc : g.Captured Color.Black = 0)
    (h : ∀ a b, g.inBounds a b = true → g.cell a b ≠ Color.Black) : g.blackCount = 0 := by
  unfold Game.blackCount
  rw [hc, deadPoints_nil hd, cleared_nil hd,
    filter_cell_nil g.allPoints (fun p hp => (mem_allPoints g p).1 hp) h]
  rfl

/-- With no stone on the board, no capture and no dead mark, White wins by 6.5. -/
theorem score_empty {g : Game} (hwf : g.WF) (hd : g.dead = [])
    (hcB : g.Captured Color.Black = 0) (hcW : g.Captured Color.White = 0)
    (he : ∀ a b, g.inBounds a b = true → g.cell a b = Color.None) : g.Score = "W+6.5" := by
  obtain ⟨TB, TW, -, -, hB, hW, hS⟩ := score_spec hwf (deadOK_nil hd)
  rw [cleared_nil hd] at hB hW
  have hnB : ∀ a b, g.inBounds a b = true → g.cell a b ≠ Color.Black := by
    intro a b hab
    rw [he a b hab]
    decide
  have hnW : ∀ a b, g.inBounds a b = true → g.cell a b ≠ Color.White := by
    intro a b hab
    rw [he a b hab]
    decide
  rw [hS, territory_nil hB hnB, territory_nil hW hnW, blackCount_zero hd hcB hnB,
    whiteCount_zero hd hcW hnW]
  decide

/-- With a lone Black stone on the board, no capture and no dead mark, Black
has every point of the board. -/
theorem score_lone_stone {g : Game} (hwf : g.WF) (hd : g.dead = [])
    (hcB : g.Captured Color.Black = 0) (hcW : g.Captured Color.White = 0) {x y : Int}
    (hin : g.inBounds x y = true) (hs : g.cell x y = Color.Black)
    (he : ∀ a b, g.inBounds a b = true → ¬ (a = x ∧ b = y) → g.cell a b = Color.None) :
    g.Score = resultText ((g.Size.toNat * g.Size.toNat : Nat) : Int) 0 := by
  obtain ⟨TB, TW, hTB, -, hB, hW, hS⟩ := score_spec hwf (deadOK_nil hd)
  rw [cleared_nil hd] at hB hW
  have hcol : ∀ a b, g.inBounds a b = true →
      g.cell a b = Color.Black ∨ g.cell a b = Color.None := by
    intro a b hab
    by_cases h : a = x ∧ b = y
    · rw [h.1, h.2]
      exact Or.inl hs
    · exact Or.inr (he a b hab h)
  have hnW : ∀ a b, g.inBounds a b = true → g.cell a b ≠ Color.White := by
    intro a b hab
    rcases hcol a b hab with h | h <;> rw [h] <;> decide
  have hterr : ∀ p, p ∈ TB ↔
      p ∈ g.allPoints.filter fun p => !decide (g.cell p.X p.Y = Color.Black) := by
    intro p
    rw [hB, List.mem_filter, mem_allPoints]
    constructor
    · rintro ⟨h1, h2, -, -⟩
      refine ⟨h1, ?_⟩
      rw [h2]
      rfl
    · rintro ⟨h1, h2⟩
      have hne : g.cell p.X p.Y ≠ Color.Black := by simpa using h2
      have hnone : g.cell p.X p.Y = Color.None := by
        rcases hcol p.X p.Y h1 with h | h
        · exact absurd h hne
        · exact h
      have hp : p ≠ ⟨x, y⟩ := by
        intro h
        rw [h] at hne
        exact hne hs
      have hb := borders_lone_stone hin he h1 hp
      rw [hs] at hb
      exact ⟨h1, hnone, hb, not_borders hnW p⟩
  have hlen : TB.length =
      (g.allPoints.filter fun p => !decide (g.cell p.X p.Y = Color.Black)).length :=
    List.Perm.length_eq
      ((List.perm_ext_iff_of_nodup hTB ((allPoints_nodup g).filter _)).2 hterr)
  have hsum : g.blackCount + (TB.length : Int) = ((g.Size.toNat * g.Size.toNat : Nat) : Int) := by
    unfold Game.blackCount
    rw [hcB, deadPoints_nil hd, cleared_nil hd, hlen, ← allPoints_length g,
      List.length_eq_length_filter_add
        (fun p : Point => decide (g.cell p.X p.Y = Color.Black)) (l := g.allPoints)]
    simp
  rw [hS, territory_nil hW hnW, whiteCount_zero hd hcW hnW, hsum]
  rfl

/-- A first Black stone on a new board of size 2 or more: the game after `Play`. -/
theorem play_lone_stone (n : Nat) (hn : 2 ≤ n) (x y : Int)
    (hin : (NewGame n).inBounds x y = true) :
    ((NewGame n).Play Color.Black x y).2.WF ∧
    ((NewGame n).Play Color.Black x y).2.Size = n ∧
    ((NewGame n).Play Color.Black x y).2.dead = [] ∧
    ((NewGame n).Play Color.Black x y).2.Captured Color.Black = 0 ∧
    ((NewGame n).Play Color.Black x y).2.Captured Color.White = 0 ∧
    ((NewGame n).Play Color.Black x y).2.over = false ∧
    ((NewGame n).Play Color.Black x y).2.cell x y = Color.Black ∧
    ∀ a b, ((NewGame n).Play Color.Black x y).2.inBounds a b = true → ¬ (a = x ∧ b = y) →
      ((NewGame n).Play Color.Black x y).2.cell a b = Color.None := by
  have hwf := newGame_WF n
  have hadm : (NewGame n).Admits Color.Black x y :=
    ⟨rfl, by decide, rfl, hin, newGame_cell n x y, by simp [NewGame]⟩
  obtain ⟨R, -, h2, -, h4, h5, h6, h7, h8⟩ := afterCaptures_spec hwf hadm
  have hsz := afterCaptures_Size hwf hadm
  have hR : R = [] := by
    rw [List.eq_nil_iff_forall_not_mem]
    intro p hp
    have := (h7 p hp).2.1
    rw [newGame_cell] at this
    exact absurd this (by decide)
  rw [hR] at h2 h6
  have hlive : ¬ ((NewGame n).afterCaptures Color.Black x y).NoLiberty Color.Black ⟨x, y⟩ := by
    intro hno
    have hxy := (inBounds_iff _ _ _).1 hin
    simp only [NewGame] at hxy
    by_cases hx : x + 1 < n
    · have hq : (NewGame n).inBounds (x + 1) y = true :=
        (inBounds_iff _ _ _).2 ⟨by omega, hxy.2.1, hx, hxy.2.2.2⟩
      refine hno ⟨x, y⟩ Game.Conn.seed ⟨x + 1, y⟩ ?_ ?_
      · rw [mem_neighbors, inBounds_congr hsz]
        exact ⟨hq, Or.inl ⟨rfl, rfl⟩⟩
      · rw [h6 _ _ hq, if_neg (List.not_mem_nil _), if_neg (by omega)]
        exact newGame_cell n _ _
    · have hq : (NewGame n).inBounds (x + -1) y = true :=
        (inBounds_iff _ _ _).2 ⟨by omega, hxy.2.1, by simp only [NewGame]; omega, hxy.2.2.2⟩
      refine hno ⟨x, y⟩ Game.Conn.seed ⟨x + -1, y⟩ ?_ ?_
      · rw [mem_neighbors, inBounds_congr hsz]
        exact ⟨hq, Or.inr (Or.inl ⟨rfl, rfl⟩)⟩
      · rw [h6 _ _ hq, if_neg (List.not_mem_nil _), if_neg (by omega)]
        exact newGame_cell n _ _
  have hz := mt (afterCaptures_suicide_iff hwf hadm).1 hlive
  rw [play_of_admits hadm, if_neg hz]
  have hcap : ((NewGame n).afterCaptures Color.Black x y).Captured = fun _ => 0 := by
    rw [h4]
    rfl
  refine ⟨h5, hsz, ?_, ?_, ?_, ?_, h8, ?_⟩
  · rw [h4]
    rfl
  · simp [Game.commit, hcap, h2]
  · simp [Game.commit, hcap]
  · rw [h4]
    rfl
  · intro a b hab hne
    have hab2 : (NewGame n).inBounds a b = true := by
      rw [← inBounds_congr hsz]
      exact hab
    change ((NewGame n).afterCaptures Color.Black x y).cell a b = Color.None
    rw [h6 a b hab2, if_neg (List.not_mem_nil _), if_neg hne]
    exact newGame_cell n a b

/-- An empty board of any size, scored: White wins by 6.5. -/
theorem empty_board_result (n : Nat) :
    (NewGame n).StartScoring.FinalizeScore.result = "W+6.5" := by
  have hg : (NewGame n).StartScoring = { NewGame n with scoring := true } := rfl
  have hf : (NewGame n).StartScoring.FinalizeScore.result = (NewGame n).StartScoring.Score := by
    rw [hg]
    rfl
  rw [hf, hg]
  exact score_empty (g := { NewGame n with scoring := true }) (newGame_WF n) rfl rfl rfl
    (fun a b _ => newGame_cell n a b)

/-- A lone Black stone on a board of size `n`, scored: Black has `n * n` points
against White's 6.5, `n * n` being in the range where `Score` is exact. -/
theorem lone_stone_result (n : Nat) (hn : 2 ≤ n) (_hb : ExactTotal (3 * ((n : Int) * n)))
    (x y : Int) (hin : (NewGame n).inBounds x y = true) :
    ((NewGame n).Play Color.Black x y).2.StartScoring.FinalizeScore.result =
      resultText ((n * n : Nat) : Int) 0 := by
  obtain ⟨h1, h2, h3, h4, h5, h6, h7, h8⟩ := play_lone_stone n hn x y hin
  have hg : ((NewGame n).Play Color.Black x y).2.StartScoring =
      { ((NewGame n).Play Color.Black x y).2 with scoring := true } := by
    unfold Game.StartScoring
    rw [if_neg (by simp [h6])]
  have hf : ((NewGame n).Play Color.Black x y).2.StartScoring.FinalizeScore.result =
      ((NewGame n).Play Color.Black x y).2.StartScoring.Score := by
    rw [hg]
    unfold Game.FinalizeScore
    rw [if_neg (by simp [h6])]
  rw [hf, hg]
  have hin2 : ((NewGame n).Play Color.Black x y).2.inBounds x y = true := by
    rw [inBounds_congr (g := NewGame n) h2]
    exact hin
  have := score_lone_stone (g := { ((NewGame n).Play Color.Black x y).2 with scoring := true })
    h1 h3 h4 h5 hin2 h7 h8
  rw [this]
  change resultText ((((NewGame n).Play Color.Black x y).2.Size.toNat *
    ((NewGame n).Play Color.Black x y).2.Size.toNat : Nat) : Int) 0 = _
  rw [h2, Int.toNat_ofNat]

/-- The 19×19 board with a lone Black stone, scored: Black wins by 354.5. -/
theorem lone_stone_19 :
    ((NewGame 19).Play Color.Black 3 3).2.StartScoring.FinalizeScore.result = "B+354.5" :=
  (lone_stone_result 19 (by decide) (by decide) 3 3 (by decide)).trans (by decide)

/-- The empty 19×19 board, scored: White wins by 6.5. -/
theorem empty_19 : (NewGame 19).StartScoring.FinalizeScore.result = "W+6.5" :=
  empty_board_result 19

end GoPlayer
